import Mathlib

/-!
Verification model of the `emergence_engine` core (grammar inducer, MDL
scorer, emergence detector, engine orchestrator).

The Python source operates on lists of strings (tokens), dictionaries
keyed by strings (insertion-ordered in Python 3.7+), and floats.  The
shallow embedding below uses:

* `String` for token and symbol values,
* insertion-ordered association lists `List (String × _)` for Python
  dicts (`Grammar.rules`, `Grammar.terminals`, `Grammar.non_terminals`),
* `ℕ` for counts and `ℚ` for the (never observed) rule probabilities,
* `ℝ` for the float-valued MDL/entropy quantities (the usual
  idealisation of IEEE floats; every claim checked against these values
  is either structural or evaluates to exactly representable numbers),
* explicit fuel for the `while` loops of the source, with the fuel
  proven sufficient (each RePair iteration shortens the sequence, each
  changed inlining pass deletes a rule), and for the recursion of
  `reconstruct` (which in Python is unbounded recursion; on the
  grammars actually produced the recursion depth is bounded by the
  number of rules, which is the fuel used here).
-/

namespace EmergenceEngine

/-- Symbol kind tag: `symbols.py` stores `kind` as the strings
`"terminal"` / `"nonterminal"`; we model it as a two-value type. -/
inductive SymKind where
  | terminal : SymKind
  | nonterminal : SymKind
deriving DecidableEq, Repr

/-- `symbols.Symbol`: a frozen dataclass `(value, kind)`. -/
structure SymbolM where
  value : String
  kind : SymKind
deriving DecidableEq, Repr

/-- `grammar.ProductionRule`: `(lhs, rhs, frequency, probability)`.
Probabilities are floats in the source; they are written but never read
by any code under verification, so we keep them as exact rationals. -/
structure RuleM where
  lhs : SymbolM
  rhs : List SymbolM
  frequency : Nat
  probability : Rat
deriving DecidableEq, Repr

/-- `grammar.Grammar`: three insertion-ordered dicts and a start symbol.
Python dicts preserve insertion order; updating an existing key keeps
its position, a new key is appended at the end, `del` removes the key.
We model each dict as an association list with (invariantly) unique
keys. -/
structure GrammarM where
  rules : List (String × RuleM)
  terminals : List (String × SymbolM)
  nonTerminals : List (String × SymbolM)
  startSymbol : SymbolM
deriving DecidableEq, Repr

/-- Lookup in an insertion-ordered dict. -/
def lookupA {α : Type} (l : List (String × α)) (k : String) : Option α :=
  (l.find? (fun p => p.1 = k)).map (fun p => p.2)

/-- Key membership in an insertion-ordered dict. -/
def hasKey {α : Type} (l : List (String × α)) (k : String) : Bool :=
  l.any (fun p => p.1 = k)

/-- Python dict assignment `d[k] = v`: overwrite in place if the key
exists (keeping its position), otherwise append at the end. -/
def setA {α : Type} : List (String × α) → String → α → List (String × α)
  | [], k, v => [(k, v)]
  | p :: rest, k, v => if p.1 = k then (k, v) :: rest else p :: setA rest k v

/-- Python `del d[k]` (keys are unique, so filtering removes one entry). -/
def delA {α : Type} (l : List (String × α)) (k : String) : List (String × α) :=
  l.filter (fun p => p.1 ≠ k)

/-- `Grammar()`: empty dicts, start symbol `Symbol("S", "nonterminal")`. -/
def emptyGrammar : GrammarM :=
  { rules := [], terminals := [], nonTerminals := [],
    startSymbol := { value := "S", kind := SymKind.nonterminal } }

/-- Model of Python `str.isupper()` for the identifiers that occur here:
true iff the string has at least one cased (alphabetic) character and
no lowercase character.  (Python's notion of "cased" covers more of
Unicode; for the ASCII-style values handled by this program the two
agree.) -/
def pyIsUpper (s : String) : Bool :=
  s.data.any (fun c => c.isUpper || c.isLower) && s.data.all (fun c => !c.isLower)

/-- `Grammar._get_symbol`: resolve a value against non-terminals first,
then terminals, else create a new symbol whose kind is `nonterminal`
when `value.isupper()` and `terminal` otherwise, registering it in the
corresponding dict.  Returns the symbol and the (possibly extended)
grammar, since the source mutates the grammar in place. -/
def getSymbol (g : GrammarM) (v : String) : SymbolM × GrammarM :=
  match lookupA g.nonTerminals v with
  | some s => (s, g)
  | none =>
    match lookupA g.terminals v with
    | some s => (s, g)
    | none =>
      let s : SymbolM :=
        { value := v,
          kind := if pyIsUpper v then SymKind.nonterminal else SymKind.terminal }
      if s.kind = SymKind.terminal then
        (s, { g with terminals := g.terminals ++ [(v, s)] })
      else
        (s, { g with nonTerminals := g.nonTerminals ++ [(v, s)] })

/-- Resolve a list of RHS values left to right, threading the grammar
(the source is a list comprehension over `self._get_symbol`). -/
def getSymbols (g : GrammarM) : List String → List SymbolM × GrammarM
  | [] => ([], g)
  | v :: rest =>
    let (s, g') := getSymbol g v
    let (ss, g'') := getSymbols g' rest
    (s :: ss, g'')

/-- `Grammar.add_rule`: intern the LHS as non-terminal, resolve the RHS
values, store a rule with frequency 0 and probability 0, overwriting an
existing rule with the same LHS name. -/
def addRule (g : GrammarM) (lhsName : String) (rhsValues : List String) :
    RuleM × GrammarM :=
  let nts :=
    if hasKey g.nonTerminals lhsName then g.nonTerminals
    else g.nonTerminals ++ [(lhsName, { value := lhsName, kind := SymKind.nonterminal })]
  let g1 : GrammarM := { g with nonTerminals := nts }
  let lhs := (lookupA nts lhsName).getD { value := lhsName, kind := SymKind.nonterminal }
  let (rhs, g2) := getSymbols g1 rhsValues
  let rule : RuleM := { lhs := lhs, rhs := rhs, frequency := 0, probability := 0 }
  (rule, { g2 with rules := setA g2.rules lhsName rule })

/-- `Grammar.as_tuples`: snapshot `lhs ↦ list of RHS value strings`. -/
def asTuples (g : GrammarM) : List (String × List String) :=
  g.rules.map (fun p => (p.1, p.2.rhs.map (fun s => s.value)))

/-- `Grammar.clone`: recreate the symbol dicts, re-add every rule (which
re-resolves the RHS values), and copy frequency and probability. -/
def cloneM (g : GrammarM) : GrammarM :=
  let base : GrammarM :=
    { emptyGrammar with
      nonTerminals :=
        g.nonTerminals.map (fun p => (p.1, { value := p.1, kind := SymKind.nonterminal })),
      terminals :=
        g.terminals.map (fun p => (p.1, { value := p.1, kind := SymKind.terminal })) }
  g.rules.foldl
    (fun acc p =>
      let (_, acc') := addRule acc p.1 (p.2.rhs.map (fun s => s.value))
      { acc' with rules :=
          match lookupA acc'.rules p.1 with
          | some r =>
            setA acc'.rules p.1
              { r with frequency := p.2.frequency, probability := p.2.probability }
          | none => acc'.rules })
    base

/-- The rule names produced by the inducer: `f"R{rule_id}"` with the
default prefix `"R"` (the engine always constructs `RePair()` with the
default). -/
def ruleName (i : Nat) : String :=
  "R" ++ Nat.repr i

/-- `RePair._digram_counts` key order: Python's `Counter(zip(...))` is an
insertion-ordered dict whose keys appear in order of first occurrence.
`keysInOrder` extracts the distinct elements of a list in order of
first occurrence. -/
def keysInOrderGo : Nat → List (String × String) → List (String × String)
  | 0, _ => []
  | _, [] => []
  | fuel + 1, d :: rest => d :: keysInOrderGo fuel (rest.filter (fun x => x ≠ d))

/-- The distinct elements of a list in order of first occurrence (the
fuel `l.length` always suffices, since filtering only shortens). -/
def keysInOrder (l : List (String × String)) : List (String × String) :=
  keysInOrderGo l.length l

/-- Position of the first occurrence of an element in a list (the
length of the list when absent); used to state the leftmost tie-break
property of digram selection. -/
def posIn {α : Type} [DecidableEq α] : List α → α → Nat
  | [], _ => 0
  | x :: rest, a => if x = a then 0 else posIn rest a + 1

/-- The list of adjacent digrams of a sequence (`zip(seq, seq[1:])`). -/
def digramList (s : List String) : List (String × String) :=
  s.zip s.tail

/-- The number of (overlapping) occurrences of a digram in a sequence. -/
def digramCount (s : List String) (d : String × String) : Nat :=
  (digramList s).count d

/-- `RePair._digram_counts` as an association list in Counter key order. -/
def digramCounts (s : List String) : List ((String × String) × Nat) :=
  (keysInOrder (digramList s)).map (fun d => (d, digramCount s d))

/-- Python `max(items, key=lambda kv: kv[1])`: the first item attaining
the maximal value (later items replace the current best only when
strictly greater). -/
def pyMaxBySnd {α : Type} : List (α × Nat) → Option (α × Nat)
  | [] => none
  | x :: xs =>
    match pyMaxBySnd xs with
    | none => some x
    | some m => some (if x.2 < m.2 then m else x)

/-- The digram selected by one iteration of the RePair main loop (with
its count), or `none` when the sequence has no adjacent pair. -/
def selectDigram (s : List String) : Option ((String × String) × Nat) :=
  pyMaxBySnd (digramCounts s)

/-- The winning digram count (0 when there is no digram). -/
def winningCount (s : List String) : Nat :=
  match selectDigram s with
  | none => 0
  | some df => df.2

/-- `RePair._replace_all`: left-to-right greedy non-overlapping
replacement of the digram `(x, y)` by `lhs`. -/
def replaceAll (x y lhs : String) : List String → List String
  | [] => []
  | [a] => [a]
  | a :: b :: rest =>
    if a = x ∧ b = y then lhs :: replaceAll x y lhs rest
    else a :: replaceAll x y lhs (b :: rest)

/-- State of the RePair main loop: current sequence, grammar, next rule id. -/
abbrev RpState := List String × GrammarM × Nat

/-- One iteration of the `while True` loop of `RePair.compress` /
`compress_trace`: `none` is a `break` (no digrams, or winning count
below 2); otherwise add the rule `R<id> -> (x, y)` and replace. -/
def compressStep (st : RpState) : Option RpState :=
  match selectDigram st.1 with
  | none => none
  | some (d, f) =>
    if f < 2 then none
    else
      let lhs := ruleName st.2.2
      let (_, g') := addRule st.2.1 lhs [d.1, d.2]
      some (replaceAll d.1 d.2 lhs st.1, g', st.2.2 + 1)

/-- The main loop with fuel (each successful step strictly shortens the
sequence, so `length + 1` fuel reaches the break). -/
def compressLoop : Nat → RpState → RpState
  | 0, st => st
  | fuel + 1, st =>
    match compressStep st with
    | none => st
    | some st' => compressLoop fuel st'

/-- `RePair._collect_symbol_usage` as a function: occurrences of a name
in the sequence plus across all rules' RHSes (the own RHS included —
the source iterates over every rule). -/
def usageAll (seq : List String) (g : GrammarM) (name : String) : Nat :=
  seq.count name +
    (g.rules.map (fun p => (p.2.rhs.map (fun s => s.value)).count name)).sum

/-- External usage in the sense of the specification: occurrences of the
rule's LHS name in the compressed sequence plus across the *other*
rules' RHSes. -/
def externalUsage (seq : List String) (g : GrammarM) (name : String) : Nat :=
  seq.count name +
    ((g.rules.filter (fun p => p.1 ≠ name)).map
      (fun p => (p.2.rhs.map (fun s => s.value)).count name)).sum

/-- `RePair._update_rule_usage`: set each rule's frequency to the usage
count of its LHS, then set `probability = frequency / total` with the
Python idiom `total = sum(...) or 1`. -/
def updateRuleUsage (seq : List String) (g : GrammarM) : GrammarM :=
  let withFreq :=
    g.rules.map (fun p => (p.1, { p.2 with frequency := usageAll seq g p.1 }))
  let totalNat := (withFreq.map (fun p => p.2.frequency)).sum
  let total : Nat := if totalNat = 0 then 1 else totalNat
  { g with rules :=
      withFreq.map (fun p =>
        (p.1, { p.2 with probability := (p.2.frequency : Rat) / (total : Rat) })) }

/-- `sequence[idx:idx+1] = rhs` at `idx = sequence.index(lhs)`: splice
the replacement list in place of the first occurrence of `lhs`. -/
def spliceFirst (lhs : String) (rhs : List String) : List String → List String
  | [] => []
  | a :: rest => if a = lhs then rhs ++ rest else a :: spliceFirst lhs rhs rest

/-- Replace every occurrence of `lhs` in an RHS value list by the
inlined values (the inner loop building `new_rhs`). -/
def inlineVals (lhs : String) (rhs : List String) : List String → List String
  | [] => []
  | v :: rest =>
    (if v = lhs then rhs else [v]) ++ inlineVals lhs rhs rest

/-- The body of `_inline_singletons` for a single rule name `lhs` whose
(frozen) usage is at most 1: splice the first occurrence in the
sequence if present, replace `lhs` in every other rule's RHS (the RHS
symbol list is rebuilt through `_get_symbol`, threading the grammar's
symbol dicts), then delete the rule.  Returns the new sequence and
grammar plus the `changed` flag contribution. -/
def inlineOne (seq : List String) (g : GrammarM) (lhs : String) :
    List String × GrammarM × Bool :=
  let rhs := (lookupA (asTuples g) lhs).getD []
  let inSeq := seq.contains lhs
  let seq' := if inSeq then spliceFirst lhs rhs seq else seq
  let step :=
    g.rules.foldl
      (fun (acc : List (String × RuleM) × GrammarM × Bool) p =>
        if p.2.lhs.value = lhs then (acc.1 ++ [p], acc.2)
        else
          let vals := p.2.rhs.map (fun s => s.value)
          let newVals := inlineVals lhs rhs vals
          let changedHere := vals.contains lhs
          let (syms, g'') := getSymbols acc.2.1 newVals
          (acc.1 ++ [(p.1, { p.2 with rhs := syms })], g'', acc.2.2 || changedHere))
      ([], g, false)
  let g3 : GrammarM := { step.2.1 with rules := delA step.1 lhs }
  (seq', g3, inSeq || step.2.2)

/-- One pass of the `while changed` loop of `_inline_singletons`: usage
is computed once at the start of the pass, the key list is snapshotted
(`list(grammar.rules.keys())`), and rules whose frozen usage is ≤ 1 are
inlined in order. -/
def inlinePass (seq : List String) (g : GrammarM) :
    List String × GrammarM × Bool :=
  let usage := usageAll seq g
  (g.rules.map (fun p => p.1)).foldl
    (fun (acc : List String × GrammarM × Bool) lhs =>
      if usage lhs ≤ 1 then
        let (seq', g', ch) := inlineOne acc.1 acc.2.1 lhs
        (seq', g', acc.2.2 || ch)
      else acc)
    (seq, g, false)

/-- The `while changed and grammar.rules` loop with fuel (each changed
pass deletes at least one rule, so `rules.length + 1` fuel suffices). -/
def inlineLoop : Nat → List String × GrammarM → List String × GrammarM
  | 0, st => st
  | fuel + 1, (seq, g) =>
    if g.rules = [] then (seq, g)
    else
      let (seq', g', ch) := inlinePass seq g
      if ch then inlineLoop fuel (seq', g') else (seq', g')

/-- `RePair._inline_singletons`. -/
def inlineSingletons (seq : List String) (g : GrammarM) :
    List String × GrammarM :=
  inlineLoop (g.rules.length + 1) (seq, g)

/-- `RePair.compress`. -/
def compressM (tokens : List String) : List String × GrammarM :=
  let st := compressLoop (tokens.length + 1) (tokens, emptyGrammar, 1)
  let (seq2, g2) := inlineSingletons st.1 st.2.1
  (seq2, updateRuleUsage seq2 g2)

/-- The loop of `RePair.compress_trace`: the same steps as `compress`,
but after each replacement usage counts are updated on the live grammar
and a snapshot `(list(sequence), grammar.clone())` is recorded. -/
def traceLoop : Nat → RpState → List (List String × GrammarM) →
    RpState × List (List String × GrammarM)
  | 0, st, snaps => (st, snaps)
  | fuel + 1, st, snaps =>
    match compressStep st with
    | none => (st, snaps)
    | some st' =>
      let g'' := updateRuleUsage st'.1 st'.2.1
      traceLoop fuel (st'.1, g'', st'.2.2)
        (snaps ++ [(st'.1, cloneM g'')])

/-- `RePair.compress_trace`: run the traced loop, then inline, update
usage and append the final snapshot. -/
def compressTraceM (tokens : List String) :
    List (List String × GrammarM) :=
  let (st, snaps) := traceLoop (tokens.length + 1) (tokens, emptyGrammar, 1) []
  let (seq2, g2) := inlineSingletons st.1 st.2.1
  let g3 := updateRuleUsage seq2 g2
  snaps ++ [(seq2, cloneM g3)]

/-- `expand_symbol` of `RePair.reconstruct`, with fuel.  The Python
recursion is unbounded; on the (acyclic) grammars produced without
token/rule-name collisions its depth is bounded by the number of rules,
so `g.rules.length + 1` fuel (as used by `reconstructM`) computes the
same result.  On a cyclic grammar Python raises `RecursionError`
whereas this model truncates. -/
def expandSym (g : GrammarM) : Nat → String → List String
  | 0, sym => [sym]
  | fuel + 1, sym =>
    match lookupA (asTuples g) sym with
    | some rhs => (rhs.map (expandSym g fuel)).flatten
    | none => [sym]

/-- Expansion of a whole sequence at a given fuel. -/
def expandAll (g : GrammarM) (fuel : Nat) (seq : List String) : List String :=
  (seq.map (expandSym g fuel)).flatten

/-- `RePair.reconstruct`. -/
def reconstructM (compressed : List String) (g : GrammarM) : List String :=
  expandAll g (g.rules.length + 1) compressed

/-! ### MDL scorer (`mdl.py`) -/

/-- `mdl._safe_log2`: `log2(max(2, x))`, modelled over ℝ. -/
noncomputable def safeLog2 (x : Nat) : ℝ :=
  Real.logb 2 (max 2 x : Nat)

/-- `mdl.elias_gamma_length`: `2*floor(log2 n) + 1`, with `n ≤ 0`
mapped to 1.  `Nat.log 2` is the floor of the real `log2` on positives. -/
def eliasGammaLength (n : Nat) : Nat :=
  2 * Nat.log 2 (max 1 n) + 1

/-- The three components returned by `MDLScorer.score_components`. -/
structure MDLComponentsM where
  grammarCost : ℝ
  dataCost : ℝ
  total : ℝ

/-- `MDLScorer.score_components`. -/
noncomputable def scoreComponentsM (g : GrammarM) (compressed : List String)
    (terminalsSize : Nat) : MDLComponentsM :=
  let sigma := max 2 terminalsSize
  let V := max 2 (sigma + g.rules.length)
  let symCost := safeLog2 V
  let grammarCost := ((g.rules.map (fun p => p.2.rhs.length)).sum : ℝ) * symCost
  let n := compressed.length
  let dataCost := (eliasGammaLength n : ℝ) + (n : ℝ) * symCost
  { grammarCost := grammarCost, dataCost := dataCost,
    total := grammarCost + dataCost }

/-- `MDLScorer.score` with an explicit `terminals_size` (the only way
the engine calls it). -/
noncomputable def scoreM (g : GrammarM) (compressed : List String)
    (terminalsSize : Nat) : ℝ :=
  (scoreComponentsM g compressed terminalsSize).total

/-- Python `len(set(tokens))`. -/
def distinctCount (tokens : List String) : Nat :=
  tokens.dedup.length

/-- The Python idiom `x or d` on a natural number. -/
def pyOrNat (x d : Nat) : Nat :=
  if x = 0 then d else x

/-- `MDLScorer.naive_baseline`. -/
noncomputable def naiveBaselineM (originalTokens : List String) : ℝ :=
  let sigma := max 2 (pyOrNat (distinctCount originalTokens) 2)
  let n := originalTokens.length
  (eliasGammaLength n : ℝ) + (n : ℝ) * safeLog2 sigma

/-- `MDLScorer.compression_ratio`. -/
noncomputable def compressionRatioM (originalTokens compressed : List String)
    (g : GrammarM) : ℝ :=
  let sigma := max 2 (pyOrNat (distinctCount originalTokens) 2)
  let originalSize := naiveBaselineM originalTokens
  let compressedSize := scoreM g compressed sigma
  if compressedSize = 0 then 1 else originalSize / compressedSize

/-! ### Entropy and emergence detector (`emergence.py`) -/

/-- `emergence.compute_entropy`: Shannon entropy over rule usage
frequencies; 0 when the total frequency is 0, zero-frequency rules
skipped. -/
noncomputable def computeEntropyM (g : GrammarM) : ℝ :=
  let total := (g.rules.map (fun p => p.2.frequency)).sum
  if total = 0 then 0
  else
    (g.rules.map (fun p =>
      if p.2.frequency = 0 then (0 : ℝ)
      else -(((p.2.frequency : ℝ) / (total : ℝ)) *
        Real.logb 2 ((p.2.frequency : ℝ) / (total : ℝ))))).sum

/-- An emergence event (`emergence.EmergenceEvent`). -/
structure EventM where
  index : Nat
  magnitude : ℝ
  kind : String
  entropyBefore : ℝ
  entropyAfter : ℝ
  rulesAdded : List String

/-- Detector state after `__init__` (clamps applied, preset applied). -/
structure DetectorM where
  threshold : ℝ
  window : Int
  preset : Option String
  mode : String
  k : ℝ
  percentile : ℝ
  minPersistence : Int
  hysteresis : ℝ
  minGap : Int

/-- Model of Python `str.lower()`: lower-case every character (for the
ASCII preset names handled here this agrees with Python). -/
def pyLower (s : String) : String :=
  String.mk (s.data.map Char.toLower)

/-- `EmergenceDetector._preset_threshold`: lower-case the name; unknown
names fall through to 0.25. -/
noncomputable def presetThreshold (name : String) : ℝ :=
  let n := pyLower name
  if n = "sensitive" then 0.15
  else if n = "balanced" then 0.25
  else if n = "strict" then 0.40
  else 0.25

/-- `EmergenceDetector.__init__`: store the parameters, clamping
`min_persistence` to ≥ 1, `hysteresis` to ≥ 0, `min_gap` to ≥ 0, and
overriding the threshold when a preset is given. -/
noncomputable def mkDetector (threshold : ℝ) (window : Int)
    (preset : Option String) (mode : String) (k : ℝ) (percentile : ℝ)
    (minPersistence : Int) (hysteresis : ℝ) (minGap : Int) : DetectorM :=
  { threshold :=
      match preset with
      | some p => presetThreshold p
      | none => threshold,
    window := window, preset := preset, mode := mode, k := k,
    percentile := percentile,
    minPersistence := max 1 minPersistence,
    hysteresis := max 0 hysteresis,
    minGap := max 0 minGap }

/-- `EmergenceDetector._curvatures`: discrete second differences. -/
noncomputable def curvaturesM (entropies : List ℝ) : List ℝ :=
  if entropies.length < 3 then []
  else
    (List.range (entropies.length - 2)).map (fun j =>
      entropies.getD (j + 2) 0 - 2 * entropies.getD (j + 1) 0 + entropies.getD j 0)

/-- `emergence._median` (0 on the empty list, mean of the two middle
elements for even length). -/
noncomputable def medianM (values : List ℝ) : ℝ :=
  if values.length = 0 then 0
  else
    let vs := values.mergeSort (fun a b => a ≤ b)
    let mid := values.length / 2
    if values.length % 2 = 1 then vs.getD mid 0
    else 0.5 * (vs.getD (mid - 1) 0 + vs.getD mid 0)

/-- Python `max(list)` (only reached on non-empty lists). -/
noncomputable def pyMaxR (l : List ℝ) : ℝ :=
  l.foldl max (l.headD 0)

/-- `EmergenceDetector.threshold_from_entropies`. -/
noncomputable def thresholdFromEntropies (det : DetectorM)
    (entropies : List ℝ) : ℝ :=
  let curv := curvaturesM entropies
  if curv.length = 0 then det.threshold
  else
    let maxEntropy := let m := pyMaxR entropies; if m = 0 then 1 else m
    let values := curv.map (fun c => |c| / maxEntropy)
    let med := medianM values
    let mad := medianM (values.map (fun v => |v - med|))
    med + det.k * mad

/-- Loop state of `EmergenceDetector.detect`. -/
structure DetSt where
  run : Nat
  active : Bool
  lastIdx : Int
  events : List EventM

/-- Initial loop state (`last_event_idx = -10**9`). -/
def detInit : DetSt :=
  { run := 0, active := false, lastIdx := -(10 ^ 9 : Int), events := [] }

/-- One iteration of the detection loop at index `i`. -/
noncomputable def detBody (det : DetectorM) (entropies : List ℝ) (thr maxEntropy : ℝ)
    (st : DetSt) (i : Nat) : DetSt :=
  let d2 := entropies.getD (i + 1) 0 - 2 * entropies.getD i 0 + entropies.getD (i - 1) 0
  let norm := |d2| / maxEntropy
  let run' := if thr ≤ norm then st.run + 1 else 0
  let st1 : DetSt := { st with run := run' }
  let st2 : DetSt :=
    if ¬st1.active ∧ det.minPersistence ≤ (run' : Int) ∧
        det.minGap ≤ (i : Int) - st1.lastIdx then
      { st1 with
        events := st1.events ++
          [{ index := i, magnitude := d2,
             kind := if d2 < 0 then "emergence" else "dissolution",
             entropyBefore := entropies.getD (i - 1) 0,
             entropyAfter := entropies.getD (i + 1) 0,
             rulesAdded := [] }],
        active := true, lastIdx := (i : Int) }
    else st1
  if st2.active ∧ norm ≤ max 0 (thr - det.hysteresis) then
    { st2 with active := false }
  else st2

/-- Result of `EmergenceDetector.detect`. -/
structure DetectResult where
  entropies : List ℝ
  events : List EventM

/-- `EmergenceDetector.detect` on a list of grammars. -/
noncomputable def detectM (det : DetectorM) (grammars : List GrammarM) : DetectResult :=
  let entropies := grammars.map computeEntropyM
  if entropies.length < 3 then { entropies := entropies, events := [] }
  else
    let thr :=
      if det.mode ≠ "adaptive" then det.threshold
      else thresholdFromEntropies det entropies
    let maxEntropy := let m := pyMaxR entropies; if m = 0 then 1 else m
    let final :=
      (List.range' 1 (entropies.length - 2)).foldl
        (detBody det entropies thr maxEntropy) detInit
    { entropies := entropies, events := final.events }

/-! ### Engine orchestrator (`engine.py`) -/

/-- The configuration accepted by `EmergenceEngine.process` (the
tokenizer choice is external to the core: the model consumes the token
list directly). -/
structure EngineCfg where
  emergence : Bool
  threshold : ℝ
  window : Int
  preset : Option String
  mode : String
  k : ℝ
  percentile : ℝ
  minPersistence : Int
  hysteresis : ℝ
  minGap : Int

/-- The default keyword arguments of `EmergenceEngine.process`. -/
noncomputable def defaultCfg : EngineCfg :=
  { emergence := false, threshold := 0.25, window := 1, preset := none,
    mode := "static", k := 3.0, percentile := 0.9, minPersistence := 2,
    hysteresis := 0.1, minGap := 2 }

/-- `engine.EngineResult`. -/
structure EngineResultM where
  compressed : List String
  rules : List (String × List String)
  mdlScore : ℝ
  compressionRat : ℝ
  mdlGrammarCost : ℝ
  mdlDataCost : ℝ
  naiveMdl : ℝ
  coverage : ℝ
  validLossless : Bool
  entropies : Option (List ℝ)
  events : Option (List EventM)
  mdlTrajectory : Option (List MDLComponentsM)

/-- The `rules_added` diff of the engine: rule names of the later
grammar missing from the earlier one, sorted. -/
def rulesAddedDiff (prev nxt : List (String × List String)) : List String :=
  ((nxt.map (fun p => p.1)).filter (fun l => ¬ hasKey prev l)).mergeSort
    (fun a b => a ≤ b)

/-- `EmergenceEngine.process` on a token sequence. -/
noncomputable def processM (tokens : List String) (cfg : EngineCfg) : EngineResultM :=
  let snaps := compressTraceM tokens
  let cg :=
    if cfg.emergence then snaps.getLastD ([], emptyGrammar)
    else compressM tokens
  let compressed := cg.1
  let grammar := cg.2
  let sigma := pyOrNat (distinctCount tokens) 2
  let comps := scoreComponentsM grammar compressed sigma
  let ratio := compressionRatioM tokens compressed grammar
  let reconstructed := reconstructM compressed grammar
  let validLossless : Bool := reconstructed = tokens
  let totalTokens := if reconstructed ≠ [] then reconstructed.length else tokens.length
  let covered :=
    (compressed.map (fun sym =>
      if hasKey grammar.rules sym then (reconstructM [sym] grammar).length else 0)).sum
  let coverage : ℝ :=
    if 0 < totalTokens then (covered : ℝ) / (totalTokens : ℝ) else 0
  let naive := naiveBaselineM tokens
  if cfg.emergence then
    let det := mkDetector cfg.threshold cfg.window cfg.preset cfg.mode cfg.k
      cfg.percentile cfg.minPersistence cfg.hysteresis cfg.minGap
    let grammars := snaps.map (fun p => p.2)
    let detRes := detectM det grammars
    let trajectory := snaps.map (fun p => scoreComponentsM p.2 p.1 sigma)
    let eventsDicts := detRes.events.map (fun (e : EventM) =>
      if 1 ≤ e.index ∧ e.index < grammars.length - 1 then
        { e with rulesAdded :=
            (rulesAddedDiff (asTuples (grammars.getD (e.index - 1) emptyGrammar))
              (asTuples (grammars.getD (e.index + 1) emptyGrammar))) }
      else e)
    { compressed := compressed, rules := asTuples grammar,
      mdlScore := comps.total, compressionRat := ratio,
      mdlGrammarCost := comps.grammarCost, mdlDataCost := comps.dataCost,
      naiveMdl := naive, coverage := coverage, validLossless := validLossless,
      entropies := some detRes.entropies, events := some eventsDicts,
      mdlTrajectory := some trajectory }
  else
    { compressed := compressed, rules := asTuples grammar,
      mdlScore := comps.total, compressionRat := ratio,
      mdlGrammarCost := comps.grammarCost, mdlDataCost := comps.dataCost,
      naiveMdl := naive, coverage := coverage, validLossless := validLossless,
      entropies := none, events := none, mdlTrajectory := none }

/-! ### Sliding-window token enumeration (`engine.process_sliding`,
window construction, and the CLI's step defaulting) -/

/-- Python `range(0, stop, step)` for `step ≥ 1` (the engine guards the
stride with `max(1, step)`). -/
def pyRangeBy (stop step : Nat) : List Nat :=
  (List.range ((stop + step - 1) / step)).map (fun i => i * step)

/-- `tokens[s : s + w]`. -/
def sliceM (tokens : List String) (s w : Nat) : List String :=
  (tokens.drop s).take w

/-- The window list built by `EmergenceEngine.process_sliding`:
`range(0, max(0, len(tokens) - window_size + 1), max(1, step))`, and
the whole token list as a single window when no window fits. -/
def slidingWindowsM (tokens : List String) (windowSize step : Nat) :
    List (List String) :=
  let stop := tokens.length + 1 - windowSize
  let starts := pyRangeBy stop (max 1 step)
  let windows := starts.map (fun s => sliceM tokens s windowSize)
  if windows = [] then [tokens] else windows

/-- The CLI's step defaulting (`cli.py`):
`step = sliding_step if sliding_step > 0 else max(1, sliding_window // 2)`. -/
def cliStep (windowSize : Nat) (slidingStep : Int) : Nat :=
  if 0 < slidingStep then slidingStep.toNat else max 1 (windowSize / 2)

/-- Modelled from the spec: the window-start enumeration the claim
describes — `s ∈ {0, step, 2·step, …}` while `s + window_size ≤ n`.
With `step = 0` the enumeration `{0, 0, 0, …}` contains only the
single start 0.  Used to compare the claimed enumeration against the
code's window list. -/
def specStarts (n windowSize step : Nat) : List Nat :=
  if step = 0 then if windowSize ≤ n then [0] else []
  else (List.range ((n + 1 - windowSize + step - 1) / step)).map (fun i => i * step)

/-- Modelled from the spec: the claimed window list (slices at
`specStarts`, or the whole sequence when no window fits). -/
def specWindows (tokens : List String) (windowSize step : Nat) :
    List (List String) :=
  if tokens.length < windowSize then [tokens]
  else (specStarts tokens.length windowSize step).map
    (fun s => sliceM tokens s windowSize)

/-- The engine configuration with emergence enabled and every other
parameter at its `process` default. -/
noncomputable def cfgEmergence : EngineCfg :=
  { defaultCfg with emergence := true }

/-! ### Verification predicates and proof-support definitions -/

/-- The rule names of a grammar, in insertion order. -/
def ruleKeys (g : GrammarM) : List String :=
  g.rules.map (fun p => p.1)

/-- The value strings of a rule's RHS. -/
def ruleVals (r : RuleM) : List String :=
  r.rhs.map (fun s => s.value)

/-- Every rule is stored under the name of its LHS symbol (an invariant
of `add_rule`, needed because `_inline_singletons` compares
`r.lhs.value` against dict keys). -/
def KeysMatch (g : GrammarM) : Prop :=
  ∀ p ∈ g.rules, p.2.lhs.value = p.1

/-- The grammar is ranked: the RHS of the rule at position `i` mentions
rule names only of rules at strictly earlier positions.  RePair
produces ranked grammars (each new rule refers to existing symbols),
and ranking is what makes `reconstruct` terminate. -/
def Ranked (g : GrammarM) : Prop :=
  ∀ i p, g.rules.get? i = some p → ∀ v ∈ ruleVals p.2,
    ∀ j, (ruleKeys g).get? j = some v → j < i

/-- The symbol dicts store each symbol under its own value string (an
invariant of `_get_symbol` and `add_rule`). -/
def MapsOk (g : GrammarM) : Prop :=
  (∀ p ∈ g.terminals, p.2.value = p.1) ∧ (∀ p ∈ g.nonTerminals, p.2.value = p.1)

/-- Structural well-formedness of a grammar. -/
def GoodG (g : GrammarM) : Prop :=
  (ruleKeys g).Nodup ∧ Ranked g ∧ KeysMatch g ∧ MapsOk g

/-- Invariant tying a compression state to the original tokens: the
grammar is well-formed, every rule name occurs somewhere (sequence or
some RHS), and expanding the sequence recovers the tokens. -/
def GoodState (tokens seq : List String) (g : GrammarM) : Prop :=
  GoodG g ∧ (∀ k ∈ ruleKeys g, 1 ≤ usageAll seq g k) ∧
  expandAll g (g.rules.length + 1) seq = tokens

/-- Freshness bookkeeping of the main loop at rule id `rid`: the
sequence and all RHSes avoid the not-yet-introduced rule names, and
every key is `R<j>` for some `1 ≤ j < rid`. -/
def FreshBound (seq : List String) (g : GrammarM) (rid : Nat) : Prop :=
  (∀ s ∈ seq, ∀ k, rid ≤ k → s ≠ ruleName k) ∧
  (∀ p ∈ g.rules, ∀ v ∈ ruleVals p.2, ∀ k, rid ≤ k → v ≠ ruleName k) ∧
  (∀ key ∈ ruleKeys g, ∃ j, 1 ≤ j ∧ j < rid ∧ key = ruleName j)

/-- The grammar with rule frequencies and probabilities forgotten; the
traced and untraced inducer runs coincide modulo this data until the
final usage update. -/
def stripG (g : GrammarM) : GrammarM :=
  { g with rules :=
      g.rules.map (fun p => (p.1, { p.2 with frequency := 0, probability := 0 })) }

/-- Decimal digit list of a natural number (most significant first);
proof-support mirror of `Nat.toDigits 10`. -/
def digitsAux (n : Nat) : List Char :=
  if n < 10 then [Nat.digitChar n]
  else digitsAux (n / 10) ++ [Nat.digitChar (n % 10)]
decreasing_by exact Nat.div_lt_self (by omega) (by omega)

/-- Decimal decoding of a digit-character list (proof support for the
injectivity of `Nat.repr`). -/
def decChars (l : List Char) : Nat :=
  l.foldl (fun a c => 10 * a + (c.toNat - 48)) 0

/-- The no-collision side condition of the amended lossless and
rule-utility claims: no input token equals a potential rule name
`R<k>` with `k ≥ 1`. -/
def NoClash (tokens : List String) : Prop :=
  ∀ s ∈ tokens, ∀ k, 1 ≤ k → s ≠ ruleName k

/-- Position-based reformulation of `Ranked` (equivalent under key
uniqueness): every RHS value that is a rule name names a rule stored
at a strictly earlier position. -/
def RankedP (g : GrammarM) : Prop :=
  ∀ p ∈ g.rules, ∀ v ∈ ruleVals p.2, v ∈ ruleKeys g →
    posIn (ruleKeys g) v < posIn (ruleKeys g) p.1

/-- The fold step of `inlineOne`, as a named function (definitionally
the lambda occurring in `inlineOne`; proof support). -/
def inlineFoldF (lhs : String) (rhs : List String) :
    List (String × RuleM) × GrammarM × Bool → String × RuleM →
      List (String × RuleM) × GrammarM × Bool :=
  fun acc p =>
    if p.2.lhs.value = lhs then (acc.1 ++ [p], acc.2)
    else
      let vals := p.2.rhs.map (fun s => s.value)
      let newVals := inlineVals lhs rhs vals
      let changedHere := vals.contains lhs
      let (syms, g'') := getSymbols acc.2.1 newVals
      (acc.1 ++ [(p.1, { p.2 with rhs := syms })], g'', acc.2.2 || changedHere)

/-- The fold step of `inlinePass`, as a named function (definitionally
the lambda occurring in `inlinePass`; proof support). -/
def inlinePassF (seq : List String) (g : GrammarM) :
    List String × GrammarM × Bool → String → List String × GrammarM × Bool :=
  fun acc lhs =>
    if usageAll seq g lhs ≤ 1 then
      let (seq', g', ch) := inlineOne acc.1 acc.2.1 lhs
      (seq', g', acc.2.2 || ch)
    else acc

/-- The fold step of `cloneM`, as a named function (definitionally the
lambda occurring in `cloneM`; proof support). -/
def cloneF : GrammarM → String × RuleM → GrammarM :=
  fun acc p =>
    let (_, acc') := addRule acc p.1 (p.2.rhs.map (fun s => s.value))
    { acc' with rules :=
        match lookupA acc'.rules p.1 with
        | some r =>
          setA acc'.rules p.1
            { r with frequency := p.2.frequency, probability := p.2.probability }
        | none => acc'.rules }

/-! ## Theorems -/

/-! ### Shared helper lemmas -/

theorem presetThreshold_unknown (s : String) (h1 : pyLower s ≠ "sensitive")
    (h2 : pyLower s ≠ "balanced") (h3 : pyLower s ≠ "strict") :
    presetThreshold s = 0.25 := by
  simp [presetThreshold, h1, h2, h3]

theorem safeLog2_nonneg (x : Nat) : 0 ≤ safeLog2 x := by
  unfold safeLog2
  apply Real.logb_nonneg (by norm_num)
  have : (1 : Nat) ≤ max 2 x := le_trans (by norm_num) (le_max_left 2 x)
  exact_mod_cast this

theorem scoreM_nonneg (g : GrammarM) (compressed : List String) (ts : Nat) :
    0 ≤ scoreM g compressed ts := by
  unfold scoreM scoreComponentsM
  have hs := safeLog2_nonneg (max 2 (max 2 ts + g.rules.length))
  have h1 : (0 : ℝ) ≤ (List.map (fun p => ((p.2.rhs.length : Nat) : ℝ)) g.rules).sum := by
    apply List.sum_nonneg
    intro x hx
    obtain ⟨p, _, rfl⟩ := List.mem_map.1 hx
    exact Nat.cast_nonneg _
  have h2 : (0 : ℝ) ≤ (eliasGammaLength compressed.length : ℝ) := Nat.cast_nonneg _
  have h3 : (0 : ℝ) ≤ (compressed.length : ℝ) := Nat.cast_nonneg _
  simp only
  nlinarith

/-! ### Claim C4 -/

/-- C4 counterexample: the value `"A"` is registered in neither symbol
table of the empty grammar, yet `add_rule` creates it as a
*non-terminal* (because `"A".isupper()` holds), contradicting the
claimed unconditional terminal default for newly created symbols. -/
theorem c4_counterexample :
    ((addRule emptyGrammar "R1" ["A", "b"]).1).rhs.map (fun s => s.kind) =
      [SymKind.nonterminal, SymKind.terminal] ∧
    lookupA emptyGrammar.nonTerminals "A" = none ∧
    lookupA emptyGrammar.terminals "A" = none := by
  decide

/-- C4 (amended): `_get_symbol` reuses a registered non-terminal first,
then a registered terminal; a fresh value is created with kind
`nonterminal` when `value.isupper()` holds and `terminal` otherwise
(rather than always defaulting to terminal). -/
theorem c4_symbol_resolution (g : GrammarM) (v : String) :
    (∀ s, lookupA g.nonTerminals v = some s → getSymbol g v = (s, g)) ∧
    (lookupA g.nonTerminals v = none →
      ∀ s, lookupA g.terminals v = some s → getSymbol g v = (s, g)) ∧
    (lookupA g.nonTerminals v = none → lookupA g.terminals v = none →
      (getSymbol g v).1.value = v ∧
      (getSymbol g v).1.kind =
        (if pyIsUpper v then SymKind.nonterminal else SymKind.terminal)) := by
  refine ⟨fun s h => ?_, fun h1 s h2 => ?_, fun h1 h2 => ?_⟩
  · simp [getSymbol, h]
  · simp [getSymbol, h1, h2]
  · by_cases hu : pyIsUpper v <;> simp [getSymbol, h1, h2, hu]

/-- C4 witness: fresh lowercase value resolved through the amended
resolution theorem. -/
theorem c4_symbol_resolution_witness :
    (getSymbol emptyGrammar "x").1.value = "x" ∧
    (getSymbol emptyGrammar "x").1.kind = SymKind.terminal := by
  have h := (c4_symbol_resolution emptyGrammar "x").2.2 (by decide) (by decide)
  refine ⟨h.1, ?_⟩
  rw [h.2]
  decide

/-! ### Claim C9 -/

/-- C9 counterexample: an unknown preset name is not an error — the
detector accepts it and silently falls back to the 0.25 default, the
same threshold as the `balanced` preset. -/
theorem c9_counterexample :
    presetThreshold "frobnicate" = presetThreshold "balanced" ∧
    presetThreshold "frobnicate" = 0.25 := by
  have h1 : presetThreshold "frobnicate" = 0.25 := by
    have e1 : (pyLower "frobnicate" = "sensitive") = False := by decide
    have e2 : (pyLower "frobnicate" = "balanced") = False := by decide
    have e3 : (pyLower "frobnicate" = "strict") = False := by decide
    simp [presetThreshold, e1, e2, e3]
  have h2 : presetThreshold "balanced" = 0.25 := by
    have e1 : (pyLower "balanced" = "sensitive") = False := by decide
    have e2 : (pyLower "balanced" = "balanced") = True := by decide
    simp [presetThreshold, e1, e2]
  exact ⟨h1.trans h2.symm, h1⟩

/-- C9 (amended): a preset name other than `sensitive`, `balanced` or
`strict` (after lower-casing) is accepted without error and maps the
detector threshold to the default 0.25. -/
theorem c9_unknown_preset (name : String) (h1 : pyLower name ≠ "sensitive")
    (h2 : pyLower name ≠ "balanced") (h3 : pyLower name ≠ "strict") :
    presetThreshold name = 0.25 ∧
    ∀ thr window mode k p mp hy mg,
      (mkDetector thr window (some name) mode k p mp hy mg).threshold = 0.25 := by
  refine ⟨presetThreshold_unknown name h1 h2 h3, fun thr window mode k p mp hy mg => ?_⟩
  simp [mkDetector, presetThreshold_unknown name h1 h2 h3]

/-- C9 witness: the amended statement at the concrete unknown preset
name `bogus`. -/
theorem c9_unknown_preset_witness :
    presetThreshold "bogus" = 0.25 ∧
    (mkDetector 0.7 1 (some "bogus") "static" 3.0 0.9 2 0.1 2).threshold = 0.25 := by
  have h := c9_unknown_preset "bogus" (by decide) (by decide) (by decide)
  exact ⟨h.1, h.2 0.7 1 "static" 3.0 0.9 2 0.1 2⟩

/-! ### Claim C7 -/

/-- C7: the MDL total is non-negative, and the compression ratio is
`naive_baseline / mdl_total` when the total is positive and 1.0 when
the total is zero (the sigma used is the one `compression_ratio`
derives from the original token list). -/
theorem c7_mdl_ratio (orig compressed : List String) (g : GrammarM) :
    0 ≤ scoreM g compressed (max 2 (pyOrNat (distinctCount orig) 2)) ∧
    (0 < scoreM g compressed (max 2 (pyOrNat (distinctCount orig) 2)) →
      compressionRatioM orig compressed g =
        naiveBaselineM orig /
          scoreM g compressed (max 2 (pyOrNat (distinctCount orig) 2))) ∧
    (scoreM g compressed (max 2 (pyOrNat (distinctCount orig) 2)) = 0 →
      compressionRatioM orig compressed g = 1) := by
  refine ⟨scoreM_nonneg _ _ _, fun h => ?_, fun h => ?_⟩
  · unfold compressionRatioM
    rw [if_neg (ne_of_gt h)]
  · unfold compressionRatioM
    rw [if_pos h]

/-- C7 witness: on the empty input the total is 1 > 0 and the ratio is
the quotient. -/
theorem c7_mdl_ratio_witness :
    compressionRatioM [] [] emptyGrammar =
      naiveBaselineM [] /
        scoreM emptyGrammar [] (max 2 (pyOrNat (distinctCount []) 2)) := by
  refine (c7_mdl_ratio [] [] emptyGrammar).2.1 ?_
  have h : scoreM emptyGrammar [] (max 2 (pyOrNat (distinctCount []) 2)) = 1 := by
    simp [scoreM, scoreComponentsM, eliasGammaLength, emptyGrammar, Nat.log_one_right]
  rw [h]
  norm_num

/-! ### Claim C8 -/

/-- C8 counterexample: for `window_size = 1` the CLI defaults the step
to `max(1, 1 // 2) = 1`, not to `window_size / 2 = 0`; on the tokens
`[a, b]` the code then produces two windows whereas the claimed
enumeration with step `1 / 2 = 0` yields a single window. -/
theorem c8_counterexample :
    cliStep 1 0 = 1 ∧ (1 : Nat) / 2 = 0 ∧
    slidingWindowsM ["a", "b"] 1 (cliStep 1 0) = [["a"], ["b"]] ∧
    specWindows ["a", "b"] 1 ((1 : Nat) / 2) = [["a"]] := by
  decide

/-- C8 (amended): for any positive stride (the engine clamps the stride
with `max(1, step)`, and the CLI default `max(1, window_size // 2)` is
always positive) the processed windows are exactly the claimed
enumeration `tokens[s : s+w]` for `s = 0, step, 2·step, …` while
`s + w ≤ |tokens|`, with the whole token list as single window when no
window fits; the CLI step default is `max(1, window_size / 2)`, which
equals the claimed `window_size / 2` whenever `window_size ≥ 2`. -/
theorem c8_sliding_windows (tokens : List String) (ws step : Nat)
    (h : 1 ≤ step) :
    slidingWindowsM tokens ws step = specWindows tokens ws step ∧
    ∀ st : Int, st ≤ 0 →
      cliStep ws st = max 1 (ws / 2) ∧ (2 ≤ ws → cliStep ws st = ws / 2) := by
  constructor
  · have hmax : max 1 step = step := max_eq_right h
    by_cases hlt : tokens.length < ws
    · have hstop : tokens.length + 1 - ws = 0 := by omega
      have hcount : (tokens.length + 1 - ws + step - 1) / step = 0 := by
        rw [hstop]
        exact Nat.div_eq_of_lt (by omega)
      simp [slidingWindowsM, specWindows, pyRangeBy, hmax, hcount, hlt]
    · have hge : ws ≤ tokens.length := le_of_not_lt hlt
      have hstop : 1 ≤ tokens.length + 1 - ws := by omega
      have hcount : 1 ≤ (tokens.length + 1 - ws + step - 1) / step := by
        rw [Nat.one_le_div_iff (by omega)]
        omega
      have hne : pyRangeBy (tokens.length + 1 - ws) step ≠ [] := by
        unfold pyRangeBy
        simp only [ne_eq, List.map_eq_nil_iff, List.range_eq_nil]
        omega
      have hmaps : (pyRangeBy (tokens.length + 1 - ws) step).map
          (fun s => sliceM tokens s ws) ≠ [] := by
        simpa using hne
      have hspec : specStarts tokens.length ws step =
          pyRangeBy (tokens.length + 1 - ws) step := by
        unfold specStarts pyRangeBy
        rw [if_neg (by omega)]
      simp [slidingWindowsM, specWindows, hmax, hmaps, hlt, hspec]
  · intro st hst
    have h1 : cliStep ws st = max 1 (ws / 2) := by
      unfold cliStep
      rw [if_neg (by omega)]
    refine ⟨h1, fun h2 => ?_⟩
    rw [h1]
    have : 1 ≤ ws / 2 := by
      rw [Nat.one_le_div_iff (by omega)]
      omega
    omega

/-- C8 witness: the amended window enumeration on a concrete input. -/
theorem c8_sliding_windows_witness :
    slidingWindowsM ["a", "b", "c", "d", "e"] 4 2 =
      specWindows ["a", "b", "c", "d", "e"] 4 2 ∧
    cliStep 4 0 = 2 := by
  have h := c8_sliding_windows ["a", "b", "c", "d", "e"] 4 2 (by decide)
  refine ⟨h.1, ?_⟩
  have h2 := (h.2 0 (by decide)).2 (by decide)
  rw [h2]

/-! ### Claims C1 and C2: counterexamples -/

/-- C1 counterexample: the input token `"R1"` collides with the first
introduced rule name; compression then conflates the original token
with the non-terminal and reconstruction returns
`[a, b, a, b, a, b] ≠ [R1, a, b, a, b]`. -/
theorem c1_counterexample :
    reconstructM (compressM ["R1", "a", "b", "a", "b"]).1
      (compressM ["R1", "a", "b", "a", "b"]).2 ≠ ["R1", "a", "b", "a", "b"] := by
  decide

/-- C2 counterexample: with the colliding input token `"R2"`, the rule
`R2 -> (a, b, R2)` survives compression with external usage 1 (one
occurrence in `R3`'s RHS, none in the compressed sequence; the source
counts its self-occurrence as well and therefore keeps it). -/
theorem c2_counterexample :
    externalUsage (compressM ["a", "b", "R2", "c", "a", "b", "R2", "c"]).1
      (compressM ["a", "b", "R2", "c", "a", "b", "R2", "c"]).2 "R2" = 1 ∧
    hasKey (compressM ["a", "b", "R2", "c", "a", "b", "R2", "c"]).2.rules "R2" = true := by
  decide

theorem compressM_nil : compressM [] = ([], emptyGrammar) := by rfl

theorem compressTraceM_nil : compressTraceM [] = [([], emptyGrammar)] := by rfl

theorem computeEntropyM_empty : computeEntropyM emptyGrammar = 0 := by
  simp [computeEntropyM, emptyGrammar]

theorem detectM_single (det : DetectorM) (g : GrammarM) :
    detectM det [g] = { entropies := [computeEntropyM g], events := [] } := by
  simp [detectM]

theorem scoreComponentsM_emptyg (c : List String) (ts : Nat) :
    scoreComponentsM emptyGrammar c ts =
      { grammarCost := 0,
        dataCost := (eliasGammaLength c.length : ℝ) + (c.length : ℝ) * safeLog2 (max 2 (max 2 ts)),
        total := (eliasGammaLength c.length : ℝ) + (c.length : ℝ) * safeLog2 (max 2 (max 2 ts)) } := by
  simp [scoreComponentsM, emptyGrammar]

theorem scoreComponentsM_empty2 : scoreComponentsM emptyGrammar [] 2 =
    { grammarCost := 0, dataCost := 1, total := 1 } := by
  simp [scoreComponentsM, emptyGrammar, eliasGammaLength, Nat.log_one_right]

theorem asTuples_emptyg : asTuples emptyGrammar = [] := by rfl

theorem processM_nil_emergence (cfg : EngineCfg) (h : cfg.emergence = true) :
    processM [] cfg =
      { compressed := [], rules := [], mdlScore := 1, compressionRat := 1,
        mdlGrammarCost := 0, mdlDataCost := 1, naiveMdl := 1, coverage := 0,
        validLossless := true, entropies := some [0], events := some [],
        mdlTrajectory := some [{ grammarCost := 0, dataCost := 1, total := 1 }] } := by
  simp [processM, h, compressTraceM_nil, compressM_nil, distinctCount, pyOrNat, asTuples_emptyg,
    reconstructM, expandAll, compressionRatioM,
    naiveBaselineM, scoreM, scoreComponentsM_empty2, detectM_single,
    computeEntropyM_empty, eliasGammaLength, Nat.log_one_right]

theorem processM_nil_plain (cfg : EngineCfg) (h : cfg.emergence = false) :
    processM [] cfg =
      { compressed := [], rules := [], mdlScore := 1, compressionRat := 1,
        mdlGrammarCost := 0, mdlDataCost := 1, naiveMdl := 1, coverage := 0,
        validLossless := true, entropies := none, events := none,
        mdlTrajectory := none } := by
  simp [processM, h, compressTraceM_nil, compressM_nil, distinctCount, pyOrNat,
    asTuples_emptyg, reconstructM, expandAll, compressionRatioM,
    naiveBaselineM, scoreM, scoreComponentsM_empty2, eliasGammaLength,
    Nat.log_one_right]

/-- C5 counterexample: on the empty token sequence with emergence
enabled, the entropy trajectory and the MDL trajectory are singletons
(the final post-inlining snapshot), not empty as claimed. -/
theorem c5_counterexample :
    (processM [] cfgEmergence).entropies = some [(0 : ℝ)] ∧
    some [(0 : ℝ)] ≠ some ([] : List ℝ) ∧
    (processM [] cfgEmergence).mdlTrajectory =
      some [{ grammarCost := 0, dataCost := 1, total := 1 }] ∧
    some [({ grammarCost := 0, dataCost := 1, total := 1 } : MDLComponentsM)] ≠
      some ([] : List MDLComponentsM) := by
  have h := processM_nil_emergence cfgEmergence rfl
  rw [h]
  refine ⟨rfl, by simp, rfl, by simp⟩

/-- C5 (amended): on the empty token sequence `process` returns a
well-formed result with empty compressed sequence, empty rules,
`mdl_score = gamma(0) + 0 = 1`, `compression_ratio = 1.0`,
`coverage = 0.0`, `valid_lossless = true`, and, when emergence is
enabled, an empty event list together with *singleton* trajectories:
`entropies = [0.0]` and one MDL trajectory entry `(0, 1, 1)` for the
single final snapshot. -/
theorem c5_empty_input (cfg : EngineCfg) :
    (processM [] cfg).compressed = [] ∧
    (processM [] cfg).rules = [] ∧
    (processM [] cfg).mdlScore = ((eliasGammaLength 0 : ℝ) + 0) ∧
    (processM [] cfg).mdlScore = 1 ∧
    (processM [] cfg).compressionRat = 1 ∧
    (processM [] cfg).coverage = 0 ∧
    (processM [] cfg).validLossless = true ∧
    (cfg.emergence = true →
      (processM [] cfg).entropies = some [0] ∧
      (processM [] cfg).events = some [] ∧
      (processM [] cfg).mdlTrajectory =
        some [{ grammarCost := 0, dataCost := 1, total := 1 }]) ∧
    (cfg.emergence = false →
      (processM [] cfg).entropies = none ∧
      (processM [] cfg).events = none ∧
      (processM [] cfg).mdlTrajectory = none) := by
  have hg : ((eliasGammaLength 0 : ℝ) + 0) = 1 := by
    simp [eliasGammaLength, Nat.log_one_right]
  cases hem : cfg.emergence
  · rw [processM_nil_plain cfg hem]
    refine ⟨rfl, rfl, by rw [hg], rfl, rfl, rfl, rfl, by simp, fun _ => ⟨rfl, rfl, rfl⟩⟩
  · rw [processM_nil_emergence cfg hem]
    refine ⟨rfl, rfl, by rw [hg], rfl, rfl, rfl, rfl, fun _ => ⟨rfl, rfl, rfl⟩, by simp⟩

/-- C5 witness: the amended statement instantiated with the
emergence-enabled default configuration. -/
theorem c5_empty_input_witness :
    (processM [] cfgEmergence).validLossless = true ∧
    (processM [] cfgEmergence).entropies = some [0] ∧
    (processM [] cfgEmergence).mdlTrajectory =
      some [{ grammarCost := 0, dataCost := 1, total := 1 }] := by
  have h := c5_empty_input cfgEmergence
  have he := h.2.2.2.2.2.2.2.1 rfl
  exact ⟨h.2.2.2.2.2.2.1, he.1, he.2.2⟩

theorem keysInOrderGo_eq : ∀ (n fuel : Nat) (l : List (String × String)),
    fuel ≤ n → l.length ≤ fuel → keysInOrderGo fuel l = keysInOrder l := by
  intro n
  induction n with
  | zero =>
    intro fuel l h1 h2
    have hf : fuel = 0 := Nat.le_zero.1 h1
    subst hf
    have hl : l = [] := List.eq_nil_of_length_eq_zero (Nat.le_zero.1 h2)
    subst hl
    rfl
  | succ m ih =>
    intro fuel l hfn hlf
    cases l with
    | nil =>
      cases fuel <;> rfl
    | cons d rest =>
      cases fuel with
      | zero => simp at hlf
      | succ f =>
        have hrest : rest.length ≤ m := by
          simp only [List.length_cons] at hlf
          omega
        have hflt : (rest.filter (fun x => x ≠ d)).length ≤ rest.length :=
          List.length_filter_le _ _
        show d :: keysInOrderGo f (rest.filter (fun x => x ≠ d)) = keysInOrder (d :: rest)
        have hrec1 := ih f (rest.filter (fun x => x ≠ d)) (by omega)
          (by simp only [List.length_cons] at hlf; omega)
        have hrec2 : keysInOrder (d :: rest) =
            d :: keysInOrder (rest.filter (fun x => x ≠ d)) := by
          show keysInOrderGo (rest.length + 1) (d :: rest) = _
          simp only [keysInOrderGo]
          rw [ih rest.length (rest.filter (fun x => x ≠ d)) hrest hflt]
        rw [hrec1, hrec2]

theorem keysInOrder_cons (d : String × String) (rest : List (String × String)) :
    keysInOrder (d :: rest) = d :: keysInOrder (rest.filter (fun x => x ≠ d)) := by
  show keysInOrderGo (rest.length + 1) (d :: rest) = _
  simp only [keysInOrderGo]
  rw [keysInOrderGo_eq rest.length rest.length (rest.filter (fun x => x ≠ d))
    le_rfl (List.length_filter_le _ _)]

theorem mem_keysInOrder : ∀ (n : Nat) (l : List (String × String)),
    l.length ≤ n → ∀ x, x ∈ keysInOrder l ↔ x ∈ l := by
  intro n
  induction n with
  | zero =>
    intro l hl x
    have : l = [] := List.eq_nil_of_length_eq_zero (Nat.le_zero.1 hl)
    subst this
    simp [keysInOrder, keysInOrderGo]
  | succ m ih =>
    intro l hl x
    cases l with
    | nil => simp [keysInOrder, keysInOrderGo]
    | cons d rest =>
      rw [keysInOrder_cons]
      have hlen : (rest.filter (fun y => y ≠ d)).length ≤ m := by
        have := List.length_filter_le (fun y => y ≠ d) rest
        simp only [List.length_cons] at hl
        omega
      constructor
      · intro hx
        rcases List.mem_cons.1 hx with h | h
        · exact h ▸ List.mem_cons_self d rest
        · have := (ih _ hlen x).1 h
          have := List.mem_filter.1 this
          exact List.mem_cons_of_mem d this.1
      · intro hx
        rcases List.mem_cons.1 hx with h | h
        · exact h ▸ List.mem_cons_self d _
        · by_cases hxd : x = d
          · exact hxd ▸ List.mem_cons_self d _
          · refine List.mem_cons_of_mem d ((ih _ hlen x).2 ?_)
            exact List.mem_filter.2 ⟨h, by simp [hxd]⟩

theorem posIn_cons_self {α : Type} [DecidableEq α] (x : α) (l : List α) :
    posIn (x :: l) x = 0 := by
  simp [posIn]

theorem posIn_cons_ne {α : Type} [DecidableEq α] {x a : α} (l : List α)
    (h : ¬ x = a) : posIn (x :: l) a = posIn l a + 1 := by
  simp [posIn, h]

theorem posIn_filter_lt {α : Type} [DecidableEq α] (p : α → Bool) :
    ∀ (l : List α) (a b : α), p a = true → p b = true →
      a ∈ l.filter p → b ∈ l.filter p →
      posIn (l.filter p) a < posIn (l.filter p) b → posIn l a < posIn l b := by
  intro l
  induction l with
  | nil => intro a b _ _ ha _ _; simp at ha
  | cons x rest ih =>
    intro a b hpa hpb ha hb h
    by_cases hpx : p x = true
    · rw [List.filter_cons_of_pos hpx] at ha hb h
      by_cases hxa : x = a
      · subst hxa
        rw [posIn_cons_self] at h
        have hxb : ¬ x = b := by
          intro hxb
          rw [← hxb, posIn_cons_self] at h
          omega
        rw [posIn_cons_self, posIn_cons_ne rest hxb]
        omega
      · by_cases hxb : x = b
        · subst hxb
          rw [posIn_cons_ne _ hxa, posIn_cons_self] at h
          omega
        · rw [posIn_cons_ne _ hxa, posIn_cons_ne _ hxb] at h
          rw [posIn_cons_ne rest hxa, posIn_cons_ne rest hxb]
          have ha' : a ∈ rest.filter p := by
            rcases List.mem_cons.1 ha with h' | h'
            · exact absurd h'.symm hxa
            · exact h'
          have hb' : b ∈ rest.filter p := by
            rcases List.mem_cons.1 hb with h' | h'
            · exact absurd h'.symm hxb
            · exact h'
          have := ih a b hpa hpb ha' hb' (by omega)
          omega
    · rw [List.filter_cons_of_neg hpx] at ha hb h
      have hxa : ¬ x = a := fun he => hpx (he ▸ hpa)
      have hxb : ¬ x = b := fun he => hpx (he ▸ hpb)
      rw [posIn_cons_ne rest hxa, posIn_cons_ne rest hxb]
      have := ih a b hpa hpb ha hb h
      omega

theorem keysInOrder_before : ∀ (n : Nat) (l : List (String × String)),
    l.length ≤ n → ∀ (k₁ k₂ : List (String × String)) (u v : String × String),
      keysInOrder l = k₁ ++ u :: k₂ → v ∈ k₂ → posIn l u < posIn l v := by
  intro n
  induction n with
  | zero =>
    intro l hl k₁ k₂ u v heq hv
    have : l = [] := List.eq_nil_of_length_eq_zero (Nat.le_zero.1 hl)
    subst this
    rcases k₁ with _ | ⟨y, k⟩ <;> simp [keysInOrder, keysInOrderGo] at heq
  | succ m ih =>
    intro l hl k₁ k₂ u v heq hv
    cases l with
    | nil =>
      rcases k₁ with _ | ⟨y, k⟩ <;> simp [keysInOrder, keysInOrderGo] at heq
    | cons d rest =>
      rw [keysInOrder_cons] at heq
      have hlen : (rest.filter (fun y => y ≠ d)).length ≤ m := by
        have := List.length_filter_le (fun y => y ≠ d) rest
        simp only [List.length_cons] at hl
        omega
      cases k₁ with
      | nil =>
        simp only [List.nil_append, List.cons.injEq] at heq
        obtain ⟨hdu, hK⟩ := heq
        have hvK : v ∈ keysInOrder (rest.filter (fun y => y ≠ d)) := hK ▸ hv
        have hvf : v ∈ rest.filter (fun y => y ≠ d) :=
          (mem_keysInOrder m _ hlen v).1 hvK
        have hvd : v ≠ d := by
          have := List.mem_filter.1 hvf
          simpa using this.2
        have hdv : ¬ d = v := fun he => hvd he.symm
        rw [← hdu, posIn_cons_self, posIn_cons_ne rest hdv]
        omega
      | cons e k₁' =>
        simp only [List.cons_append, List.cons.injEq] at heq
        obtain ⟨hed, hK⟩ := heq
        subst hed
        have huK : u ∈ keysInOrder (rest.filter (fun y => y ≠ d)) := by
          rw [hK]
          exact List.mem_append.2 (Or.inr (List.mem_cons_self u k₂))
        have hvK : v ∈ keysInOrder (rest.filter (fun y => y ≠ d)) := by
          rw [hK]
          exact List.mem_append.2 (Or.inr (List.mem_cons_of_mem u hv))
        have huf : u ∈ rest.filter (fun y => y ≠ d) :=
          (mem_keysInOrder m _ hlen u).1 huK
        have hvf : v ∈ rest.filter (fun y => y ≠ d) :=
          (mem_keysInOrder m _ hlen v).1 hvK
        have hpu := (List.mem_filter.1 huf).2
        have hpv := (List.mem_filter.1 hvf).2
        have hflt := ih (rest.filter (fun y => y ≠ d)) hlen k₁' k₂ u v hK hv
        have hrest := posIn_filter_lt (fun y => decide (y ≠ d)) rest u v hpu hpv huf hvf hflt
        have heu : ¬ d = u := by
          intro he
          subst he
          simp at hpu
        have hev : ¬ d = v := by
          intro he
          subst he
          simp at hpv
        rw [posIn_cons_ne rest heu, posIn_cons_ne rest hev]
        omega

theorem pyMaxBySnd_none {α : Type} (l : List (α × Nat)) :
    pyMaxBySnd l = none ↔ l = [] := by
  cases l with
  | nil => simp [pyMaxBySnd]
  | cons x xs =>
    simp only [pyMaxBySnd]
    cases pyMaxBySnd xs <;> simp

theorem pyMaxBySnd_split {α : Type} :
    ∀ (l : List (α × Nat)) (m : α × Nat), pyMaxBySnd l = some m →
      (∀ x ∈ l, x.2 ≤ m.2) ∧
      ∃ l₁ l₂, l = l₁ ++ m :: l₂ ∧ ∀ x ∈ l₁, x.2 < m.2 := by
  intro l
  induction l with
  | nil => intro m h; simp [pyMaxBySnd] at h
  | cons x xs ih =>
    intro m h
    simp only [pyMaxBySnd] at h
    cases hxs : pyMaxBySnd xs with
    | none =>
      rw [hxs] at h
      have hnil : xs = [] := (pyMaxBySnd_none xs).1 hxs
      subst hnil
      simp only [Option.some.injEq] at h
      subst h
      exact ⟨by simp, [], [], by simp, by simp⟩
    | some m' =>
      rw [hxs] at h
      simp only [Option.some.injEq] at h
      obtain ⟨hmax, l₁, l₂, heq, hlt⟩ := ih m' hxs
      by_cases hc : x.2 < m'.2
      · rw [if_pos hc] at h
        subst h
        refine ⟨?_, x :: l₁, l₂, by simp [heq], ?_⟩
        · intro y hy
          rcases List.mem_cons.1 hy with h' | h'
          · exact h' ▸ le_of_lt hc
          · exact hmax y h'
        · intro y hy
          rcases List.mem_cons.1 hy with h' | h'
          · exact h' ▸ hc
          · exact hlt y h'
      · rw [if_neg hc] at h
        subst h
        push_neg at hc
        refine ⟨?_, [], xs, by simp, by simp⟩
        intro y hy
        rcases List.mem_cons.1 hy with h' | h'
        · exact h' ▸ le_rfl
        · exact le_trans (hmax y h') hc

theorem map_split {α β : Type} (f : α → β) :
    ∀ (l : List α) (l₁ : List β) (x : β) (l₂ : List β), l.map f = l₁ ++ x :: l₂ →
      ∃ k₁ a k₂, l = k₁ ++ a :: k₂ ∧ k₁.map f = l₁ ∧ f a = x ∧ k₂.map f = l₂ := by
  intro l
  induction l with
  | nil => intro l₁ x l₂ h; simp at h
  | cons a rest ih =>
    intro l₁ x l₂ h
    cases l₁ with
    | nil =>
      simp only [List.map_cons, List.nil_append, List.cons.injEq] at h
      exact ⟨[], a, rest, by simp, by simp, h.1, h.2⟩
    | cons y l₁' =>
      simp only [List.map_cons, List.cons_append, List.cons.injEq] at h
      obtain ⟨hy, hrest⟩ := h
      obtain ⟨k₁, a', k₂, he, hm1, hm2, hm3⟩ := ih l₁' x l₂ hrest
      exact ⟨a :: k₁, a', k₂, by simp [he], by simp [hm1, hy], hm2, hm3⟩

theorem digramCounts_entry (s : List String) (x : (String × String) × Nat) :
    x ∈ digramCounts s → x.2 = digramCount s x.1 ∧ x.1 ∈ digramList s := by
  intro hx
  obtain ⟨d, hd, rfl⟩ := List.mem_map.1 hx
  exact ⟨rfl, (mem_keysInOrder (digramList s).length _ le_rfl d).1 hd⟩

theorem digramCounts_mem (s : List String) (d : String × String) :
    d ∈ digramList s → (d, digramCount s d) ∈ digramCounts s := by
  intro hd
  exact List.mem_map.2 ⟨d, (mem_keysInOrder (digramList s).length _ le_rfl d).2 hd, rfl⟩

theorem digramCount_pos_mem (s : List String) (d : String × String)
    (h : 1 ≤ digramCount s d) : d ∈ digramList s := by
  unfold digramCount at h
  exact List.count_pos_iff.1 h

/-- C3: one iteration of the RePair main loop introduces a rule exactly
when the winning digram count is at least 2 (stopping otherwise, with
winning count 0 when no digram exists); the selected digram has the
maximal count, any distinct digram tied at the maximal count first
occurs strictly later in the sequence, and the introduced rule is
`R<id> -> (x, y)` for the selected digram `(x, y)` together with the
left-to-right replacement of the sequence. -/
theorem c3_selection (seq : List String) (g : GrammarM) (rid : Nat) :
    (compressStep (seq, g, rid) = none ↔ winningCount seq < 2) ∧
    ∀ d f, selectDigram seq = some (d, f) →
      f = digramCount seq d ∧
      (∀ d', digramCount seq d' ≤ f) ∧
      (∀ d', digramCount seq d' = f → d' ≠ d →
        posIn (digramList seq) d < posIn (digramList seq) d') ∧
      (2 ≤ f →
        compressStep (seq, g, rid) =
          some (replaceAll d.1 d.2 (ruleName rid) seq,
            (addRule g (ruleName rid) [d.1, d.2]).2, rid + 1)) := by
  constructor
  · unfold compressStep winningCount
    cases h : selectDigram seq with
    | none => simp
    | some df =>
      obtain ⟨d, f⟩ := df
      by_cases hf : f < 2
      · simp [hf]
      · simp [hf]
  · intro d f hsel
    obtain ⟨hmax, l₁, l₂, heq, hlt⟩ := pyMaxBySnd_split (digramCounts seq) (d, f) hsel
    have hmem : (d, f) ∈ digramCounts seq := by
      rw [heq]
      exact List.mem_append.2 (Or.inr (List.mem_cons_self _ _))
    have hentry := digramCounts_entry seq (d, f) hmem
    have hfpos : 1 ≤ f := by
      have h1 : 1 ≤ digramCount seq d := by
        unfold digramCount
        exact List.count_pos_iff.2 hentry.2
      have h2 : f = digramCount seq d := hentry.1
      omega
    refine ⟨hentry.1, ?_, ?_, ?_⟩
    · intro d'
      by_cases h0 : digramCount seq d' = 0
      · rw [h0]
        exact Nat.zero_le f
      · have hd' : d' ∈ digramList seq :=
          digramCount_pos_mem seq d' (Nat.one_le_iff_ne_zero.2 h0)
        exact hmax (d', digramCount seq d') (digramCounts_mem seq d' hd')
    · intro d' hcnt hne
      have hd' : d' ∈ digramList seq := by
        apply digramCount_pos_mem seq d'
        omega
      have hmem' : (d', f) ∈ digramCounts seq := by
        rw [← hcnt]
        exact digramCounts_mem seq d' hd'
      have hin : (d', f) ∈ l₂ := by
        rw [heq] at hmem'
        rcases List.mem_append.1 hmem' with h1 | h1
        · exact absurd (hlt _ h1) (lt_irrefl f)
        · rcases List.mem_cons.1 h1 with h2 | h2
          · exact absurd (congrArg Prod.fst h2) hne
          · exact h2
      unfold digramCounts at heq
      obtain ⟨k₁, a, k₂, hkeys, hk1, hka, hk2⟩ :=
        map_split (fun k => (k, digramCount seq k)) _ _ _ _ heq
      have had : a = d := congrArg Prod.fst hka
      have hd'k : d' ∈ k₂ := by
        rw [← hk2] at hin
        obtain ⟨b, hb, hbe⟩ := List.mem_map.1 hin
        have hbd : b = d' := congrArg Prod.fst hbe
        exact hbd ▸ hb
      have := keysInOrder_before (digramList seq).length (digramList seq) le_rfl
        k₁ k₂ a d' hkeys hd'k
      rwa [had] at this
    · intro h2f
      unfold compressStep
      simp only [hsel]
      rw [if_neg (by omega)]

/-- C3 witness: on `[a, b, a, b]` the selection is `(a, b)` with count
2, the step introduces `R1 -> (a, b)`, and the competing digram `(b,
a)` has a smaller count. -/
theorem c3_selection_witness :
    compressStep (["a", "b", "a", "b"], emptyGrammar, 1) =
      some (replaceAll "a" "b" (ruleName 1) ["a", "b", "a", "b"],
        (addRule emptyGrammar (ruleName 1) ["a", "b"]).2, 2) ∧
    digramCount ["a", "b", "a", "b"] ("b", "a") ≤ 2 := by
  have h := (c3_selection ["a", "b", "a", "b"] emptyGrammar 1).2 ("a", "b") 2 (by decide)
  exact ⟨h.2.2.2 (by norm_num), h.2.1 ("b", "a")⟩

theorem detDeact_events (c : Prop) [Decidable c] (s : DetSt) :
    (if c then
        { run := s.run, active := false, lastIdx := s.lastIdx, events := s.events }
      else s).events = s.events := by
  split <;> rfl

theorem detDeact_lastIdx (c : Prop) [Decidable c] (s : DetSt) :
    (if c then
        { run := s.run, active := false, lastIdx := s.lastIdx, events := s.events }
      else s).lastIdx = s.lastIdx := by
  split <;> rfl

/-- Case analysis of one detection-loop iteration: either no event is
emitted and `events`/`last_event_idx` are unchanged, or the gap guard
held and exactly one event at index `i` is appended. -/
theorem detBody_cases (det : DetectorM) (E : List ℝ) (thr maxE : ℝ)
    (st : DetSt) (i : Nat) :
    ((detBody det E thr maxE st i).events = st.events ∧
      (detBody det E thr maxE st i).lastIdx = st.lastIdx) ∨
    (det.minGap ≤ (i : Int) - st.lastIdx ∧
      (detBody det E thr maxE st i).events = st.events ++
        [{ index := i,
           magnitude := E.getD (i + 1) 0 - 2 * E.getD i 0 + E.getD (i - 1) 0,
           kind := if E.getD (i + 1) 0 - 2 * E.getD i 0 + E.getD (i - 1) 0 < 0
             then "emergence" else "dissolution",
           entropyBefore := E.getD (i - 1) 0,
           entropyAfter := E.getD (i + 1) 0, rulesAdded := [] }] ∧
      (detBody det E thr maxE st i).lastIdx = (i : Int)) := by
  simp only [detBody]
  by_cases hc : (¬(st.active = true) ∧
      det.minPersistence ≤ ((if thr ≤ |E.getD (i + 1) 0 - 2 * E.getD i 0 + E.getD (i - 1) 0| / maxE then st.run + 1 else 0 : Nat) : Int) ∧
      det.minGap ≤ (i : Int) - st.lastIdx)
  · rw [if_pos hc]
    right
    refine ⟨hc.2.2, ?_, ?_⟩
    · rw [detDeact_events]
    · rw [detDeact_lastIdx]
  · rw [if_neg hc]
    left
    exact ⟨by rw [detDeact_events], by rw [detDeact_lastIdx]⟩



theorem chain'_snoc {α : Type} (R : α → α → Prop) (l : List α) (e : α)
    (hc : List.Chain' R l) (hl : ∀ x, l.getLast? = some x → R x e) :
    List.Chain' R (l ++ [e]) := by
  rw [List.chain'_append]
  refine ⟨hc, List.chain'_singleton e, ?_⟩
  intro x hx y hy
  simp only [List.head?_cons, Option.mem_def, Option.some.injEq] at hy
  subst hy
  exact hl x hx

theorem detFold_chain (det : DetectorM) (E : List ℝ) (thr maxE : ℝ) :
    ∀ (k a : Nat) (st : DetSt),
      List.Chain' (fun x y => x.index < y.index ∧
        det.minGap ≤ (y.index : Int) - (x.index : Int)) st.events →
      (∀ e, st.events.getLast? = some e → (e.index : Int) = st.lastIdx) →
      st.lastIdx < (a : Int) →
      List.Chain' (fun x y => x.index < y.index ∧
          det.minGap ≤ (y.index : Int) - (x.index : Int))
        ((List.range' a k).foldl (detBody det E thr maxE) st).events ∧
      (∀ e, ((List.range' a k).foldl (detBody det E thr maxE) st).events.getLast? =
          some e →
        (e.index : Int) = ((List.range' a k).foldl (detBody det E thr maxE) st).lastIdx) ∧
      ((List.range' a k).foldl (detBody det E thr maxE) st).lastIdx <
        ((a + k : Nat) : Int) := by
  intro k
  induction k with
  | zero =>
    intro a st h1 h2 h3
    exact ⟨h1, h2, by simpa using h3⟩
  | succ n ih =>
    intro a st h1 h2 h3
    rw [List.range'_succ]
    simp only [List.foldl_cons]
    have hcast : ((a + (n + 1) : Nat) : Int) = ((a + 1 + n : Nat) : Int) := by
      push_cast
      ring
    rw [hcast]
    rcases detBody_cases det E thr maxE st a with ⟨he, hli⟩ | ⟨hgap, he, hli⟩
    · exact ih (a + 1) (detBody det E thr maxE st a)
        (he ▸ h1) (fun e hee => (hli.symm ▸ h2 e (he ▸ hee)))
        (by rw [hli]; push_cast; omega)
    · apply ih (a + 1) (detBody det E thr maxE st a)
      · rw [he]
        apply chain'_snoc _ _ _ h1
        intro x hx
        have hxi : (x.index : Int) = st.lastIdx := h2 x hx
        constructor
        · have : (x.index : Int) < (a : Int) := by omega
          exact_mod_cast this
        · simp only [hxi]
          omega
      · intro e hee
        rw [he] at hee
        rw [List.getLast?_concat] at hee
        rw [hli]
        simp only [Option.some.injEq] at hee
        rw [← hee]
      · rw [hli]
        push_cast
        omega

theorem detFold_forall (det : DetectorM) (E : List ℝ) (thr maxE : ℝ) :
    ∀ (k a : Nat) (st : DetSt), 1 ≤ a → a + k + 1 ≤ E.length →
      (∀ e ∈ st.events, 1 ≤ e.index ∧ e.index + 2 ≤ E.length ∧
        e.entropyBefore = E.getD (e.index - 1) 0 ∧
        e.entropyAfter = E.getD (e.index + 1) 0) →
      ∀ e ∈ ((List.range' a k).foldl (detBody det E thr maxE) st).events,
        1 ≤ e.index ∧ e.index + 2 ≤ E.length ∧
        e.entropyBefore = E.getD (e.index - 1) 0 ∧
        e.entropyAfter = E.getD (e.index + 1) 0 := by
  intro k
  induction k with
  | zero =>
    intro a st _ _ h
    exact h
  | succ n ih =>
    intro a st ha hbound h
    rw [List.range'_succ]
    simp only [List.foldl_cons]
    apply ih (a + 1) (detBody det E thr maxE st a) (by omega) (by omega)
    rcases detBody_cases det E thr maxE st a with ⟨he, _⟩ | ⟨_, he, _⟩
    · rw [he]
      exact h
    · rw [he]
      intro e hee
      rcases List.mem_append.1 hee with hm | hm
      · exact h e hm
      · rcases List.mem_cons.1 hm with hm2 | hm2
        · subst hm2
          refine ⟨by show 1 ≤ a; omega, by show a + 2 ≤ E.length; omega, rfl, rfl⟩
        · simp at hm2

/-- C6: the events returned by the detector have strictly increasing
indices and every two consecutive events are at least `min_gap` apart
(`min_gap` being the clamped value stored by the detector, which is at
least the raw configured value). -/
theorem c6_event_ordering (det : DetectorM) (gs : List GrammarM) :
    List.Chain' (fun x y => x.index < y.index ∧
      det.minGap ≤ (y.index : Int) - (x.index : Int)) (detectM det gs).events := by
  unfold detectM
  by_cases h : (gs.map computeEntropyM).length < 3
  · simp only [if_pos h]
    exact List.chain'_nil
  · simp only [if_neg h]
    refine (detFold_chain det (gs.map computeEntropyM) _ _
      ((gs.map computeEntropyM).length - 2) 1 detInit ?_ ?_ ?_).1
    · exact List.chain'_nil
    · intro e hee
      simp [detInit] at hee
    · show -(10 ^ 9 : Int) < 1
      norm_num

/-- C10: every detector event has index `i` with `1 ≤ i ≤ n − 2` (so
`i + 2 ≤ n`), `entropy_before`/`entropy_after` are exactly the entries
`E[i−1]`/`E[i+1]` of the returned entropy list, and in particular the
engine's rule-diff attribution guard `1 ≤ i < n − 1` holds for every
event. -/
theorem c10_event_bounds (det : DetectorM) (gs : List GrammarM) :
    (detectM det gs).entropies = gs.map computeEntropyM ∧
    (detectM det gs).entropies.length = gs.length ∧
    List.Forall (fun e => 1 ≤ e.index ∧ e.index + 2 ≤ gs.length ∧
      e.entropyBefore = (detectM det gs).entropies.getD (e.index - 1) 0 ∧
      e.entropyAfter = (detectM det gs).entropies.getD (e.index + 1) 0)
      (detectM det gs).events := by
  have hent : (detectM det gs).entropies = gs.map computeEntropyM := by
    unfold detectM
    by_cases h : (gs.map computeEntropyM).length < 3
    · simp only [if_pos h]
    · simp only [if_neg h]
  refine ⟨hent, by rw [hent]; exact List.length_map gs computeEntropyM, ?_⟩
  rw [List.forall_iff_forall_mem, hent]
  have hlen : (gs.map computeEntropyM).length = gs.length :=
    List.length_map gs computeEntropyM
  unfold detectM
  by_cases h : (gs.map computeEntropyM).length < 3
  · simp only [if_pos h]
    intro e hee
    simp at hee
  · simp only [if_neg h]
    intro e hee
    have := detFold_forall det (gs.map computeEntropyM) _ _
      ((gs.map computeEntropyM).length - 2) 1 detInit (le_refl 1) (by omega)
      (by intro e' he'; simp [detInit] at he') e hee
    exact ⟨this.1, by omega, this.2.2.1, this.2.2.2⟩

theorem data_append (s t : String) : (s ++ t).data = s.data ++ t.data := by
  cases s
  cases t
  rfl

theorem toDigitsCore_eq_digitsAux : ∀ (fuel n : Nat) (ds : List Char),
    n < fuel → Nat.toDigitsCore 10 fuel n ds = digitsAux n ++ ds := by
  intro fuel
  induction fuel with
  | zero => intro n ds h; omega
  | succ f ih =>
    intro n ds h
    rw [Nat.toDigitsCore]
    by_cases h10 : n / 10 = 0
    · have hn : n < 10 := by omega
      rw [if_pos h10]
      rw [digitsAux]
      rw [if_pos hn]
      have : n % 10 = n := Nat.mod_eq_of_lt hn
      rw [this]
      rfl
    · have hn : ¬ n < 10 := by
        intro hc
        exact h10 (Nat.div_eq_of_lt hc)
      rw [if_neg h10]
      have hlt : n / 10 < f := by
        have h1 : n / 10 < n := Nat.div_lt_self (by omega) (by omega)
        omega
      rw [ih (n / 10) (Nat.digitChar (n % 10) :: ds) hlt]
      have hrw : digitsAux n = digitsAux (n / 10) ++ [Nat.digitChar (n % 10)] := by
        rw [digitsAux]
        rw [if_neg hn]
      rw [hrw]
      simp

theorem decChars_snoc (xs : List Char) (c : Char) :
    decChars (xs ++ [c]) = 10 * decChars xs + (c.toNat - 48) := by
  unfold decChars
  rw [List.foldl_append]
  rfl

theorem digitChar_val (d : Nat) (h : d < 10) : (Nat.digitChar d).toNat - 48 = d := by
  interval_cases d <;> rfl

theorem decChars_digitsAux : ∀ n, decChars (digitsAux n) = n := by
  intro n
  induction n using Nat.strong_induction_on with
  | _ n ih =>
    by_cases h : n < 10
    · rw [digitsAux, if_pos h]
      show decChars ([] ++ [Nat.digitChar n]) = n
      rw [decChars_snoc]
      have : decChars [] = 0 := rfl
      rw [this, digitChar_val n h]
      omega
    · rw [digitsAux, if_neg h]
      rw [decChars_snoc]
      rw [ih (n / 10) (Nat.div_lt_self (by omega) (by omega))]
      rw [digitChar_val (n % 10) (Nat.mod_lt n (by omega))]
      omega

theorem reprInj {m n : Nat} (h : (Nat.repr m).data = (Nat.repr n).data) : m = n := by
  unfold Nat.repr Nat.toDigits at h
  rw [toDigitsCore_eq_digitsAux (m + 1) m [] (by omega)] at h
  rw [toDigitsCore_eq_digitsAux (n + 1) n [] (by omega)] at h
  simp only [List.append_nil] at h
  have hd : digitsAux m = digitsAux n := by simpa [List.asString] using h
  have hdec := congrArg decChars hd
  rwa [decChars_digitsAux, decChars_digitsAux] at hdec

theorem ruleName_inj {i j : Nat} (h : ruleName i = ruleName j) : i = j := by
  have hdata := congrArg String.data h
  unfold ruleName at hdata
  rw [data_append, data_append] at hdata
  exact reprInj (List.append_cancel_left hdata)

theorem ruleName_head (k : Nat) : (ruleName k).data.head? = some 'R' := by
  unfold ruleName
  rw [data_append]
  rfl

theorem ne_ruleName_of_head {t : String} (h : t.data.head? ≠ some 'R') :
    ∀ k, t ≠ ruleName k := by
  intro k he
  exact h (he ▸ ruleName_head k)

/-! Association-list lemmas. -/

theorem lookupA_eq_none {α : Type} (l : List (String × α)) (k : String) :
    lookupA l k = none ↔ k ∉ l.map (fun p => p.1) := by
  unfold lookupA
  rw [Option.map_eq_none', List.find?_eq_none]
  constructor
  · intro h hk
    obtain ⟨p, hp, hpk⟩ := List.mem_map.1 hk
    exact h p hp (by simp [hpk])
  · intro h p hp hpk
    exact h (List.mem_map.2 ⟨p, hp, by simpa using hpk⟩)

theorem lookupA_mem {α : Type} {l : List (String × α)} {k : String} {v : α}
    (h : lookupA l k = some v) : (k, v) ∈ l := by
  unfold lookupA at h
  rw [Option.map_eq_some'] at h
  obtain ⟨p, hp, hpv⟩ := h
  have h1 : p.1 = k := by simpa using List.find?_some hp
  have h2 : p ∈ l := List.mem_of_find?_eq_some hp
  have : p = (k, v) := by
    cases p
    simp_all
  exact this ▸ h2

theorem lookupA_isSome {α : Type} (l : List (String × α)) (k : String)
    (h : k ∈ l.map (fun p => p.1)) : ∃ v, lookupA l k = some v := by
  cases hl : lookupA l k with
  | none => exact absurd h ((lookupA_eq_none l k).1 hl)
  | some v => exact ⟨v, rfl⟩

theorem lookupA_append {α : Type} (l₁ l₂ : List (String × α)) (k : String) :
    lookupA (l₁ ++ l₂) k = (lookupA l₁ k).or (lookupA l₂ k) := by
  unfold lookupA
  rw [List.find?_append]
  cases List.find? (fun p => p.1 = k) l₁ <;> simp

theorem lookupA_append_right {α : Type} (l₁ l₂ : List (String × α)) (k : String)
    (h : k ∉ l₁.map (fun p => p.1)) :
    lookupA (l₁ ++ l₂) k = lookupA l₂ k := by
  rw [lookupA_append, (lookupA_eq_none l₁ k).2 h]
  rfl

theorem lookupA_append_left {α : Type} (l₁ l₂ : List (String × α)) (k : String)
    (h : k ∉ l₂.map (fun p => p.1)) :
    lookupA (l₁ ++ l₂) k = lookupA l₁ k := by
  rw [lookupA_append, (lookupA_eq_none l₂ k).2 h]
  cases lookupA l₁ k <;> rfl

theorem lookupA_singleton_self {α : Type} (k : String) (v : α) :
    lookupA [(k, v)] k = some v := by
  simp [lookupA]

theorem lookupA_cons_ne {α : Type} (p : String × α) (l : List (String × α))
    (k : String) (h : p.1 ≠ k) : lookupA (p :: l) k = lookupA l k := by
  unfold lookupA
  rw [List.find?_cons_of_neg]
  simpa using h

theorem setA_nmem {α : Type} : ∀ (l : List (String × α)) (k : String) (v : α),
    k ∉ l.map (fun p => p.1) → setA l k v = l ++ [(k, v)] := by
  intro l
  induction l with
  | nil => intro k v _; rfl
  | cons p rest ih =>
    intro k v h
    simp only [List.map_cons, List.mem_cons] at h
    push_neg at h
    have hpk : ¬ p.1 = k := fun he => h.1 he.symm
    simp only [setA, if_neg hpk]
    rw [ih k v h.2]
    simp

theorem setA_map {α β : Type} (f : α → β) :
    ∀ (l : List (String × α)) (k : String) (v : α),
      (setA l k v).map (fun p => (p.1, f p.2)) =
        setA (l.map (fun p => (p.1, f p.2))) k (f v) := by
  intro l
  induction l with
  | nil => intro k v; rfl
  | cons p rest ih =>
    intro k v
    by_cases h : p.1 = k
    · simp [setA, h]
    · simp only [setA, if_neg h, List.map_cons]
      rw [ih]

theorem delA_map {α β : Type} (f : α → β) (l : List (String × α)) (k : String) :
    (delA l k).map (fun p => (p.1, f p.2)) =
      delA (l.map (fun p => (p.1, f p.2))) k := by
  unfold delA
  induction l with
  | nil => rfl
  | cons p rest ih =>
    simp only [List.map_cons]
    by_cases h : p.1 = k
    · rw [List.filter_cons_of_neg (by simp [h]), List.filter_cons_of_neg (by simp [h])]
      exact ih
    · rw [List.filter_cons_of_pos (by simp [h]), List.filter_cons_of_pos (by simp [h])]
      simp only [List.map_cons]
      rw [ih]

theorem keys_delA {α : Type} (l : List (String × α)) (k : String) :
    (delA l k).map (fun p => p.1) = (l.map (fun p => p.1)).filter (fun x => x ≠ k) := by
  unfold delA
  induction l with
  | nil => rfl
  | cons p rest ih =>
    simp only [List.map_cons]
    by_cases h : p.1 = k
    · rw [List.filter_cons_of_neg (by simp [h]), List.filter_cons_of_neg (by simp [h])]
      exact ih
    · rw [List.filter_cons_of_pos (by simp [h]), List.filter_cons_of_pos (by simp [h])]
      simp only [List.map_cons]
      rw [ih]

theorem lookupA_delA_ne {α : Type} (l : List (String × α)) (k k' : String)
    (h : k' ≠ k) : lookupA (delA l k) k' = lookupA l k' := by
  unfold delA
  induction l with
  | nil => rfl
  | cons p rest ih =>
    by_cases hp : p.1 = k
    · rw [List.filter_cons_of_neg (by simp [hp])]
      rw [ih, lookupA_cons_ne p rest k' (by rw [hp]; exact fun he => h he.symm)]
    · rw [List.filter_cons_of_pos (by simp [hp])]
      by_cases hk' : p.1 = k'
      · unfold lookupA
        rw [List.find?_cons_of_pos (l := List.filter (fun q => decide (q.1 ≠ k)) rest) (by simp [hk'])]
        rw [List.find?_cons_of_pos (l := rest) (by simp [hk'])]
      · rw [lookupA_cons_ne p _ k' hk', lookupA_cons_ne p rest k' hk', ih]

/-! Value-level behaviour of the grammar operations. -/

theorem getSymbol_value (g : GrammarM) (v : String) (h : MapsOk g) :
    (getSymbol g v).1.value = v := by
  unfold getSymbol
  cases hnt : lookupA g.nonTerminals v with
  | some s => exact h.2 (v, s) (lookupA_mem hnt)
  | none =>
    cases ht : lookupA g.terminals v with
    | some s => exact h.1 (v, s) (lookupA_mem ht)
    | none =>
      by_cases hu : pyIsUpper v <;> simp [hu]

theorem getSymbol_state (g : GrammarM) (v : String) (h : MapsOk g) :
    (getSymbol g v).2.rules = g.rules ∧ MapsOk (getSymbol g v).2 := by
  unfold getSymbol
  cases hnt : lookupA g.nonTerminals v with
  | some s => exact ⟨rfl, h⟩
  | none =>
    cases ht : lookupA g.terminals v with
    | some s => exact ⟨rfl, h⟩
    | none =>
      by_cases hu : pyIsUpper v
      · simp only [hu, if_pos rfl]
        refine ⟨by simp, h.1, ?_⟩
        intro p hp
        rcases List.mem_append.1 hp with hm | hm
        · exact h.2 p hm
        · simp at hm
          rw [hm]
      · simp only [hu]
        refine ⟨by simp, ?_, h.2⟩
        intro p hp
        rcases List.mem_append.1 hp with hm | hm
        · exact h.1 p hm
        · simp at hm
          rw [hm]

theorem getSymbols_spec (g : GrammarM) (l : List String) (h : MapsOk g) :
    ((getSymbols g l).1.map (fun s => s.value)) = l ∧
    (getSymbols g l).2.rules = g.rules ∧ MapsOk (getSymbols g l).2 := by
  induction l generalizing g with
  | nil => exact ⟨rfl, rfl, h⟩
  | cons v rest ih =>
    have hv := getSymbol_value g v h
    have hst := getSymbol_state g v h
    have hrec := ih (getSymbol g v).2 hst.2
    unfold getSymbols
    refine ⟨?_, ?_, ?_⟩
    · simp only [List.map_cons]
      rw [hv, hrec.1]
    · rw [hrec.2.1, hst.1]
    · exact hrec.2.2

theorem hasKey_iff {α : Type} (l : List (String × α)) (k : String) :
    hasKey l k = true ↔ k ∈ l.map (fun p => p.1) := by
  unfold hasKey
  rw [List.any_eq_true]
  constructor
  · intro ⟨p, hp, hpk⟩
    exact List.mem_map.2 ⟨p, hp, by simpa using hpk⟩
  · intro h
    obtain ⟨p, hp, hpk⟩ := List.mem_map.1 h
    exact ⟨p, hp, by simpa using hpk⟩

theorem lookupA_mapSnd {α β : Type} (f : α → β) :
    ∀ (l : List (String × α)) (k : String),
      lookupA (l.map (fun p => (p.1, f p.2))) k = (lookupA l k).map f := by
  intro l
  induction l with
  | nil => intro k; rfl
  | cons p rest ih =>
    intro k
    rw [List.map_cons]
    by_cases h : p.1 = k
    · unfold lookupA
      rw [List.find?_cons_of_pos _ (by simp [h]), List.find?_cons_of_pos _ (by simp [h])]
      rfl
    · rw [lookupA_cons_ne _ _ k (by simpa using h), lookupA_cons_ne p rest k h, ih]

theorem keys_asTuples (g : GrammarM) : (asTuples g).map (fun p => p.1) = ruleKeys g := by
  unfold asTuples ruleKeys
  rw [List.map_map]
  rfl

theorem lookupA_asTuples (g : GrammarM) (k : String) :
    lookupA (asTuples g) k = (lookupA g.rules k).map ruleVals := by
  unfold asTuples
  exact lookupA_mapSnd ruleVals g.rules k

theorem getSymbol_rules (g : GrammarM) (v : String) :
    (getSymbol g v).2.rules = g.rules := by
  unfold getSymbol
  cases lookupA g.nonTerminals v with
  | some s => rfl
  | none =>
    cases lookupA g.terminals v with
    | some s => rfl
    | none => by_cases hu : pyIsUpper v <;> simp [hu]

theorem getSymbol_mapsOk (g : GrammarM) (v : String) (h : MapsOk g) :
    MapsOk (getSymbol g v).2 := by
  unfold getSymbol
  cases lookupA g.nonTerminals v with
  | some s => exact h
  | none =>
    cases lookupA g.terminals v with
    | some s => exact h
    | none =>
      by_cases hu : pyIsUpper v
      · simp only [hu, if_pos rfl]
        refine ⟨h.1, ?_⟩
        intro p hp
        rcases List.mem_append.1 hp with hm | hm
        · exact h.2 p hm
        · simp at hm
          rw [hm]
      · simp only [hu]
        refine ⟨?_, h.2⟩
        intro p hp
        rcases List.mem_append.1 hp with hm | hm
        · exact h.1 p hm
        · simp at hm
          rw [hm]

theorem getSymbols_rules (g : GrammarM) (l : List String) :
    (getSymbols g l).2.rules = g.rules := by
  induction l generalizing g with
  | nil => rfl
  | cons v rest ih =>
    unfold getSymbols
    rw [ih (getSymbol g v).2, getSymbol_rules]

theorem getSymbols_mapsOk (g : GrammarM) (l : List String) (h : MapsOk g) :
    MapsOk (getSymbols g l).2 := by
  induction l generalizing g with
  | nil => exact h
  | cons v rest ih =>
    unfold getSymbols
    exact ih (getSymbol g v).2 (getSymbol_mapsOk g v h)

theorem getSymbols_values (g : GrammarM) (l : List String) (h : MapsOk g) :
    (getSymbols g l).1.map (fun s => s.value) = l := by
  induction l generalizing g with
  | nil => rfl
  | cons v rest ih =>
    unfold getSymbols
    simp only [List.map_cons]
    rw [getSymbol_value g v h, ih (getSymbol g v).2 (getSymbol_mapsOk g v h)]

theorem addRule_rules (g : GrammarM) (L : String) (vs : List String) :
    (addRule g L vs).2.rules = setA g.rules L (addRule g L vs).1 := by
  unfold addRule
  by_cases hk : hasKey g.nonTerminals L <;>
    simp only [hk, if_true, if_false, Bool.false_eq_true] <;>
    rw [getSymbols_rules]

theorem addRule_freq (g : GrammarM) (L : String) (vs : List String) :
    (addRule g L vs).1.frequency = 0 ∧ (addRule g L vs).1.probability = 0 := by
  unfold addRule
  by_cases hk : hasKey g.nonTerminals L <;>
    simp [hk]

theorem addRule_vals (g : GrammarM) (L : String) (vs : List String) (h : MapsOk g) :
    ruleVals (addRule g L vs).1 = vs := by
  unfold addRule ruleVals
  by_cases hk : hasKey g.nonTerminals L <;>
    simp only [hk, if_true, if_false, Bool.false_eq_true]
  · exact getSymbols_values g vs h
  · apply getSymbols_values
    refine ⟨h.1, ?_⟩
    intro p hp
    rcases List.mem_append.1 hp with hm | hm
    · exact h.2 p hm
    · simp at hm
      rw [hm]

theorem addRule_mapsOk (g : GrammarM) (L : String) (vs : List String) (h : MapsOk g) :
    MapsOk (addRule g L vs).2 := by
  unfold addRule
  by_cases hk : hasKey g.nonTerminals L <;>
    simp only [hk, if_true, if_false, Bool.false_eq_true]
  · have := getSymbols_mapsOk g vs h
    exact ⟨this.1, this.2⟩
  · have hM1 : MapsOk { g with nonTerminals :=
        g.nonTerminals ++ [(L, { value := L, kind := SymKind.nonterminal })] } := by
      refine ⟨h.1, ?_⟩
      intro p hp
      rcases List.mem_append.1 hp with hm | hm
      · exact h.2 p hm
      · simp at hm
        rw [hm]
    have := getSymbols_mapsOk _ vs hM1
    exact ⟨this.1, this.2⟩

theorem addRule_lhs (g : GrammarM) (L : String) (vs : List String) (h : MapsOk g) :
    (addRule g L vs).1.lhs.value = L := by
  unfold addRule
  by_cases hk : hasKey g.nonTerminals L <;>
    simp only [hk, if_true, if_false, Bool.false_eq_true]
  · have hmem : L ∈ g.nonTerminals.map (fun p => p.1) := (hasKey_iff _ _).1 hk
    obtain ⟨s, hs⟩ := lookupA_isSome g.nonTerminals L hmem
    simp only [hs, Option.getD_some]
    exact h.2 (L, s) (lookupA_mem hs)
  · have hnm : L ∉ g.nonTerminals.map (fun p => p.1) := by
      intro hc
      exact (by simpa [hk] using (hasKey_iff g.nonTerminals L).2 hc)
    have hlook : lookupA (g.nonTerminals ++
        [(L, ({ value := L, kind := SymKind.nonterminal } : SymbolM))]) L =
        some { value := L, kind := SymKind.nonterminal } := by
      rw [lookupA_append_right _ _ L hnm]
      exact lookupA_singleton_self _ _
    simp only [hlook, Option.getD_some]

theorem addRule_fresh (g : GrammarM) (L : String) (vs : List String)
    (h : MapsOk g) (hL : L ∉ ruleKeys g) :
    (addRule g L vs).2.rules = g.rules ++ [(L, (addRule g L vs).1)] ∧
    ruleKeys (addRule g L vs).2 = ruleKeys g ++ [L] ∧
    asTuples (addRule g L vs).2 = asTuples g ++ [(L, vs)] := by
  have hr : (addRule g L vs).2.rules = g.rules ++ [(L, (addRule g L vs).1)] := by
    rw [addRule_rules]
    exact setA_nmem g.rules L _ hL
  refine ⟨hr, ?_, ?_⟩
  · unfold ruleKeys
    rw [hr]
    simp [ruleKeys]
  · unfold asTuples
    rw [hr]
    simp only [List.map_append, List.map_cons, List.map_nil]
    have hv : (addRule g L vs).1.rhs.map (fun s => s.value) = vs := addRule_vals g L vs h
    rw [hv]

theorem lookup_split {α : Type} (l : List (String × α)) (k : String) (v : α)
    (hnd : (l.map (fun p => p.1)).Nodup) (h : lookupA l k = some v) :
    ∃ l₁ l₂, l = l₁ ++ (k, v) :: l₂ ∧ k ∉ l₁.map (fun p => p.1) ∧
      k ∉ l₂.map (fun p => p.1) ∧ delA l k = l₁ ++ l₂ := by
  obtain ⟨l₁, l₂, heq⟩ := List.append_of_mem (lookupA_mem h)
  subst heq
  have hmap : ((l₁ ++ (k, v) :: l₂).map (fun p => p.1)) =
      l₁.map (fun p => p.1) ++ k :: l₂.map (fun p => p.1) := by simp
  rw [hmap] at hnd
  have h1 : k ∉ l₁.map (fun p => p.1) := by
    intro hc
    have hdisj := List.disjoint_of_nodup_append hnd
    exact hdisj hc (List.mem_cons_self k _)
  have h2 : k ∉ l₂.map (fun p => p.1) := by
    have hnd2 := (List.nodup_append.1 hnd).2.1
    have hk := List.Nodup.not_mem hnd2
    simpa using hk
  refine ⟨l₁, l₂, rfl, h1, h2, ?_⟩
  unfold delA
  rw [List.filter_append]
  congr 1
  · apply List.filter_eq_self.2
    intro p hp
    simp only [ne_eq, decide_eq_true_eq]
    intro hpk
    exact h1 (List.mem_map.2 ⟨p, hp, hpk⟩)
  · rw [List.filter_cons_of_neg (by simp)]
    apply List.filter_eq_self.2
    intro p hp
    simp only [ne_eq, decide_eq_true_eq]
    intro hpk
    exact h2 (List.mem_map.2 ⟨p, hp, hpk⟩)

theorem asTuples_mem {g : GrammarM} {k : String} {vs : List String}
    (h : (k, vs) ∈ asTuples g) : ∃ r, (k, r) ∈ g.rules ∧ ruleVals r = vs := by
  unfold asTuples at h
  obtain ⟨p, hp, hpe⟩ := List.mem_map.1 h
  refine ⟨p.2, ?_, ?_⟩
  · have : p = (k, p.2) := by
      cases p
      simp_all
    exact this ▸ hp
  · unfold ruleVals
    have := congrArg Prod.snd hpe
    simpa using this

theorem expandSym_notKey (g : GrammarM) (s : String)
    (h : lookupA (asTuples g) s = none) : ∀ n, expandSym g n s = [s] := by
  intro n
  cases n with
  | zero => rfl
  | succ n => simp [expandSym, h]

theorem expandSym_stable (g : GrammarM) (hr : Ranked g) :
    ∀ (b n m : Nat) (s : String),
      (∀ j, (ruleKeys g).get? j = some s → j < b) → b ≤ n → b ≤ m →
      expandSym g n s = expandSym g m s := by
  intro b
  induction b using Nat.strong_induction_on with
  | _ b ih =>
    intro n m s hpos hn hm
    cases hl : lookupA (asTuples g) s with
    | none =>
      rw [expandSym_notKey g s hl, expandSym_notKey g s hl]
    | some rhs =>
      have hrl : lookupA g.rules s = (lookupA g.rules s) := rfl
      rw [lookupA_asTuples] at hl
      cases hrr : lookupA g.rules s with
      | none => rw [hrr] at hl; simp at hl
      | some r =>
        rw [hrr] at hl
        simp only [Option.map_some', Option.some.injEq] at hl
        have hmem : (s, r) ∈ g.rules := lookupA_mem hrr
        obtain ⟨⟨i, hilen⟩, hig⟩ := List.get_of_mem hmem
        have hgi : g.rules.get? i = some (s, r) := by
          rw [List.get?_eq_get hilen, hig]
        have hki : (ruleKeys g).get? i = some s := by
          unfold ruleKeys
          rw [List.get?_map, hgi]
          rfl
        have hib : i < b := hpos i hki
        have hn1 : 1 ≤ n := by omega
        have hm1 : 1 ≤ m := by omega
        obtain ⟨n', rfl⟩ : ∃ n', n = n' + 1 := ⟨n - 1, by omega⟩
        obtain ⟨m', rfl⟩ : ∃ m', m = m' + 1 := ⟨m - 1, by omega⟩
        have hlook : lookupA (asTuples g) s = some rhs := by
          rw [lookupA_asTuples, hrr, Option.map_some', hl]
        simp only [expandSym, hlook]
        congr 1
        apply List.map_congr_left
        intro v hv
        have hvv : v ∈ ruleVals r := hl ▸ hv
        exact ih i hib n' m' v (fun j hj => hr i (s, r) hgi v hvv j hj) (by omega) (by omega)

theorem expandSym_ge (g : GrammarM) (hr : Ranked g) (s : String) (n : Nat)
    (hn : g.rules.length ≤ n) :
    expandSym g n s = expandSym g (g.rules.length + 1) s := by
  apply expandSym_stable g hr g.rules.length n (g.rules.length + 1) s ?_ hn (by omega)
  intro j hj
  have := List.get?_eq_some.1 hj
  obtain ⟨hlt, _⟩ := this
  unfold ruleKeys at hlt
  simpa using hlt

theorem expandAll_cons (g : GrammarM) (n : Nat) (s : String) (l : List String) :
    expandAll g n (s :: l) = expandSym g n s ++ expandAll g n l := by
  simp [expandAll]

theorem expandAll_append (g : GrammarM) (n : Nat) (l₁ l₂ : List String) :
    expandAll g n (l₁ ++ l₂) = expandAll g n l₁ ++ expandAll g n l₂ := by
  simp [expandAll]

theorem expandAll_nil (g : GrammarM) (n : Nat) : expandAll g n [] = [] := rfl

theorem expandSym_tableShift (g g' : GrammarM) (L : String)
    (hT : ∀ k, k ≠ L → lookupA (asTuples g') k = lookupA (asTuples g) k)
    (hvals : ∀ p ∈ g.rules, L ∉ ruleVals p.2) :
    ∀ (n : Nat) (s : String), s ≠ L → expandSym g' n s = expandSym g n s := by
  intro n
  induction n with
  | zero => intro s _; rfl
  | succ n ih =>
    intro s hs
    simp only [expandSym]
    rw [hT s hs]
    cases hl : lookupA (asTuples g) s with
    | none => rfl
    | some rhs =>
      obtain ⟨r, hrmem, hrv⟩ := asTuples_mem (lookupA_mem hl)
      show (rhs.map (expandSym g' n)).flatten = (rhs.map (expandSym g n)).flatten
      congr 1
      apply List.map_congr_left
      intro v hv
      apply ih
      intro he
      subst he
      exact hvals (s, r) hrmem (hrv ▸ hv)

theorem expandSym_newRule (g' : GrammarM) (L : String) (vs : List String)
    (hl : lookupA (asTuples g') L = some vs) (n : Nat) :
    expandSym g' (n + 1) L = (vs.map (expandSym g' n)).flatten := by
  simp [expandSym, hl]

theorem expandAll_replace (g : GrammarM) (n : Nat) (x y L : String)
    (h : expandSym g n L = expandSym g n x ++ expandSym g n y) :
    ∀ (b : Nat) (seq : List String), seq.length ≤ b →
      expandAll g n (replaceAll x y L seq) = expandAll g n seq := by
  intro b
  induction b with
  | zero =>
    intro seq hlen
    have : seq = [] := List.eq_nil_of_length_eq_zero (Nat.le_zero.1 hlen)
    subst this
    rfl
  | succ b ih =>
    intro seq hlen
    match seq with
    | [] => rfl
    | [a] => rfl
    | a :: c :: rest =>
      by_cases hac : a = x ∧ c = y
      · obtain ⟨rfl, rfl⟩ := hac
        have hrw : replaceAll a c L (a :: c :: rest) = L :: replaceAll a c L rest := by
          conv_lhs => rw [replaceAll]
          rw [if_pos ⟨rfl, rfl⟩]
        rw [hrw, expandAll_cons, expandAll_cons, expandAll_cons]
        rw [ih rest (by simp at hlen; omega)]
        rw [h]
        simp
      · have hrw : replaceAll x y L (a :: c :: rest) = a :: replaceAll x y L (c :: rest) := by
          conv_lhs => rw [replaceAll]
          rw [if_neg hac]
        rw [hrw, expandAll_cons, expandAll_cons]
        rw [ih (c :: rest) (by simp at hlen ⊢; omega)]

theorem expandAll_splice (g : GrammarM) (n : Nat) (L : String) (rhs : List String)
    (h : expandSym g n L = expandAll g n rhs) :
    ∀ seq : List String,
      expandAll g n (spliceFirst L rhs seq) = expandAll g n seq := by
  intro seq
  induction seq with
  | nil => rfl
  | cons a rest ih =>
    by_cases ha : a = L
    · subst ha
      show expandAll g n (if a = a then rhs ++ rest else a :: spliceFirst a rhs rest) = _
      rw [if_pos rfl, expandAll_append, expandAll_cons, h]
    · show expandAll g n (if a = L then rhs ++ rest else a :: spliceFirst L rhs rest) = _
      rw [if_neg ha, expandAll_cons, expandAll_cons, ih]

/-! Counting lemmas for the sequence and RHS transformations. -/

theorem mem_digramList {s : List String} {x y : String}
    (h : (x, y) ∈ digramList s) : x ∈ s ∧ y ∈ s := by
  unfold digramList at h
  have hx := (List.mem_zip h).1
  have hy := (List.mem_zip h).2
  exact ⟨hx, (List.tail_sublist s).mem hy⟩

theorem replaceAll_len_le (x y L : String) :
    ∀ (b : Nat) (seq : List String), seq.length ≤ b →
      (replaceAll x y L seq).length ≤ seq.length := by
  intro b
  induction b with
  | zero =>
    intro seq h
    have : seq = [] := List.eq_nil_of_length_eq_zero (Nat.le_zero.1 h)
    subst this
    simp [replaceAll]
  | succ b ih =>
    intro seq h
    match seq with
    | [] => simp [replaceAll]
    | [a] => simp [replaceAll]
    | a :: c :: rest =>
      by_cases hac : a = x ∧ c = y
      · obtain ⟨rfl, rfl⟩ := hac
        conv_lhs => rw [replaceAll]
        rw [if_pos ⟨rfl, rfl⟩]
        have := ih rest (by simp at h; omega)
        simp only [List.length_cons]
        omega
      · conv_lhs => rw [replaceAll]
        rw [if_neg hac]
        have := ih (c :: rest) (by simp at h ⊢; omega)
        simp only [List.length_cons] at this ⊢
        omega

theorem replaceAll_len_lt (x y L : String) :
    ∀ (b : Nat) (seq : List String), seq.length ≤ b →
      (x, y) ∈ digramList seq →
      (replaceAll x y L seq).length < seq.length := by
  intro b
  induction b with
  | zero =>
    intro seq h hd
    have : seq = [] := List.eq_nil_of_length_eq_zero (Nat.le_zero.1 h)
    subst this
    simp [digramList] at hd
  | succ b ih =>
    intro seq h hd
    match seq with
    | [] => simp [digramList] at hd
    | [a] => simp [digramList] at hd
    | a :: c :: rest =>
      by_cases hac : a = x ∧ c = y
      · obtain ⟨rfl, rfl⟩ := hac
        conv_lhs => rw [replaceAll]
        rw [if_pos ⟨rfl, rfl⟩]
        have := replaceAll_len_le a c L rest.length rest le_rfl
        simp only [List.length_cons]
        omega
      · conv_lhs => rw [replaceAll]
        rw [if_neg hac]
        have hd' : (x, y) ∈ digramList (c :: rest) := by
          unfold digramList at hd ⊢
          simp only [List.zip_cons_cons, List.tail_cons] at hd ⊢
          rcases List.mem_cons.1 hd with h1 | h1
          · exact absurd (by simpa using h1.symm) (by simpa using hac)
          · exact h1
        have := ih (c :: rest) (by simp at h ⊢; omega) hd'
        simp only [List.length_cons] at this ⊢
        omega

theorem replaceAll_mem (x y L : String) :
    ∀ (b : Nat) (seq : List String), seq.length ≤ b →
      ∀ s ∈ replaceAll x y L seq, s ∈ seq ∨ s = L := by
  intro b
  induction b with
  | zero =>
    intro seq h s hs
    have : seq = [] := List.eq_nil_of_length_eq_zero (Nat.le_zero.1 h)
    subst this
    simp [replaceAll] at hs
  | succ b ih =>
    intro seq h s hs
    match seq with
    | [] => simp [replaceAll] at hs
    | [a] =>
      simp [replaceAll] at hs
      simp [hs]
    | a :: c :: rest =>
      by_cases hac : a = x ∧ c = y
      · obtain ⟨rfl, rfl⟩ := hac
        rw [show replaceAll a c L (a :: c :: rest) = L :: replaceAll a c L rest from by
          conv_lhs => rw [replaceAll]
          rw [if_pos ⟨rfl, rfl⟩]] at hs
        rcases List.mem_cons.1 hs with h1 | h1
        · exact Or.inr h1
        · rcases ih rest (by simp at h; omega) s h1 with h2 | h2
          · exact Or.inl (by simp [h2])
          · exact Or.inr h2
      · rw [show replaceAll x y L (a :: c :: rest) = a :: replaceAll x y L (c :: rest) from by
          conv_lhs => rw [replaceAll]
          rw [if_neg hac]] at hs
        rcases List.mem_cons.1 hs with h1 | h1
        · exact Or.inl (by simp [h1])
        · rcases ih (c :: rest) (by simp at h ⊢; omega) s h1 with h2 | h2
          · exact Or.inl (by simp at h2 ⊢; tauto)
          · exact Or.inr h2

theorem count_replaceAll_L (x y L : String) :
    ∀ (b : Nat) (seq : List String), seq.length ≤ b →
      (x, y) ∈ digramList seq →
      1 ≤ (replaceAll x y L seq).count L := by
  intro b
  induction b with
  | zero =>
    intro seq h hd
    have : seq = [] := List.eq_nil_of_length_eq_zero (Nat.le_zero.1 h)
    subst this
    simp [digramList] at hd
  | succ b ih =>
    intro seq h hd
    match seq with
    | [] => simp [digramList] at hd
    | [a] => simp [digramList] at hd
    | a :: c :: rest =>
      by_cases hac : a = x ∧ c = y
      · obtain ⟨rfl, rfl⟩ := hac
        rw [show replaceAll a c L (a :: c :: rest) = L :: replaceAll a c L rest from by
          conv_lhs => rw [replaceAll]
          rw [if_pos ⟨rfl, rfl⟩]]
        simp [List.count_cons]
      · rw [show replaceAll x y L (a :: c :: rest) = a :: replaceAll x y L (c :: rest) from by
          conv_lhs => rw [replaceAll]
          rw [if_neg hac]]
        have hd' : (x, y) ∈ digramList (c :: rest) := by
          unfold digramList at hd ⊢
          simp only [List.zip_cons_cons, List.tail_cons] at hd ⊢
          rcases List.mem_cons.1 hd with h1 | h1
          · exact absurd (by simpa using h1.symm) (by simpa using hac)
          · exact h1
        have := ih (c :: rest) (by simp at h ⊢; omega) hd'
        rw [List.count_cons]
        omega

theorem count_replaceAll_other (x y L z : String) (hx : z ≠ x) (hy : z ≠ y)
    (hL : z ≠ L) :
    ∀ (b : Nat) (seq : List String), seq.length ≤ b →
      (replaceAll x y L seq).count z = seq.count z := by
  intro b
  induction b with
  | zero =>
    intro seq h
    have : seq = [] := List.eq_nil_of_length_eq_zero (Nat.le_zero.1 h)
    subst this
    rfl
  | succ b ih =>
    intro seq h
    match seq with
    | [] => rfl
    | [a] => rfl
    | a :: c :: rest =>
      by_cases hac : a = x ∧ c = y
      · obtain ⟨rfl, rfl⟩ := hac
        rw [show replaceAll a c L (a :: c :: rest) = L :: replaceAll a c L rest from by
          conv_lhs => rw [replaceAll]
          rw [if_pos ⟨rfl, rfl⟩]]
        rw [List.count_cons, List.count_cons, List.count_cons]
        rw [ih rest (by simp at h; omega)]
        have e1 : (L == z) = false := beq_eq_false_iff_ne.2 (fun he => hL he.symm)
        have e2 : (a == z) = false := beq_eq_false_iff_ne.2 (fun he => hx he.symm)
        have e3 : (c == z) = false := beq_eq_false_iff_ne.2 (fun he => hy he.symm)
        simp [e1, e2, e3]
      · rw [show replaceAll x y L (a :: c :: rest) = a :: replaceAll x y L (c :: rest) from by
          conv_lhs => rw [replaceAll]
          rw [if_neg hac]]
        rw [List.count_cons, List.count_cons]
        rw [ih (c :: rest) (by simp at h ⊢; omega)]



theorem spliceFirst_not_mem (L : String) (rhs : List String) :
    ∀ (seq : List String), L ∉ seq → spliceFirst L rhs seq = seq := by
  intro seq
  induction seq with
  | nil => intro _; rfl
  | cons a rest ih =>
    intro h
    have ha : ¬ a = L := fun he => h (by simp [he])
    show (if a = L then rhs ++ rest else a :: spliceFirst L rhs rest) = a :: rest
    rw [if_neg ha, ih (fun hm => h (List.mem_cons_of_mem a hm))]

theorem count_spliceFirst_ne (L z : String) (rhs : List String) (hz : z ≠ L) :
    ∀ (seq : List String), L ∈ seq →
      (spliceFirst L rhs seq).count z = seq.count z + rhs.count z := by
  intro seq
  induction seq with
  | nil => intro h; simp at h
  | cons a rest ih =>
    intro h
    by_cases ha : a = L
    · subst ha
      show (if a = a then rhs ++ rest else a :: spliceFirst a rhs rest).count z = _
      rw [if_pos rfl, List.count_append, List.count_cons]
      have : (a == z) = false := beq_eq_false_iff_ne.2 (fun he => hz he.symm)
      simp [this] <;> omega
    · have hrest : L ∈ rest := by
        rcases List.mem_cons.1 h with h1 | h1
        · exact absurd h1.symm ha
        · exact h1
      show (if a = L then rhs ++ rest else a :: spliceFirst L rhs rest).count z = _
      rw [if_neg ha, List.count_cons, List.count_cons, ih hrest]
      omega

theorem count_spliceFirst_self (L : String) (rhs : List String)
    (hr : rhs.count L = 0) :
    ∀ (seq : List String), L ∈ seq →
      (spliceFirst L rhs seq).count L = seq.count L - 1 := by
  intro seq
  induction seq with
  | nil => intro h; simp at h
  | cons a rest ih =>
    intro h
    by_cases ha : a = L
    · subst ha
      show (if a = a then rhs ++ rest else a :: spliceFirst a rhs rest).count a = _
      rw [if_pos rfl, List.count_append, List.count_cons]
      simp [hr]
    · have hrest : L ∈ rest := by
        rcases List.mem_cons.1 h with h1 | h1
        · exact absurd h1.symm ha
        · exact h1
      show (if a = L then rhs ++ rest else a :: spliceFirst L rhs rest).count L = _
      rw [if_neg ha, List.count_cons, List.count_cons, ih hrest]
      have h1 : 1 ≤ rest.count L := List.count_pos_iff.2 hrest
      have h2 : (a == L) = false := beq_eq_false_iff_ne.2 ha
      simp [h2] <;> omega

theorem spliceFirst_mem (L : String) (rhs : List String) :
    ∀ (seq : List String) (s : String), s ∈ spliceFirst L rhs seq →
      s ∈ seq ∨ s ∈ rhs := by
  intro seq
  induction seq with
  | nil => intro s hs; simp [spliceFirst] at hs
  | cons a rest ih =>
    intro s hs
    by_cases ha : a = L
    · rw [show spliceFirst L rhs (a :: rest) = rhs ++ rest from by
        show (if a = L then rhs ++ rest else a :: spliceFirst L rhs rest) = _
        rw [if_pos ha]] at hs
      rcases List.mem_append.1 hs with h1 | h1
      · exact Or.inr h1
      · exact Or.inl (List.mem_cons_of_mem a h1)
    · rw [show spliceFirst L rhs (a :: rest) = a :: spliceFirst L rhs rest from by
        show (if a = L then rhs ++ rest else a :: spliceFirst L rhs rest) = _
        rw [if_neg ha]] at hs
      rcases List.mem_cons.1 hs with h1 | h1
      · exact Or.inl (by simp [h1])
      · rcases ih s h1 with h2 | h2
        · exact Or.inl (List.mem_cons_of_mem a h2)
        · exact Or.inr h2

theorem inlineVals_of_count_zero (L : String) (rhs : List String) :
    ∀ (vs : List String), vs.count L = 0 → inlineVals L rhs vs = vs := by
  intro vs
  induction vs with
  | nil => intro _; rfl
  | cons v rest ih =>
    intro h
    rw [List.count_cons] at h
    have hv : ¬ v = L := by
      intro he
      simp [he] at h
    show (if v = L then rhs else [v]) ++ inlineVals L rhs rest = v :: rest
    rw [if_neg hv, ih (by omega)]
    rfl

theorem count_inlineVals_ne (L z : String) (rhs : List String) (hz : z ≠ L) :
    ∀ (vs : List String),
      (inlineVals L rhs vs).count z = vs.count z + vs.count L * rhs.count z := by
  intro vs
  induction vs with
  | nil => simp [inlineVals]
  | cons v rest ih =>
    show ((if v = L then rhs else [v]) ++ inlineVals L rhs rest).count z = _
    rw [List.count_append, ih, List.count_cons, List.count_cons]
    by_cases hv : v = L
    · subst hv
      have h1 : (v == z) = false := beq_eq_false_iff_ne.2 (fun he => hz he.symm)
      rw [if_pos rfl]
      simp [h1] <;> ring
    · rw [if_neg hv]
      have h2 : (v == L) = false := beq_eq_false_iff_ne.2 hv
      rw [List.count_cons, List.count_nil]
      simp [h2] <;> ring

theorem count_inlineVals_self (L : String) (rhs : List String)
    (hr : rhs.count L = 0) :
    ∀ (vs : List String), (inlineVals L rhs vs).count L = 0 := by
  intro vs
  induction vs with
  | nil => rfl
  | cons v rest ih =>
    show ((if v = L then rhs else [v]) ++ inlineVals L rhs rest).count L = 0
    rw [List.count_append, ih]
    by_cases hv : v = L
    · rw [if_pos hv, hr]
    · rw [if_neg hv]
      have h2 : (v == L) = false := beq_eq_false_iff_ne.2 hv
      simp [List.count_cons, h2]

theorem inlineVals_mem (L : String) (rhs : List String) :
    ∀ (vs : List String) (s : String), s ∈ inlineVals L rhs vs →
      s ∈ vs ∨ s ∈ rhs := by
  intro vs
  induction vs with
  | nil => intro s hs; simp [inlineVals] at hs
  | cons v rest ih =>
    intro s hs
    rw [show inlineVals L rhs (v :: rest) =
      (if v = L then rhs else [v]) ++ inlineVals L rhs rest from rfl] at hs
    rcases List.mem_append.1 hs with h1 | h1
    · by_cases hv : v = L
      · rw [if_pos hv] at h1
        exact Or.inr h1
      · rw [if_neg hv] at h1
        simp at h1
        exact Or.inl (by simp [h1])
    · rcases ih s h1 with h2 | h2
      · exact Or.inl (List.mem_cons_of_mem v h2)
      · exact Or.inr h2

theorem flatten_map_singleton {α : Type} (l : List α) :
    (l.map (fun s => [s])).flatten = l := by
  induction l with
  | nil => rfl
  | cons a rest ih => simp [ih]

theorem expandAll_emptyG (n : Nat) (seq : List String) :
    expandAll emptyGrammar n seq = seq := by
  unfold expandAll
  rw [List.map_congr_left
    (fun s _ => expandSym_notKey emptyGrammar s rfl n)]
  exact flatten_map_singleton seq

theorem expandSym_congr (g g' : GrammarM) (h : asTuples g' = asTuples g) :
    ∀ (n : Nat) (s : String), expandSym g' n s = expandSym g n s := by
  intro n
  induction n with
  | zero => intro s; rfl
  | succ n ih =>
    intro s
    simp only [expandSym, h]
    cases lookupA (asTuples g) s with
    | none => rfl
    | some rhs =>
      show (rhs.map (expandSym g' n)).flatten = (rhs.map (expandSym g n)).flatten
      congr 1
      exact List.map_congr_left (fun v _ => ih v)

theorem expandAll_congr (g g' : GrammarM) (h : asTuples g' = asTuples g)
    (n : Nat) (seq : List String) : expandAll g' n seq = expandAll g n seq := by
  unfold expandAll
  congr 1
  exact List.map_congr_left (fun v _ => expandSym_congr g g' h n v)

theorem usageAll_asTuples (s : List String) (g : GrammarM) (k : String) :
    usageAll s g k = s.count k + ((asTuples g).map (fun p => p.2.count k)).sum := by
  unfold usageAll asTuples
  rw [List.map_map]
  rfl

theorem usageAll_congr (g g' : GrammarM) (h : asTuples g' = asTuples g)
    (s : List String) (k : String) : usageAll s g' k = usageAll s g k := by
  rw [usageAll_asTuples, usageAll_asTuples, h]

theorem ranked_congr (g g' : GrammarM) (h : asTuples g' = asTuples g)
    (hr : Ranked g) : Ranked g' := by
  have hkeys : ruleKeys g' = ruleKeys g := by
    rw [← keys_asTuples, ← keys_asTuples, h]
  intro i p hp v hv j hj
  have hT : (asTuples g).get? i = some (p.1, ruleVals p.2) := by
    rw [← h]
    unfold asTuples
    rw [List.get?_map, hp]
    rfl
  unfold asTuples at hT
  rw [List.get?_map] at hT
  cases hq : g.rules.get? i with
  | none => rw [hq] at hT; simp at hT
  | some q =>
    rw [hq] at hT
    simp only [Option.map_some', Option.some.injEq] at hT
    have h2 : List.map (fun s => s.value) q.2.rhs = ruleVals p.2 := congrArg Prod.snd hT
    have hv' : v ∈ ruleVals q.2 := by
      show v ∈ List.map (fun s => s.value) q.2.rhs
      rw [h2]
      exact hv
    exact hr i q hq v hv' j (by rw [← hkeys]; exact hj)

theorem fresh_congr (s : List String) (g g' : GrammarM) (rid : Nat)
    (h : asTuples g' = asTuples g) (hf : FreshBound s g rid) :
    FreshBound s g' rid := by
  obtain ⟨h1, h2, h3⟩ := hf
  have hkeys : ruleKeys g' = ruleKeys g := by
    rw [← keys_asTuples, ← keys_asTuples, h]
  refine ⟨h1, ?_, ?_⟩
  · intro p hp v hv k hk
    have hmem : (p.1, ruleVals p.2) ∈ asTuples g :=
      h ▸ List.mem_map.2 ⟨p, hp, rfl⟩
    obtain ⟨r, hr, hrv⟩ := asTuples_mem hmem
    exact h2 (p.1, r) hr v (by rw [hrv]; exact hv) k hk
  · intro key hkey
    exact h3 key (hkeys ▸ hkey)

theorem expandSym_key_unfold (g : GrammarM) (hr : Ranked g) (L : String)
    (vs : List String) (hl : lookupA (asTuples g) L = some vs) :
    expandSym g (g.rules.length + 1) L = expandAll g (g.rules.length + 1) vs := by
  simp only [expandSym, hl, expandAll]
  congr 1
  exact List.map_congr_left (fun v _ => expandSym_ge g hr v g.rules.length le_rfl)

theorem selectDigram_facts (s : List String) (d : String × String) (f : Nat)
    (h : selectDigram s = some (d, f)) :
    f = digramCount s d ∧ d ∈ digramList s := by
  unfold selectDigram at h
  obtain ⟨_, l₁, l₂, heq, _⟩ := pyMaxBySnd_split (digramCounts s) (d, f) h
  have hmem : (d, f) ∈ digramCounts s := by
    rw [heq]
    exact List.mem_append.2 (Or.inr (List.mem_cons_self _ _))
  exact digramCounts_entry s (d, f) hmem

theorem inlineOne_eq (seq : List String) (g : GrammarM) (lhs : String) :
    inlineOne seq g lhs =
      (let rhs := (lookupA (asTuples g) lhs).getD []
       let inSeq := seq.contains lhs
       let seq' := if inSeq then spliceFirst lhs rhs seq else seq
       let step := g.rules.foldl (inlineFoldF lhs rhs) ([], g, false)
       (seq', { step.2.1 with rules := delA step.1 lhs }, inSeq || step.2.2)) := rfl

theorem inlinePass_eq (seq : List String) (g : GrammarM) :
    inlinePass seq g = (ruleKeys g).foldl (inlinePassF seq g) (seq, g, false) := rfl

theorem updateRuleUsage_asTuples (s : List String) (g : GrammarM) :
    asTuples (updateRuleUsage s g) = asTuples g := by
  unfold updateRuleUsage asTuples
  rw [List.map_map, List.map_map]
  rfl

theorem updateRuleUsage_len (s : List String) (g : GrammarM) :
    (updateRuleUsage s g).rules.length = g.rules.length := by
  unfold updateRuleUsage
  simp

theorem updateRuleUsage_sides (s : List String) (g : GrammarM) :
    (updateRuleUsage s g).terminals = g.terminals ∧
    (updateRuleUsage s g).nonTerminals = g.nonTerminals := by
  unfold updateRuleUsage
  exact ⟨rfl, rfl⟩

theorem updateRuleUsage_keysMatch (s : List String) (g : GrammarM)
    (h : KeysMatch g) : KeysMatch (updateRuleUsage s g) := by
  intro p hp
  unfold updateRuleUsage at hp
  simp only [List.map_map, List.mem_map] at hp
  obtain ⟨q, hq, hpe⟩ := hp
  subst hpe
  exact h q hq

theorem updateRuleUsage_goodState (tokens s : List String) (g : GrammarM)
    (h : GoodState tokens s g) : GoodState tokens s (updateRuleUsage s g) := by
  obtain ⟨⟨hnd, hrk, hkm, hmo⟩, hus, hexp⟩ := h
  have hT := updateRuleUsage_asTuples s g
  have hkeys : ruleKeys (updateRuleUsage s g) = ruleKeys g := by
    rw [← keys_asTuples, ← keys_asTuples, hT]
  refine ⟨⟨?_, ?_, ?_, ?_⟩, ?_, ?_⟩
  · rw [hkeys]; exact hnd
  · exact ranked_congr g _ hT hrk
  · exact updateRuleUsage_keysMatch s g hkm
  · obtain ⟨ht, hn⟩ := updateRuleUsage_sides s g
    exact ⟨by rw [ht]; exact hmo.1, by rw [hn]; exact hmo.2⟩
  · intro k hk
    rw [usageAll_congr g _ hT]
    exact hus k (hkeys ▸ hk)
  · rw [updateRuleUsage_len, expandAll_congr g _ hT]
    exact hexp

theorem updateRuleUsage_fresh (sF s : List String) (g : GrammarM) (rid : Nat)
    (h : FreshBound sF g rid) : FreshBound sF (updateRuleUsage s g) rid :=
  fresh_congr sF g _ rid (updateRuleUsage_asTuples s g) h

theorem usage_split (s : List String) (g : GrammarM)
    (A B : List (String × RuleM)) (hr : g.rules = A ++ B) (k : String) :
    usageAll s g k = s.count k + ((A.map (fun p => (ruleVals p.2).count k)).sum
      + (B.map (fun p => (ruleVals p.2).count k)).sum) := by
  unfold usageAll
  rw [hr]
  simp only [ruleVals, List.map_append, List.sum_append]

theorem compressStep_some (seq : List String) (g : GrammarM) (rid : Nat)
    (x y : String) (f : Nat) (hsel : selectDigram seq = some ((x, y), f))
    (hf : ¬ f < 2) :
    compressStep (seq, g, rid) =
      some (replaceAll x y (ruleName rid) seq,
        (addRule g (ruleName rid) [x, y]).2, rid + 1) := by
  unfold compressStep
  rw [hsel]
  simp only [if_neg hf]

theorem compressStep_none_iff (seq : List String) (g : GrammarM) (rid : Nat) :
    compressStep (seq, g, rid) = none ↔ winningCount seq < 2 := by
  unfold compressStep winningCount
  cases hsel : selectDigram seq with
  | none => simp
  | some df =>
    obtain ⟨d, f⟩ := df
    by_cases hf : f < 2
    · simp [if_pos hf, hf]
    · simp only [if_neg hf]
      constructor
      · intro h
        exact absurd h (by
          rcases haddr : addRule g (ruleName rid) [d.1, d.2] with ⟨r0, g0⟩
          simp [haddr])
      · intro h
        exact absurd h (by simpa using hf)

/-- The main invariant-preservation lemma for one `compressStep`. -/
theorem compressStep_inv (tokens seq : List String) (g : GrammarM) (rid : Nat)
    (hG : GoodState tokens seq g) (hF : FreshBound seq g rid) (h1 : 1 ≤ rid)
    {st' : RpState} (h : compressStep (seq, g, rid) = some st') :
    GoodState tokens st'.1 st'.2.1 ∧ FreshBound st'.1 st'.2.1 st'.2.2 ∧
    st'.2.2 = rid + 1 ∧ st'.1.length < seq.length := by
  obtain ⟨⟨hnd, hrk, hkm, hmo⟩, hus, hexp⟩ := hG
  obtain ⟨hFs, hFr, hFk⟩ := hF
  cases hsel : selectDigram seq with
  | none =>
    rw [(by unfold compressStep; rw [hsel] :
      compressStep (seq, g, rid) = none)] at h
    simp at h
  | some df =>
    obtain ⟨d, f⟩ := df
    obtain ⟨x, y⟩ := d
    by_cases hf : f < 2
    · rw [(by unfold compressStep; rw [hsel]; simp [if_pos hf] :
        compressStep (seq, g, rid) = none)] at h
      simp at h
    · rw [compressStep_some seq g rid x y f hsel hf] at h
      obtain ⟨hfc, hdl⟩ := selectDigram_facts seq (x, y) f hsel
      have hxy : x ∈ seq ∧ y ∈ seq := mem_digramList hdl
      have hL : ¬ (ruleName rid) ∈ ruleKeys g := by
        intro hc
        obtain ⟨j, hj1, hj2, hj3⟩ := hFk _ hc
        exact absurd (ruleName_inj hj3.symm) (by omega)
      have hxL : x ≠ ruleName rid := hFs x hxy.1 rid le_rfl
      have hyL : y ≠ ruleName rid := hFs y hxy.2 rid le_rfl
      obtain ⟨hr1, hr2, hr3⟩ := addRule_fresh g (ruleName rid) [x, y] hmo hL
      have hvals2 : ruleVals (addRule g (ruleName rid) [x, y]).1 = [x, y] :=
        addRule_vals g (ruleName rid) [x, y] hmo
      have hlhsv : (addRule g (ruleName rid) [x, y]).1.lhs.value = ruleName rid :=
        addRule_lhs g (ruleName rid) [x, y] hmo
      have hmo' : MapsOk (addRule g (ruleName rid) [x, y]).2 :=
        addRule_mapsOk g (ruleName rid) [x, y] hmo
      set L := ruleName rid with hLdef
      set r := (addRule g L [x, y]).1 with hrdef
      set g' := (addRule g L [x, y]).2 with hgdef
      obtain rfl : st' = (replaceAll x y L seq, g', rid + 1) := (Option.some.inj h).symm
      have hklen : (ruleKeys g).length = g.rules.length := by simp [ruleKeys]
      have hlen' : g'.rules.length = g.rules.length + 1 := by
        rw [hr1]; simp
      have hvalsL : ∀ p ∈ g.rules, L ∉ ruleVals p.2 := by
        intro p hp hc
        exact hFr p hp L hc rid le_rfl rfl
      have hseqL : ∀ s ∈ seq, s ≠ L := fun s hs => hFs s hs rid le_rfl
      have hnd' : (ruleKeys g').Nodup := by
        rw [hr2]
        simp only [List.nodup_append]
        refine ⟨hnd, List.nodup_singleton L, ?_⟩
        intro a ha hb
        simp only [List.mem_singleton] at hb
        exact hL (hb ▸ ha)
      have hrk' : Ranked g' := by
        intro i p hp v hv j hj
        rw [hr1] at hp
        rw [hr2] at hj
        by_cases hi : i < g.rules.length
        · rw [List.get?_append hi] at hp
          have hvL : v ≠ L := by
            intro he
            exact hvalsL p (List.get?_mem hp) (he ▸ hv)
          by_cases hjlen : j < (ruleKeys g).length
          · rw [List.get?_append hjlen] at hj
            exact hrk i p hp v hv j hj
          · exfalso
            push_neg at hjlen
            have hjlt : j < (ruleKeys g).length + 1 := by
              have := List.get?_eq_some.1 hj
              obtain ⟨hlt, _⟩ := this
              simpa using hlt
            have hjeq : j = (ruleKeys g).length := by omega
            subst hjeq
            rw [List.get?_append_right le_rfl] at hj
            simp only [Nat.sub_self, List.get?_cons_zero, Option.some.injEq] at hj
            exact hvL hj.symm
        · push_neg at hi
          have hilt : i < g.rules.length + 1 := by
            have := List.get?_eq_some.1 hp
            obtain ⟨hlt, _⟩ := this
            simpa using hlt
          have hieq : i = g.rules.length := by omega
          subst hieq
          rw [List.get?_append_right le_rfl] at hp
          simp only [Nat.sub_self, List.get?_cons_zero, Option.some.injEq] at hp
          have hv2 : v = x ∨ v = y := by
            rw [← hp] at hv
            rw [hvals2] at hv
            simpa using hv
          have hvL : v ≠ L := by
            rcases hv2 with rfl | rfl
            · exact hxL
            · exact hyL
          by_cases hjlen : j < (ruleKeys g).length
          · omega
          · exfalso
            push_neg at hjlen
            have hjlt : j < (ruleKeys g).length + 1 := by
              have := List.get?_eq_some.1 hj
              obtain ⟨hlt, _⟩ := this
              simpa using hlt
            have hjeq : j = (ruleKeys g).length := by omega
            subst hjeq
            rw [List.get?_append_right le_rfl] at hj
            simp only [Nat.sub_self, List.get?_cons_zero, Option.some.injEq] at hj
            exact hvL hj.symm
      have hkm' : KeysMatch g' := by
        intro p hp
        rw [hr1] at hp
        rcases List.mem_append.1 hp with hold | hnew
        · exact hkm p hold
        · simp only [List.mem_singleton] at hnew
          rw [hnew]
          exact hlhsv
      have hus' : ∀ k ∈ ruleKeys g', 1 ≤ usageAll (replaceAll x y L seq) g' k := by
        intro k hk
        rw [usage_split (replaceAll x y L seq) g' g.rules [(L, r)] hr1 k]
        simp only [List.map_cons, List.map_nil, List.sum_cons, List.sum_nil]
        rw [hvals2]
        rw [hr2] at hk
        rcases List.mem_append.1 hk with hkold | hkL
        · have hkneL : k ≠ L := fun he => hL (he ▸ hkold)
          by_cases hkx : k = x
          · have : 1 ≤ ([x, y].count k) := List.count_pos_iff.2 (by rw [hkx]; simp)
            omega
          · by_cases hky : k = y
            · have : 1 ≤ ([x, y].count k) := List.count_pos_iff.2 (by rw [hky]; simp)
              omega
            · rw [count_replaceAll_other x y L k hkx hky hkneL seq.length seq le_rfl]
              have hold := hus k hkold
              rw [usage_split seq g g.rules [] (by simp) k] at hold
              simp only [List.map_nil, List.sum_nil] at hold
              omega
        · simp only [List.mem_singleton] at hkL
          subst hkL
          have := count_replaceAll_L x y L seq.length seq le_rfl hdl
          omega
      have hT : ∀ k2, k2 ≠ L → lookupA (asTuples g') k2 = lookupA (asTuples g) k2 := by
        intro k2 hk2
        rw [hr3]
        apply lookupA_append_left
        simp [hk2]
      have hshift := expandSym_tableShift g g' L hT hvalsL
      have hlookL : lookupA (asTuples g') L = some [x, y] := by
        rw [hr3]
        rw [lookupA_append_right _ _ L (by rw [keys_asTuples]; exact hL)]
        exact lookupA_singleton_self _ _
      have hLexp : expandSym g' (g'.rules.length + 1) L =
          expandSym g' (g'.rules.length + 1) x ++ expandSym g' (g'.rules.length + 1) y := by
        rw [expandSym_key_unfold g' hrk' L [x, y] hlookL]
        simp [expandAll]
      have hrepl := expandAll_replace g' (g'.rules.length + 1) x y L hLexp seq.length seq le_rfl
      have hcongrG : expandAll g' (g'.rules.length + 1) seq =
          expandAll g (g.rules.length + 1) seq := by
        unfold expandAll
        congr 1
        apply List.map_congr_left
        intro v hvs
        rw [hshift _ v (hseqL v hvs)]
        exact expandSym_ge g hrk v (g'.rules.length + 1) (by omega)
      have hexp' : expandAll g' (g'.rules.length + 1) (replaceAll x y L seq) = tokens := by
        rw [hrepl, hcongrG, hexp]
      show GoodState tokens (replaceAll x y L seq) g' ∧
        FreshBound (replaceAll x y L seq) g' (rid + 1) ∧
        rid + 1 = rid + 1 ∧ (replaceAll x y L seq).length < seq.length
      refine ⟨⟨⟨hnd', hrk', hkm', hmo'⟩, hus', hexp'⟩, ⟨?_, ?_, ?_⟩, rfl, ?_⟩
      · intro s hs k hk
        rcases replaceAll_mem x y L seq.length seq le_rfl s hs with hsold | hsL
        · exact hFs s hsold k (by omega)
        · rw [hsL]
          intro he
          have := ruleName_inj he
          omega
      · intro p hp v hv k hk
        rw [hr1] at hp
        rcases List.mem_append.1 hp with hold | hnew
        · exact hFr p hold v hv k (by omega)
        · simp only [List.mem_singleton] at hnew
          rw [hnew] at hv
          rw [hvals2] at hv
          rcases (by simpa using hv : v = x ∨ v = y) with rfl | rfl
          · exact hFs v hxy.1 k (by omega)
          · exact hFs v hxy.2 k (by omega)
      · intro key hkey
        rw [hr2] at hkey
        rcases List.mem_append.1 hkey with hkold | hkL
        · obtain ⟨j, hj1, hj2, hj3⟩ := hFk key hkold
          exact ⟨j, hj1, by omega, hj3⟩
        · simp only [List.mem_singleton] at hkL
          exact ⟨rid, h1, by omega, hkL⟩
      · exact replaceAll_len_lt x y L seq.length seq le_rfl hdl

theorem compressLoop_inv (tokens : List String) :
    ∀ (fuel : Nat) (st : RpState),
      GoodState tokens st.1 st.2.1 → FreshBound st.1 st.2.1 st.2.2 → 1 ≤ st.2.2 →
      GoodState tokens (compressLoop fuel st).1 (compressLoop fuel st).2.1 := by
  intro fuel
  induction fuel with
  | zero => intro st hG _ _; exact hG
  | succ fuel ih =>
    intro st hG hF h1
    obtain ⟨seq, g, rid⟩ := st
    show GoodState tokens (compressLoop (fuel + 1) (seq, g, rid)).1 _
    unfold compressLoop
    cases hs : compressStep (seq, g, rid) with
    | none => exact hG
    | some st' =>
      obtain ⟨hG', hF', hrid', _⟩ := compressStep_inv tokens seq g rid hG hF h1 hs
      exact ih st' hG' hF' (by omega)

theorem traceLoop_inv (tokens : List String) :
    ∀ (fuel : Nat) (st : RpState) (snaps : List (List String × GrammarM)),
      GoodState tokens st.1 st.2.1 → FreshBound st.1 st.2.1 st.2.2 → 1 ≤ st.2.2 →
      GoodState tokens (traceLoop fuel st snaps).1.1 (traceLoop fuel st snaps).1.2.1 := by
  intro fuel
  induction fuel with
  | zero => intro st snaps hG _ _; exact hG
  | succ fuel ih =>
    intro st snaps hG hF h1
    obtain ⟨seq, g, rid⟩ := st
    show GoodState tokens (traceLoop (fuel + 1) (seq, g, rid) snaps).1.1 _
    unfold traceLoop
    cases hs : compressStep (seq, g, rid) with
    | none => exact hG
    | some st' =>
      obtain ⟨hG', hF', hrid', _⟩ := compressStep_inv tokens seq g rid hG hF h1 hs
      exact ih (st'.1, updateRuleUsage st'.1 st'.2.1, st'.2.2) _
        (updateRuleUsage_goodState tokens st'.1 st'.2.1 hG')
        (updateRuleUsage_fresh st'.1 st'.1 st'.2.1 st'.2.2 hF') (by simpa [hrid'] using (by omega : 1 ≤ rid + 1))

theorem initial_good (tokens : List String) :
    GoodState tokens tokens emptyGrammar := by
  refine ⟨⟨?_, ?_, ?_, ?_⟩, ?_, ?_⟩
  · exact List.nodup_nil
  · intro i p hp
    simp [emptyGrammar] at hp
  · intro p hp
    simp [emptyGrammar] at hp
  · exact ⟨fun p hp => by simp [emptyGrammar] at hp,
      fun p hp => by simp [emptyGrammar] at hp⟩
  · intro k hk
    simp [ruleKeys, emptyGrammar] at hk
  · exact expandAll_emptyG _ tokens

theorem initial_fresh (tokens : List String) (h : NoClash tokens) :
    FreshBound tokens emptyGrammar 1 := by
  refine ⟨h, ?_, ?_⟩
  · intro p hp
    simp [emptyGrammar] at hp
  · intro key hkey
    simp [ruleKeys, emptyGrammar] at hkey

theorem compressM_eq (tokens : List String) :
    compressM tokens =
      ((inlineSingletons (compressLoop (tokens.length + 1) (tokens, emptyGrammar, 1)).1
          (compressLoop (tokens.length + 1) (tokens, emptyGrammar, 1)).2.1).1,
        updateRuleUsage
          (inlineSingletons (compressLoop (tokens.length + 1) (tokens, emptyGrammar, 1)).1
            (compressLoop (tokens.length + 1) (tokens, emptyGrammar, 1)).2.1).1
          (inlineSingletons (compressLoop (tokens.length + 1) (tokens, emptyGrammar, 1)).1
            (compressLoop (tokens.length + 1) (tokens, emptyGrammar, 1)).2.1).2) := rfl

theorem compressTraceM_eq (tokens : List String) :
    compressTraceM tokens =
      (traceLoop (tokens.length + 1) (tokens, emptyGrammar, 1) []).2 ++
        [((inlineSingletons (traceLoop (tokens.length + 1) (tokens, emptyGrammar, 1) []).1.1
             (traceLoop (tokens.length + 1) (tokens, emptyGrammar, 1) []).1.2.1).1,
          cloneM (updateRuleUsage
            (inlineSingletons (traceLoop (tokens.length + 1) (tokens, emptyGrammar, 1) []).1.1
              (traceLoop (tokens.length + 1) (tokens, emptyGrammar, 1) []).1.2.1).1
            (inlineSingletons (traceLoop (tokens.length + 1) (tokens, emptyGrammar, 1) []).1.1
              (traceLoop (tokens.length + 1) (tokens, emptyGrammar, 1) []).1.2.1).2))] := rfl

theorem posIn_get {α : Type} [DecidableEq α] :
    ∀ (l : List α) (a : α), a ∈ l → l.get? (posIn l a) = some a := by
  intro l
  induction l with
  | nil => intro a ha; simp at ha
  | cons x rest ih =>
    intro a ha
    by_cases hx : x = a
    · subst hx
      rw [posIn_cons_self]
      rfl
    · rw [posIn_cons_ne rest hx]
      have ha' : a ∈ rest := by
        rcases List.mem_cons.1 ha with h | h
        · exact absurd h.symm hx
        · exact h
      simpa using ih a ha'

theorem get_posIn {α : Type} [DecidableEq α] :
    ∀ (l : List α), l.Nodup → ∀ (j : Nat) (a : α), l.get? j = some a →
      j = posIn l a := by
  intro l
  induction l with
  | nil => intro _ j a h; simp at h
  | cons x rest ih =>
    intro hnd j a h
    cases j with
    | zero =>
      simp only [List.get?_cons_zero, Option.some.injEq] at h
      subst h
      rw [posIn_cons_self]
    | succ j =>
      simp only [List.get?_cons_succ] at h
      have hmem : a ∈ rest := List.get?_mem h
      have hx : ¬ x = a := by
        intro he
        exact (List.nodup_cons.1 hnd).1 (he ▸ hmem)
      rw [posIn_cons_ne rest hx]
      have := ih (List.nodup_cons.1 hnd).2 j a h
      omega

theorem posIn_lt_length {α : Type} [DecidableEq α] (l : List α) (a : α)
    (h : a ∈ l) : posIn l a < l.length := by
  have := posIn_get l a h
  have h2 := List.get?_eq_some.1 this
  obtain ⟨hlt, _⟩ := h2
  exact hlt

theorem ranked_iff_rankedP (g : GrammarM) (hnd : (ruleKeys g).Nodup) :
    Ranked g ↔ RankedP g := by
  constructor
  · intro hr p hp v hv hvk
    obtain ⟨⟨i, hilen⟩, hig⟩ := List.get_of_mem hp
    have hgi : g.rules.get? i = some p := by
      rw [List.get?_eq_get hilen, hig]
    have hki : (ruleKeys g).get? i = some p.1 := by
      unfold ruleKeys
      rw [List.get?_map, hgi]
      rfl
    have hip := get_posIn _ hnd i p.1 hki
    have hjv := posIn_get (ruleKeys g) v hvk
    have := hr i p hgi v hv (posIn (ruleKeys g) v) hjv
    omega
  · intro hr i p hgi v hv j hj
    have hp : p ∈ g.rules := List.get?_mem hgi
    have hki : (ruleKeys g).get? i = some p.1 := by
      unfold ruleKeys
      rw [List.get?_map, hgi]
      rfl
    have hvk : v ∈ ruleKeys g := List.get?_mem hj
    have hlt := hr p hp v hv hvk
    have h2 := get_posIn _ hnd i p.1 hki
    have h3 := get_posIn _ hnd j v hj
    omega

theorem no_self_ref (g : GrammarM) (hnd : (ruleKeys g).Nodup) (hr : Ranked g)
    {k : String} {r : RuleM} (h : (k, r) ∈ g.rules) : k ∉ ruleVals r := by
  intro hc
  have hkk : k ∈ ruleKeys g := List.mem_map.2 ⟨(k, r), h, rfl⟩
  have := ((ranked_iff_rankedP g hnd).1 hr) (k, r) h k hc hkk
  exact absurd this (lt_irrefl _)

theorem posIn_filter_lt_rev {α : Type} [DecidableEq α] (p : α → Bool) :
    ∀ (l : List α) (a b : α), a ∈ l.filter p → b ∈ l.filter p →
      posIn l a < posIn l b →
      posIn (l.filter p) a < posIn (l.filter p) b := by
  intro l
  induction l with
  | nil => intro a b ha _ _; simp at ha
  | cons x rest ih =>
    intro a b ha hb h
    have hpa : p a = true := (List.mem_filter.1 (by
      rcases List.mem_filter.1 ha with _; exact ha)).2
    have hpb : p b = true := (List.mem_filter.1 hb).2
    by_cases hpx : p x = true
    · rw [List.filter_cons_of_pos hpx] at ha hb ⊢
      by_cases hxa : x = a
      · subst hxa
        rw [posIn_cons_self]
        have hxb : ¬ x = b := by
          intro he
          rw [← he] at h
          exact absurd h (lt_irrefl _)
        rw [posIn_cons_ne _ hxb]
        omega
      · rw [posIn_cons_ne rest hxa] at h
        by_cases hxb : x = b
        · exfalso
          subst hxb
          rw [posIn_cons_self] at h
          omega
        · rw [posIn_cons_ne rest hxb] at h
          rw [posIn_cons_ne _ hxa, posIn_cons_ne _ hxb]
          have ha' : a ∈ rest.filter p := by
            rcases List.mem_cons.1 ha with h' | h'
            · exact absurd h'.symm hxa
            · exact h'
          have hb' : b ∈ rest.filter p := by
            rcases List.mem_cons.1 hb with h' | h'
            · exact absurd h'.symm hxb
            · exact h'
          have := ih a b ha' hb' (by omega)
          omega
    · rw [List.filter_cons_of_neg hpx] at ha hb ⊢
      have hxa : ¬ x = a := fun he => hpx (he ▸ hpa)
      have hxb : ¬ x = b := fun he => hpx (he ▸ hpb)
      rw [posIn_cons_ne rest hxa, posIn_cons_ne rest hxb] at h
      exact ih a b ha hb (by omega)

theorem sum_filter_eq {α : Type} (q : α → Bool) (f : α → Nat) :
    ∀ l : List α, (∀ x ∈ l, q x = false → f x = 0) →
      ((l.filter q).map f).sum = (l.map f).sum := by
  intro l
  induction l with
  | nil => intro _; rfl
  | cons x rest ih =>
    intro h
    by_cases hq : q x = true
    · rw [List.filter_cons_of_pos hq]
      simp only [List.map_cons, List.sum_cons]
      rw [ih (fun y hy hqy => h y (List.mem_cons_of_mem x hy) hqy)]
    · rw [List.filter_cons_of_neg hq]
      simp only [List.map_cons, List.sum_cons]
      rw [ih (fun y hy hqy => h y (List.mem_cons_of_mem x hy) hqy)]
      have := h x (List.mem_cons_self x rest) (by simpa using hq)
      omega

theorem externalUsage_eq_usageAll (s : List String) (g : GrammarM)
    (hnd : (ruleKeys g).Nodup) (hr : Ranked g) (k : String) :
    externalUsage s g k = usageAll s g k := by
  unfold externalUsage usageAll
  congr 1
  apply sum_filter_eq
  intro p hp hq
  have hpk : p.1 = k := by simpa using hq
  have hmem : (k, p.2) ∈ g.rules := by
    rw [← hpk]
    exact hp
  have hns : k ∉ ruleVals p.2 := no_self_ref g hnd hr hmem
  exact List.count_eq_zero.2 (by simpa [ruleVals] using hns)

theorem forall2_mem_right {α β : Type} {R : α → β → Prop} :
    ∀ {l₁ : List α} {l₂ : List β}, List.Forall₂ R l₁ l₂ →
      ∀ b ∈ l₂, ∃ a ∈ l₁, R a b := by
  intro l₁ l₂ h
  induction h with
  | nil => intro b hb; simp at hb
  | cons hpq hrest ih =>
    intro b hb
    rcases List.mem_cons.1 hb with rfl | hb'
    · exact ⟨_, List.mem_cons_self _ _, hpq⟩
    · obtain ⟨a, ha, hr⟩ := ih b hb'
      exact ⟨a, List.mem_cons_of_mem _ ha, hr⟩

theorem forall2_keys (lhs : String) (rhs : List String) :
    ∀ {rules tr : List (String × RuleM)},
      List.Forall₂ (fun p q => q.1 = p.1 ∧ q.2.lhs = p.2.lhs ∧
        ruleVals q.2 = if p.1 = lhs then ruleVals p.2
          else inlineVals lhs rhs (ruleVals p.2)) rules tr →
      tr.map (fun q => q.1) = rules.map (fun p => p.1) := by
  intro rules tr h
  induction h with
  | nil => rfl
  | cons hpq hrest ih =>
    simp only [List.map_cons]
    rw [ih, hpq.1]

theorem forall2_toT (lhs : String) (rhs : List String) :
    ∀ {rules tr : List (String × RuleM)},
      List.Forall₂ (fun p q => q.1 = p.1 ∧ q.2.lhs = p.2.lhs ∧
        ruleVals q.2 = if p.1 = lhs then ruleVals p.2
          else inlineVals lhs rhs (ruleVals p.2)) rules tr →
      tr.map (fun q => (q.1, ruleVals q.2)) =
        rules.map (fun p => (p.1, if p.1 = lhs then ruleVals p.2
          else inlineVals lhs rhs (ruleVals p.2))) := by
  intro rules tr h
  induction h with
  | nil => rfl
  | cons hpq hrest ih =>
    simp only [List.map_cons]
    rw [ih, hpq.1, hpq.2.2]

theorem inlineFold_spec (lhs : String) (rhs : List String) :
    ∀ (rules : List (String × RuleM)) (a1 : List (String × RuleM))
      (ga : GrammarM) (b : Bool),
      MapsOk ga → (∀ p ∈ rules, p.2.lhs.value = p.1) →
      ∃ tr gOut ch,
        rules.foldl (inlineFoldF lhs rhs) (a1, ga, b) = (a1 ++ tr, gOut, ch) ∧
        gOut.rules = ga.rules ∧ MapsOk gOut ∧
        List.Forall₂ (fun p q => q.1 = p.1 ∧ q.2.lhs = p.2.lhs ∧
          ruleVals q.2 = if p.1 = lhs then ruleVals p.2
            else inlineVals lhs rhs (ruleVals p.2)) rules tr := by
  intro rules
  induction rules with
  | nil =>
    intro a1 ga b hmo _
    exact ⟨[], ga, b, by simp, rfl, hmo, List.Forall₂.nil⟩
  | cons p rest ih =>
    intro a1 ga b hmo hkm
    have hkp : p.2.lhs.value = p.1 := hkm p (List.mem_cons_self p rest)
    by_cases hpl : p.2.lhs.value = lhs
    · have hstep : inlineFoldF lhs rhs (a1, ga, b) p = (a1 ++ [p], ga, b) := by
        simp [inlineFoldF, hpl]
      rw [List.foldl_cons, hstep]
      obtain ⟨tr, gOut, ch, heq, hgr, hmo', hrel⟩ :=
        ih (a1 ++ [p]) ga b hmo (fun q hq => hkm q (List.mem_cons_of_mem p hq))
      refine ⟨p :: tr, gOut, ch, ?_, hgr, hmo', ?_⟩
      · rw [heq]
        simp
      · refine List.Forall₂.cons ⟨rfl, rfl, ?_⟩ hrel
        rw [if_pos (by rw [← hkp]; exact hpl)]
    · rcases hgs : getSymbols ga (inlineVals lhs rhs (p.2.rhs.map (fun s => s.value)))
        with ⟨syms, g2⟩
      have hstep : inlineFoldF lhs rhs (a1, ga, b) p =
          (a1 ++ [(p.1, { p.2 with rhs := syms })], g2,
            b || (p.2.rhs.map (fun s => s.value)).contains lhs) := by
        simp only [inlineFoldF, if_neg hpl]
        rw [hgs]
      have hg2r : g2.rules = ga.rules := by
        have := getSymbols_rules ga (inlineVals lhs rhs (p.2.rhs.map (fun s => s.value)))
        rw [hgs] at this
        exact this
      have hg2m : MapsOk g2 := by
        have := getSymbols_mapsOk ga (inlineVals lhs rhs (p.2.rhs.map (fun s => s.value))) hmo
        rw [hgs] at this
        exact this
      have hsv : syms.map (fun s => s.value) =
          inlineVals lhs rhs (p.2.rhs.map (fun s => s.value)) := by
        have := getSymbols_values ga (inlineVals lhs rhs (p.2.rhs.map (fun s => s.value))) hmo
        rw [hgs] at this
        exact this
      rw [List.foldl_cons, hstep]
      obtain ⟨tr, gOut, ch, heq, hgr, hmo', hrel⟩ :=
        ih (a1 ++ [(p.1, { p.2 with rhs := syms })]) g2
          (b || (p.2.rhs.map (fun s => s.value)).contains lhs) hg2m
          (fun q hq => hkm q (List.mem_cons_of_mem p hq))
      refine ⟨(p.1, { p.2 with rhs := syms }) :: tr, gOut, ch, ?_, by rw [hgr, hg2r], hmo', ?_⟩
      · rw [heq]
        simp
      · refine List.Forall₂.cons ⟨rfl, rfl, ?_⟩ hrel
        rw [if_neg (by rw [← hkp]; exact hpl)]
        exact hsv

theorem lookupA_mapDep {α β : Type} (F : String → α → β) :
    ∀ (l : List (String × α)) (k : String),
      lookupA (l.map (fun p => (p.1, F p.1 p.2))) k = (lookupA l k).map (F k) := by
  intro l
  induction l with
  | nil => intro k; rfl
  | cons p rest ih =>
    intro k
    by_cases h : p.1 = k
    · simp only [List.map_cons]
      unfold lookupA
      rw [List.find?_cons_of_pos _ (by simp [h]), List.find?_cons_of_pos _ (by simp [h])]
      simp [h]
    · simp only [List.map_cons]
      rw [lookupA_cons_ne _ _ k (by simpa using h), lookupA_cons_ne p rest k h, ih]

theorem delA_mapDep {α β : Type} (F : String → α → β) (l : List (String × α))
    (k : String) :
    delA (l.map (fun p => (p.1, F p.1 p.2))) k =
      (delA l k).map (fun p => (p.1, F p.1 p.2)) := by
  unfold delA
  induction l with
  | nil => rfl
  | cons p rest ih =>
    simp only [List.map_cons]
    by_cases h : p.1 = k
    · rw [List.filter_cons_of_neg (by simp [h]), List.filter_cons_of_neg (by simp [h])]
      exact ih
    · rw [List.filter_cons_of_pos (by simp [h]), List.filter_cons_of_pos (by simp [h])]
      simp only [List.map_cons]
      rw [ih]

theorem sum_count_inline (lhs z : String) (vsr : List String) (hz : z ≠ lhs) :
    ∀ (T : List (String × List String)),
      (T.map (fun p => (inlineVals lhs vsr p.2).count z)).sum =
        (T.map (fun p => p.2.count z)).sum +
          (T.map (fun p => p.2.count lhs)).sum * vsr.count z := by
  intro T
  induction T with
  | nil => simp
  | cons p rest ih =>
    simp only [List.map_cons, List.sum_cons]
    rw [ih, count_inlineVals_ne lhs z vsr hz p.2]
    ring

theorem expandAll_inlineVals (g3 g : GrammarM) (lhs : String) (vsr : List String)
    (n3 n : Nat) :
    ∀ ws : List String,
      (lhs ∈ ws → expandSym g n lhs = expandAll g3 n3 vsr) →
      (∀ v ∈ ws, v ≠ lhs → expandSym g3 n3 v = expandSym g n v) →
      expandAll g3 n3 (inlineVals lhs vsr ws) = expandAll g n ws := by
  intro ws
  induction ws with
  | nil => intro _ _; rfl
  | cons v rest ih =>
    intro hlhs hpt
    show expandAll g3 n3 ((if v = lhs then vsr else [v]) ++ inlineVals lhs vsr rest) = _
    rw [expandAll_append, expandAll_cons]
    rw [ih (fun hm => hlhs (List.mem_cons_of_mem v hm))
      (fun w hw hwl => hpt w (List.mem_cons_of_mem v hw) hwl)]
    by_cases hv : v = lhs
    · rw [if_pos hv, hv]
      rw [← hlhs (by rw [hv]; exact List.mem_cons_self _ _)]
    · rw [if_neg hv]
      rw [expandAll_cons, expandAll_nil, List.append_nil]
      rw [hpt v (List.mem_cons_self v rest) hv]

theorem expandSym_inline (g g3 : GrammarM) (lhs : String) (vsr : List String)
    (hnd : (ruleKeys g).Nodup) (hr : Ranked g) (hr3 : Ranked g3)
    (hlook : lookupA (asTuples g) lhs = some vsr)
    (hT : ∀ k, k ≠ lhs → lookupA (asTuples g3) k =
      (lookupA (asTuples g) k).map (fun w => inlineVals lhs vsr w)) :
    ∀ (b : Nat) (s : String), (∀ j, (ruleKeys g).get? j = some s → j < b) →
      s ≠ lhs →
      expandSym g3 (g3.rules.length + 1) s = expandSym g (g.rules.length + 1) s := by
  intro b
  induction b using Nat.strong_induction_on with
  | _ b ih =>
    intro s hb hs
    cases hl : lookupA (asTuples g) s with
    | none =>
      have h3 : lookupA (asTuples g3) s = none := by
        rw [hT s hs, hl]
        rfl
      rw [expandSym_notKey g3 s h3 _, expandSym_notKey g s hl _]
    | some ws =>
      have h3 : lookupA (asTuples g3) s = some (inlineVals lhs vsr ws) := by
        rw [hT s hs, hl]
        rfl
      rw [expandSym_key_unfold g3 hr3 s _ h3, expandSym_key_unfold g hr s ws hl]
      obtain ⟨r, hrm, hrv⟩ := asTuples_mem (lookupA_mem hl)
      obtain ⟨⟨i, hilen⟩, hig⟩ := List.get_of_mem hrm
      have hgi : g.rules.get? i = some (s, r) := by
        rw [List.get?_eq_get hilen, hig]
      have hki : (ruleKeys g).get? i = some s := by
        unfold ruleKeys
        rw [List.get?_map, hgi]
        rfl
      have hib : i < b := hb i hki
      obtain ⟨r0, hr0m, hr0v⟩ := asTuples_mem (lookupA_mem hlook)
      obtain ⟨⟨il, hillen⟩, hilg⟩ := List.get_of_mem hr0m
      have hgil : g.rules.get? il = some (lhs, r0) := by
        rw [List.get?_eq_get hillen, hilg]
      have hkil : (ruleKeys g).get? il = some lhs := by
        unfold ruleKeys
        rw [List.get?_map, hgil]
        rfl
      apply expandAll_inlineVals g3 g lhs vsr _ _ ws
      · intro hlin
        have hil_lt : il < i := hr i (s, r) hgi lhs (by rw [hrv]; exact hlin) il hkil
        rw [expandSym_key_unfold g hr lhs vsr hlook]
        unfold expandAll
        congr 1
        apply List.map_congr_left
        intro w hw
        have hwl : w ≠ lhs := by
          intro he
          subst he
          exact no_self_ref g hnd hr hr0m (hr0v ▸ hw)
        exact (ih il (by omega) w
          (fun j hj => hr il (lhs, r0) hgil w (by rw [hr0v]; exact hw) j hj) hwl).symm
      · intro v hv hvl
        exact ih i hib v
          (fun j hj => hr i (s, r) hgi v (by rw [hrv]; exact hv) j hj) hvl

theorem expandSym_inline_all (g g3 : GrammarM) (lhs : String) (vsr : List String)
    (hnd : (ruleKeys g).Nodup) (hr : Ranked g) (hr3 : Ranked g3)
    (hlook : lookupA (asTuples g) lhs = some vsr)
    (hT : ∀ k, k ≠ lhs → lookupA (asTuples g3) k =
      (lookupA (asTuples g) k).map (fun w => inlineVals lhs vsr w)) :
    ∀ s : String, s ≠ lhs →
      expandSym g3 (g3.rules.length + 1) s = expandSym g (g.rules.length + 1) s := by
  intro s hs
  apply expandSym_inline g g3 lhs vsr hnd hr hr3 hlook hT (ruleKeys g).length s ?_ hs
  intro j hj
  obtain ⟨hlt, _⟩ := List.get?_eq_some.1 hj
  exact hlt

theorem lookupA_inline (lhs : String) (vs : List String) :
    ∀ (T : List (String × List String)) (k : String), k ≠ lhs →
      lookupA (T.map (fun p =>
          (p.1, if p.1 = lhs then p.2 else inlineVals lhs vs p.2))) k =
        (lookupA T k).map (fun w => inlineVals lhs vs w) := by
  intro T
  induction T with
  | nil => intro k _; rfl
  | cons p rest ih =>
    intro k hk
    by_cases h : p.1 = k
    · simp only [List.map_cons]
      unfold lookupA
      rw [List.find?_cons_of_pos _ (by simp [h]), List.find?_cons_of_pos _ (by simp [h])]
      have hpl : ¬ p.1 = lhs := by rw [h]; exact hk
      simp [hpl]
    · simp only [List.map_cons]
      rw [lookupA_cons_ne _ _ k (by simpa using h), lookupA_cons_ne p rest k h, ih k hk]

theorem contains_iff (s : List String) (a : String) :
    s.contains a = true ↔ a ∈ s := by
  simp

/-- The central invariant lemma for inlining a single rule whose current
usage is exactly 1. -/
theorem inlineOne_spec (tokens s : List String) (g : GrammarM) (lhs : String)
    (hG : GoodState tokens s g) (hmem : lhs ∈ ruleKeys g)
    (hu : usageAll s g lhs = 1) :
    GoodState tokens (inlineOne s g lhs).1 (inlineOne s g lhs).2.1 ∧
    (∀ z, z ≠ lhs →
      usageAll (inlineOne s g lhs).1 (inlineOne s g lhs).2.1 z = usageAll s g z) ∧
    ruleKeys (inlineOne s g lhs).2.1 = (ruleKeys g).filter (fun x => x ≠ lhs) := by
  obtain ⟨⟨hnd, hrk, hkm, hmo⟩, hus, hexp⟩ := hG
  obtain ⟨vs, hvs⟩ := lookupA_isSome (asTuples g) lhs (by rw [keys_asTuples]; exact hmem)
  obtain ⟨tr, gOut, ch, heq, hgr, hmo2, hrel⟩ :=
    inlineFold_spec lhs vs g.rules [] g false hmo hkm
  simp only [List.nil_append] at heq
  have hone : inlineOne s g lhs =
      ((if s.contains lhs then spliceFirst lhs vs s else s),
        { gOut with rules := delA tr lhs }, (s.contains lhs || ch)) := by
    rw [inlineOne_eq]
    simp only [hvs, Option.getD_some, heq]
  rw [hone]
  set s' := (if s.contains lhs = true then spliceFirst lhs vs s else s) with hsdef
  set g3 : GrammarM := { gOut with rules := delA tr lhs } with hg3def
  show GoodState tokens s' g3 ∧
    (∀ z, z ≠ lhs → usageAll s' g3 z = usageAll s g z) ∧
    ruleKeys g3 = (ruleKeys g).filter (fun x => x ≠ lhs)
  -- the inlined rule and no self-reference
  obtain ⟨r0, hr0m, hr0v⟩ := asTuples_mem (lookupA_mem hvs)
  have hvslhs : lhs ∉ vs := by
    have := no_self_ref g hnd hrk hr0m
    rw [hr0v] at this
    exact this
  have hvscount : vs.count lhs = 0 := List.count_eq_zero.2 hvslhs
  have hcle : s.count lhs ≤ 1 := by
    rw [← hu]
    unfold usageAll
    exact Nat.le_add_right _ _
  -- keys of the new grammar
  have htrkeys : tr.map (fun q => q.1) = ruleKeys g := forall2_keys lhs vs hrel
  have hkeys3 : ruleKeys g3 = (ruleKeys g).filter (fun x => x ≠ lhs) := by
    show (delA tr lhs).map (fun p => p.1) = _
    rw [keys_delA, htrkeys]
  have hnd3 : (ruleKeys g3).Nodup := by
    rw [hkeys3]
    exact hnd.filter _
  -- the rule table of the new grammar, value level
  have hT3 : asTuples g3 =
      (delA (asTuples g) lhs).map (fun p =>
        (p.1, if p.1 = lhs then p.2 else inlineVals lhs vs p.2)) := by
    have h1 : asTuples g3 = delA (tr.map (fun q => (q.1, ruleVals q.2))) lhs := by
      show (delA tr lhs).map (fun q => (q.1, ruleVals q.2)) = _
      exact delA_map ruleVals tr lhs
    have h2 : tr.map (fun q => (q.1, ruleVals q.2)) =
        (asTuples g).map (fun p =>
          (p.1, if p.1 = lhs then p.2 else inlineVals lhs vs p.2)) := by
      rw [forall2_toT lhs vs hrel]
      unfold asTuples
      rw [List.map_map]
      rfl
    rw [h1, h2]
    exact delA_mapDep (fun key v => if key = lhs then v else inlineVals lhs vs v)
      (asTuples g) lhs
  have hgone : lookupA (asTuples g3) lhs = none := by
    apply (lookupA_eq_none _ _).2
    rw [keys_asTuples, hkeys3]
    intro hc
    have := List.mem_filter.1 hc
    simp at this
  have hTlk : ∀ k, k ≠ lhs → lookupA (asTuples g3) k =
      (lookupA (asTuples g) k).map (fun w => inlineVals lhs vs w) := by
    intro k hk
    rw [hT3, lookupA_inline lhs vs _ k hk, lookupA_delA_ne _ _ _ hk]
  -- Ranked for the new grammar
  have hrkP : RankedP g := (ranked_iff_rankedP g hnd).1 hrk
  have hrk3 : Ranked g3 := by
    apply (ranked_iff_rankedP g3 hnd3).2
    intro q hq v hv hvk
    have hqf : q ∈ tr.filter (fun p => p.1 ≠ lhs) := hq
    have hqtr : q ∈ tr := (List.mem_filter.1 hqf).1
    have hqk : q.1 ≠ lhs := by simpa using (List.mem_filter.1 hqf).2
    obtain ⟨p, hpm, hq1, hqlhs, hqv⟩ := forall2_mem_right hrel q hqtr
    have hp1 : p.1 ≠ lhs := by rw [← hq1]; exact hqk
    rw [if_neg hp1] at hqv
    have hvkf := hvk
    rw [hkeys3] at hvkf
    have hvkeys : v ∈ ruleKeys g := (List.mem_filter.1 hvkf).1
    have hvne : v ≠ lhs := by simpa using (List.mem_filter.1 hvkf).2
    have hvc : v ∈ ruleVals p.2 ∨ v ∈ vs :=
      inlineVals_mem lhs vs (ruleVals p.2) v (hqv ▸ hv)
    have hkey_lt : posIn (ruleKeys g) v < posIn (ruleKeys g) p.1 := by
      rcases hvc with hvp | hvvs
      · exact hrkP p hpm v hvp hvkeys
      · by_cases hvp2 : v ∈ ruleVals p.2
        · exact hrkP p hpm v hvp2 hvkeys
        · have hlin : lhs ∈ ruleVals p.2 := by
            by_contra hnl
            rw [inlineVals_of_count_zero lhs vs (ruleVals p.2)
              (List.count_eq_zero.2 hnl)] at hqv
            exact hvp2 (hqv ▸ hv)
          have hlt1 := hrkP p hpm lhs hlin hmem
          have hlt2 : posIn (ruleKeys g) v < posIn (ruleKeys g) lhs :=
            hrkP (lhs, r0) hr0m v (by rw [hr0v]; exact hvvs) hvkeys
          omega
    rw [hkeys3, hq1]
    apply posIn_filter_lt_rev _ (ruleKeys g) v p.1 ?_ ?_ hkey_lt
    · rw [hkeys3] at hvk
      exact hvk
    · refine List.mem_filter.2 ⟨List.mem_map.2 ⟨p, hpm, rfl⟩, by simpa using hp1⟩
  -- KeysMatch and MapsOk
  have hkm3 : KeysMatch g3 := by
    intro q hq
    have hqf : q ∈ tr.filter (fun p => p.1 ≠ lhs) := hq
    have hqtr : q ∈ tr := (List.mem_filter.1 hqf).1
    obtain ⟨p, hpm, hq1, hqlhs, _⟩ := forall2_mem_right hrel q hqtr
    rw [hqlhs, hq1]
    exact hkm p hpm
  have hmo3 : MapsOk g3 := ⟨hmo2.1, hmo2.2⟩
  -- splitting the old rule table at the lhs entry
  have hTnd : ((asTuples g).map (fun p => p.1)).Nodup := by
    rw [keys_asTuples]
    exact hnd
  obtain ⟨T₁, T₂, hTeq, hT1k, hT2k, hTdel⟩ := lookup_split (asTuples g) lhs vs hTnd hvs
  have hu' : s.count lhs + ((T₁.map (fun p => p.2.count lhs)).sum +
      (T₂.map (fun p => p.2.count lhs)).sum) = 1 := by
    have hu2 := hu
    rw [usageAll_asTuples, hTeq] at hu2
    simp only [List.map_append, List.map_cons, List.sum_append, List.sum_cons] at hu2
    rw [hvscount] at hu2
    omega
  -- usage preservation for names other than lhs
  have husage : ∀ z, z ≠ lhs → usageAll s' g3 z = usageAll s g z := by
    intro z hz
    have hmapIte : (delA (asTuples g) lhs).map (fun p =>
        (p.1, if p.1 = lhs then p.2 else inlineVals lhs vs p.2)) =
        (delA (asTuples g) lhs).map (fun p => (p.1, inlineVals lhs vs p.2)) := by
      apply List.map_congr_left
      intro p hp
      have hpk : p.1 ≠ lhs := by
        have hpf : p ∈ (asTuples g).filter (fun q => q.1 ≠ lhs) := hp
        simpa using (List.mem_filter.1 hpf).2
      rw [if_neg hpk]
    rw [usageAll_asTuples, usageAll_asTuples, hT3, hmapIte, List.map_map]
    rw [show ((fun (p : String × List String) => p.2.count z) ∘
        (fun (p : String × List String) => (p.1, inlineVals lhs vs p.2))) =
      (fun (p : String × List String) => (inlineVals lhs vs p.2).count z) from rfl]
    rw [sum_count_inline lhs z vs hz, hTdel, hTeq]
    simp only [List.map_append, List.map_cons, List.sum_append, List.sum_cons]
    by_cases hin : s.contains lhs = true
    · have hmemS : lhs ∈ s := (contains_iff s lhs).1 hin
      have hc1 : 1 ≤ s.count lhs := List.count_pos_iff.2 hmemS
      have h01 : (T₁.map (fun p => p.2.count lhs)).sum = 0 := by omega
      have h02 : (T₂.map (fun p => p.2.count lhs)).sum = 0 := by omega
      rw [hsdef, if_pos hin, count_spliceFirst_ne lhs z vs hz s hmemS, h01, h02]
      simp
      omega
    · have hmemS : lhs ∉ s := fun hm => hin ((contains_iff s lhs).2 hm)
      have hc0 : s.count lhs = 0 := List.count_eq_zero.2 hmemS
      have hS : (T₁.map (fun p => p.2.count lhs)).sum +
          (T₂.map (fun p => p.2.count lhs)).sum = 1 := by omega
      rw [hsdef, if_neg hin, hS]
      simp
      omega
  -- usage lower bound for surviving keys
  have hus3 : ∀ k ∈ ruleKeys g3, 1 ≤ usageAll s' g3 k := by
    intro k hk
    rw [hkeys3] at hk
    have hkg : k ∈ ruleKeys g := (List.mem_filter.1 hk).1
    have hkne : k ≠ lhs := by simpa using (List.mem_filter.1 hk).2
    rw [husage k hkne]
    exact hus k hkg
  -- expansion invariant
  have hshift := expandSym_inline_all g g3 lhs vs hnd hrk hrk3 hvs hTlk
  have hlnotin : lhs ∉ s' := by
    rw [hsdef]
    by_cases hin : s.contains lhs = true
    · rw [if_pos hin]
      have hmemS : lhs ∈ s := (contains_iff s lhs).1 hin
      intro hc2
      have hge := List.count_pos_iff.2 hc2
      rw [count_spliceFirst_self lhs vs hvscount s hmemS] at hge
      have := List.count_pos_iff.2 hmemS
      omega
    · rw [if_neg hin]
      exact fun hm => hin ((contains_iff s lhs).2 hm)
  have hexp3 : expandAll g3 (g3.rules.length + 1) s' = tokens := by
    have hkeyunf : expandSym g (g.rules.length + 1) lhs =
        expandAll g (g.rules.length + 1) vs :=
      expandSym_key_unfold g hrk lhs vs hvs
    have hsplice : expandAll g (g.rules.length + 1) s' =
        expandAll g (g.rules.length + 1) s := by
      rw [hsdef]
      by_cases hin : s.contains lhs = true
      · rw [if_pos hin]
        exact expandAll_splice g _ lhs vs hkeyunf s
      · rw [if_neg hin]
    have h3 : expandAll g3 (g3.rules.length + 1) s' =
        expandAll g (g.rules.length + 1) s' := by
      unfold expandAll
      congr 1
      apply List.map_congr_left
      intro v hvmem
      exact hshift v (fun he => hlnotin (he ▸ hvmem))
    rw [h3, hsplice, hexp]
  exact ⟨⟨⟨hnd3, hrk3, hkm3, hmo3⟩, hus3, hexp3⟩, husage, hkeys3⟩

theorem inlinePassFold (tokens seq : List String) (g : GrammarM) :
    ∀ (K : List String) (sAcc : List String) (hAcc : GrammarM) (b : Bool),
      K.Nodup →
      GoodState tokens sAcc hAcc →
      (∀ z ∈ ruleKeys hAcc, usageAll sAcc hAcc z = usageAll seq g z) →
      (∀ k ∈ K, k ∈ ruleKeys hAcc) →
      (∀ k ∈ ruleKeys hAcc, k ∈ K ∨ 2 ≤ usageAll seq g k) →
      GoodState tokens (K.foldl (inlinePassF seq g) (sAcc, hAcc, b)).1
        (K.foldl (inlinePassF seq g) (sAcc, hAcc, b)).2.1 ∧
      (∀ k ∈ ruleKeys (K.foldl (inlinePassF seq g) (sAcc, hAcc, b)).2.1,
        2 ≤ usageAll (K.foldl (inlinePassF seq g) (sAcc, hAcc, b)).1
          (K.foldl (inlinePassF seq g) (sAcc, hAcc, b)).2.1 k) := by
  intro K
  induction K with
  | nil =>
    intro sAcc hAcc b _ hG hfroz _ hcov
    simp only [List.foldl_nil]
    refine ⟨hG, ?_⟩
    intro k hk
    rcases hcov k hk with hk2 | hk2
    · simp at hk2
    · rw [hfroz k hk]
      exact hk2
  | cons lhs K' ih =>
    intro sAcc hAcc b hndK hG hfroz hsub hcov
    rw [List.foldl_cons]
    by_cases hule : usageAll seq g lhs ≤ 1
    · have hstep : inlinePassF seq g (sAcc, hAcc, b) lhs =
          ((inlineOne sAcc hAcc lhs).1, (inlineOne sAcc hAcc lhs).2.1,
            b || (inlineOne sAcc hAcc lhs).2.2) := by
        simp only [inlinePassF, if_pos hule]
      rw [hstep]
      have hlmem : lhs ∈ ruleKeys hAcc := hsub lhs (List.mem_cons_self _ _)
      have hcur : usageAll sAcc hAcc lhs = usageAll seq g lhs := hfroz lhs hlmem
      have hu1 : usageAll sAcc hAcc lhs = 1 := by
        have hge := hG.2.1 lhs hlmem
        omega
      obtain ⟨hG', hpres, hkeys'⟩ := inlineOne_spec tokens sAcc hAcc lhs hG hlmem hu1
      apply ih _ _ _ (List.nodup_cons.1 hndK).2 hG' ?_ ?_ ?_
      · intro z hz
        rw [hkeys'] at hz
        have hzk : z ∈ ruleKeys hAcc := (List.mem_filter.1 hz).1
        have hzne : z ≠ lhs := by simpa using (List.mem_filter.1 hz).2
        rw [hpres z hzne]
        exact hfroz z hzk
      · intro k hk
        rw [hkeys']
        refine List.mem_filter.2 ⟨hsub k (List.mem_cons_of_mem _ hk), ?_⟩
        have hkne : k ≠ lhs := by
          intro he
          exact (List.nodup_cons.1 hndK).1 (he ▸ hk)
        simpa using hkne
      · intro k hk
        rw [hkeys'] at hk
        have hkk : k ∈ ruleKeys hAcc := (List.mem_filter.1 hk).1
        have hkne : k ≠ lhs := by simpa using (List.mem_filter.1 hk).2
        rcases hcov k hkk with hmem2 | hge
        · rcases List.mem_cons.1 hmem2 with he | hm
          · exact absurd he hkne
          · exact Or.inl hm
        · exact Or.inr hge
    · have hstep : inlinePassF seq g (sAcc, hAcc, b) lhs = (sAcc, hAcc, b) := by
        simp only [inlinePassF, if_neg hule]
      rw [hstep]
      apply ih _ _ _ (List.nodup_cons.1 hndK).2 hG hfroz
        (fun k hk => hsub k (List.mem_cons_of_mem _ hk)) ?_
      intro k hk
      rcases hcov k hk with hmem2 | hge
      · rcases List.mem_cons.1 hmem2 with he | hm
        · subst he
          exact Or.inr (by omega)
        · exact Or.inl hm
      · exact Or.inr hge

theorem inlinePass_post (tokens seq : List String) (g : GrammarM)
    (hG : GoodState tokens seq g) :
    GoodState tokens (inlinePass seq g).1 (inlinePass seq g).2.1 ∧
    (∀ k ∈ ruleKeys (inlinePass seq g).2.1,
      2 ≤ usageAll (inlinePass seq g).1 (inlinePass seq g).2.1 k) := by
  rw [inlinePass_eq]
  exact inlinePassFold tokens seq g (ruleKeys g) seq g false hG.1.1 hG
    (fun z _ => rfl) (fun k hk => hk) (fun k hk => Or.inl hk)

theorem inlineLoop_post (tokens : List String) :
    ∀ (fuel : Nat) (sq : List String) (gg : GrammarM),
      GoodState tokens sq gg →
      GoodState tokens (inlineLoop (fuel + 1) (sq, gg)).1 (inlineLoop (fuel + 1) (sq, gg)).2 ∧
      (∀ k ∈ ruleKeys (inlineLoop (fuel + 1) (sq, gg)).2,
        2 ≤ usageAll (inlineLoop (fuel + 1) (sq, gg)).1 (inlineLoop (fuel + 1) (sq, gg)).2 k) := by
  intro fuel
  induction fuel with
  | zero =>
    intro sq gg hG
    unfold inlineLoop
    by_cases hnil : gg.rules = []
    · rw [if_pos hnil]
      refine ⟨hG, ?_⟩
      intro k hk
      rw [show ruleKeys gg = [] from by unfold ruleKeys; rw [hnil]; rfl] at hk
      simp at hk
    · rw [if_neg hnil]
      obtain ⟨hG', hpost⟩ := inlinePass_post tokens sq gg hG
      rcases hip : inlinePass sq gg with ⟨s2, g2, ch⟩
      rw [hip] at hG' hpost
      cases ch
      · exact ⟨hG', hpost⟩
      · exact ⟨hG', hpost⟩
  | succ f ih =>
    intro sq gg hG
    unfold inlineLoop
    by_cases hnil : gg.rules = []
    · rw [if_pos hnil]
      refine ⟨hG, ?_⟩
      intro k hk
      rw [show ruleKeys gg = [] from by unfold ruleKeys; rw [hnil]; rfl] at hk
      simp at hk
    · rw [if_neg hnil]
      obtain ⟨hG', hpost⟩ := inlinePass_post tokens sq gg hG
      rcases hip : inlinePass sq gg with ⟨s2, g2, ch⟩
      rw [hip] at hG' hpost
      cases ch
      · exact ⟨hG', hpost⟩
      · exact ih s2 g2 hG'

theorem inlineSingletons_post (tokens seq : List String) (g : GrammarM)
    (hG : GoodState tokens seq g) :
    GoodState tokens (inlineSingletons seq g).1 (inlineSingletons seq g).2 ∧
    (∀ k ∈ ruleKeys (inlineSingletons seq g).2,
      2 ≤ usageAll (inlineSingletons seq g).1 (inlineSingletons seq g).2 k) := by
  unfold inlineSingletons
  exact inlineLoop_post tokens g.rules.length seq g hG

theorem compressM_post (tokens : List String) (h : NoClash tokens) :
    GoodState tokens (compressM tokens).1 (compressM tokens).2 ∧
    (∀ k ∈ ruleKeys (compressM tokens).2,
      2 ≤ usageAll (compressM tokens).1 (compressM tokens).2 k) := by
  rw [compressM_eq]
  have hG1 : GoodState tokens
      (compressLoop (tokens.length + 1) (tokens, emptyGrammar, 1)).1
      (compressLoop (tokens.length + 1) (tokens, emptyGrammar, 1)).2.1 :=
    compressLoop_inv tokens (tokens.length + 1) (tokens, emptyGrammar, 1)
      (initial_good tokens) (initial_fresh tokens h) le_rfl
  obtain ⟨hG2, hpost⟩ := inlineSingletons_post tokens _ _ hG1
  constructor
  · exact updateRuleUsage_goodState tokens _ _ hG2
  · intro k hk
    have hTu := updateRuleUsage_asTuples
      (inlineSingletons (compressLoop (tokens.length + 1) (tokens, emptyGrammar, 1)).1
        (compressLoop (tokens.length + 1) (tokens, emptyGrammar, 1)).2.1).1
      (inlineSingletons (compressLoop (tokens.length + 1) (tokens, emptyGrammar, 1)).1
        (compressLoop (tokens.length + 1) (tokens, emptyGrammar, 1)).2.1).2
    have hkeq : ruleKeys (updateRuleUsage
        (inlineSingletons (compressLoop (tokens.length + 1) (tokens, emptyGrammar, 1)).1
          (compressLoop (tokens.length + 1) (tokens, emptyGrammar, 1)).2.1).1
        (inlineSingletons (compressLoop (tokens.length + 1) (tokens, emptyGrammar, 1)).1
          (compressLoop (tokens.length + 1) (tokens, emptyGrammar, 1)).2.1).2) =
        ruleKeys (inlineSingletons (compressLoop (tokens.length + 1) (tokens, emptyGrammar, 1)).1
          (compressLoop (tokens.length + 1) (tokens, emptyGrammar, 1)).2.1).2 := by
      rw [← keys_asTuples, hTu, keys_asTuples]
    rw [usageAll_congr _ _ hTu]
    exact hpost k (hkeq ▸ hk)

theorem cloneM_eq (g : GrammarM) :
    cloneM g = g.rules.foldl cloneF
      { emptyGrammar with
        nonTerminals := g.nonTerminals.map
          (fun p => (p.1, { value := p.1, kind := SymKind.nonterminal })),
        terminals := g.terminals.map
          (fun p => (p.1, { value := p.1, kind := SymKind.terminal })) } := rfl

theorem setA_append_last {α : Type} :
    ∀ (A : List (String × α)) (k : String) (v v' : α),
      k ∉ A.map (fun p => p.1) → setA (A ++ [(k, v)]) k v' = A ++ [(k, v')] := by
  intro A
  induction A with
  | nil =>
    intro k v v' _
    simp [setA]
  | cons p rest ih =>
    intro k v v' h
    simp only [List.map_cons, List.mem_cons] at h
    push_neg at h
    have hpk : ¬ p.1 = k := fun he => h.1 he.symm
    simp only [List.cons_append, setA, if_neg hpk, List.append_eq]
    rw [ih k v v' h.2]

theorem cloneFold_spec :
    ∀ (rules : List (String × RuleM)) (acc : GrammarM),
      MapsOk acc →
      (∀ p ∈ rules, p.1 ∉ ruleKeys acc) →
      (rules.map (fun p => p.1)).Nodup →
      asTuples (rules.foldl cloneF acc) =
        asTuples acc ++ rules.map (fun p => (p.1, ruleVals p.2)) ∧
      ruleKeys (rules.foldl cloneF acc) = ruleKeys acc ++ rules.map (fun p => p.1) := by
  intro rules
  induction rules with
  | nil =>
    intro acc _ _ _
    simp
  | cons p rest ih =>
    intro acc hmo hfresh hndk
    have hpf : p.1 ∉ ruleKeys acc := hfresh p (List.mem_cons_self p rest)
    obtain ⟨hr1, hr2, hr3⟩ := addRule_fresh acc p.1 (p.2.rhs.map (fun s => s.value)) hmo hpf
    have hmo' : MapsOk (addRule acc p.1 (p.2.rhs.map (fun s => s.value))).2 :=
      addRule_mapsOk acc p.1 _ hmo
    set rule := (addRule acc p.1 (p.2.rhs.map (fun s => s.value))).1 with hruledef
    set acc' := (addRule acc p.1 (p.2.rhs.map (fun s => s.value))).2 with haccdef
    have hlook : lookupA acc'.rules p.1 = some rule := by
      rw [hr1]
      rw [lookupA_append_right _ _ p.1 (by exact hpf)]
      exact lookupA_singleton_self _ _
    set rule2 : RuleM := { rule with frequency := p.2.frequency, probability := p.2.probability } with hrule2def
    have hstep : cloneF acc p = { acc' with rules := (setA acc'.rules p.1 rule2) } := by
      show ({ acc' with rules :=
          (match lookupA acc'.rules p.1 with
          | some r =>
            setA acc'.rules p.1
              { r with frequency := p.2.frequency, probability := p.2.probability }
          | none => acc'.rules) } : GrammarM) = _
      rw [hlook]
    have hsetr : setA acc'.rules p.1 rule2 = acc.rules ++ [(p.1, rule2)] := by
      rw [hr1]
      exact setA_append_last acc.rules p.1 rule rule2 hpf
    have hruleVals : ruleVals rule2 = ruleVals p.2 := by
      rw [hrule2def]
      show ruleVals rule = ruleVals p.2
      rw [hruledef, addRule_vals acc p.1 _ hmo]
      rfl
    have hmoN : MapsOk (cloneF acc p) := by
      rw [hstep]
      exact ⟨hmo'.1, hmo'.2⟩
    have hTn : asTuples (cloneF acc p) =
        asTuples acc ++ [(p.1, ruleVals p.2)] := by
      rw [hstep]
      show (setA acc'.rules p.1 _).map (fun q => (q.1, ruleVals q.2)) = _
      rw [hsetr]
      simp only [List.map_append, List.map_cons, List.map_nil]
      rw [hruleVals]
      rfl
    have hKn : ruleKeys (cloneF acc p) = ruleKeys acc ++ [p.1] := by
      rw [← keys_asTuples, hTn, List.map_append, keys_asTuples]
      rfl
    rw [List.foldl_cons]
    have hfresh' : ∀ q ∈ rest, q.1 ∉ ruleKeys (cloneF acc p) := by
      intro q hq
      rw [hKn]
      intro hc
      rcases List.mem_append.1 hc with hc1 | hc1
      · exact hfresh q (List.mem_cons_of_mem p hq) hc1
      · simp only [List.mem_singleton] at hc1
        have := (List.nodup_cons.1 hndk).1
        exact this (List.mem_map.2 ⟨q, hq, hc1⟩)
    obtain ⟨ihT, ihK⟩ := ih (cloneF acc p) hmoN hfresh' (List.nodup_cons.1 hndk).2
    constructor
    · rw [ihT, hTn]
      simp
    · rw [ihK, hKn]
      simp

theorem cloneM_spec (g : GrammarM) (hnd : (ruleKeys g).Nodup) :
    asTuples (cloneM g) = asTuples g ∧
    (cloneM g).rules.length = g.rules.length := by
  rw [cloneM_eq]
  set base : GrammarM :=
    { emptyGrammar with
      nonTerminals := g.nonTerminals.map
        (fun p => (p.1, { value := p.1, kind := SymKind.nonterminal })),
      terminals := g.terminals.map
        (fun p => (p.1, { value := p.1, kind := SymKind.terminal })) } with hbase
  have hmob : MapsOk base := by
    constructor
    · intro p hp
      have hp' : p ∈ g.terminals.map
          (fun q => (q.1, ({ value := q.1, kind := SymKind.terminal } : SymbolM))) := hp
      simp only [List.mem_map] at hp'
      obtain ⟨q, _, hqe⟩ := hp'
      rw [← hqe]
    · intro p hp
      have hp' : p ∈ g.nonTerminals.map
          (fun q => (q.1, ({ value := q.1, kind := SymKind.nonterminal } : SymbolM))) := hp
      simp only [List.mem_map] at hp'
      obtain ⟨q, _, hqe⟩ := hp'
      rw [← hqe]
  have hbkeys : ruleKeys base = [] := rfl
  have hbT : asTuples base = [] := rfl
  obtain ⟨hT, hK⟩ := cloneFold_spec g.rules base hmob
    (fun p _ => by rw [hbkeys]; simp) hnd
  constructor
  · rw [hT, hbT]
    rfl
  · have hlen := congrArg List.length hK
    rw [hbkeys] at hlen
    simp only [List.nil_append, List.length_map] at hlen
    have h1 : ∀ (X : GrammarM), (ruleKeys X).length = X.rules.length := by
      intro X
      simp [ruleKeys]
    rw [h1] at hlen
    exact hlen

theorem reconstructM_clone (seq2 : List String) (g3 : GrammarM)
    (hnd : (ruleKeys g3).Nodup) :
    reconstructM seq2 (cloneM g3) = reconstructM seq2 g3 := by
  unfold reconstructM
  obtain ⟨hT, hlen⟩ := cloneM_spec g3 hnd
  rw [hlen, expandAll_congr g3 (cloneM g3) hT]

theorem compressTraceM_lossless (tokens : List String) (h : NoClash tokens) :
    reconstructM ((compressTraceM tokens).getLastD ([], emptyGrammar)).1
      ((compressTraceM tokens).getLastD ([], emptyGrammar)).2 = tokens := by
  rw [compressTraceM_eq, List.getLastD_concat]
  have hG1 : GoodState tokens
      (traceLoop (tokens.length + 1) (tokens, emptyGrammar, 1) []).1.1
      (traceLoop (tokens.length + 1) (tokens, emptyGrammar, 1) []).1.2.1 :=
    traceLoop_inv tokens (tokens.length + 1) (tokens, emptyGrammar, 1) []
      (initial_good tokens) (initial_fresh tokens h) le_rfl
  obtain ⟨hG2, _⟩ := inlineSingletons_post tokens _ _ hG1
  have hG3 := updateRuleUsage_goodState tokens
    (inlineSingletons (traceLoop (tokens.length + 1) (tokens, emptyGrammar, 1) []).1.1
      (traceLoop (tokens.length + 1) (tokens, emptyGrammar, 1) []).1.2.1).1
    (inlineSingletons (traceLoop (tokens.length + 1) (tokens, emptyGrammar, 1) []).1.1
      (traceLoop (tokens.length + 1) (tokens, emptyGrammar, 1) []).1.2.1).2 hG2
  rw [reconstructM_clone _ _ hG3.1.1]
  exact hG3.2.2

theorem processM_validLossless (tokens : List String) (cfg : EngineCfg)
    (h1 : reconstructM (compressM tokens).1 (compressM tokens).2 = tokens)
    (h2 : reconstructM ((compressTraceM tokens).getLastD ([], emptyGrammar)).1
      ((compressTraceM tokens).getLastD ([], emptyGrammar)).2 = tokens) :
    (processM tokens cfg).validLossless = true := by
  by_cases hem : cfg.emergence = true
  · rw [List.getLastD_eq_getLast?] at h2
    simp [processM, hem, h2]
  · simp only [Bool.not_eq_true] at hem
    simp [processM, hem, h1]

/-- C1 (amended): for every token sequence in which no token has the
form `R<k>` of a rule name (`k ≥ 1`), the inducer is lossless —
`reconstruct (compress tokens) = tokens` — and `process` reports
`valid_lossless = true` under every configuration (with or without
emergence tracking).  Without that side condition the property fails
(`c1_counterexample`). -/
theorem c1_lossless (tokens : List String) (h : NoClash tokens) (cfg : EngineCfg) :
    reconstructM (compressM tokens).1 (compressM tokens).2 = tokens ∧
    (processM tokens cfg).validLossless = true := by
  have h1 : reconstructM (compressM tokens).1 (compressM tokens).2 = tokens :=
    (compressM_post tokens h).1.2.2
  exact ⟨h1, processM_validLossless tokens cfg h1 (compressTraceM_lossless tokens h)⟩

theorem c1_lossless_witness :
    NoClash ["a", "b", "a", "b"] ∧
    (reconstructM (compressM ["a", "b", "a", "b"]).1
        (compressM ["a", "b", "a", "b"]).2 = ["a", "b", "a", "b"] ∧
      (processM ["a", "b", "a", "b"] cfgEmergence).validLossless = true) :=
  have hnc : NoClash ["a", "b", "a", "b"] := by
    intro s hs k hk
    apply ne_ruleName_of_head ?_ k
    fin_cases hs <;> decide
  ⟨hnc, c1_lossless ["a", "b", "a", "b"] hnc cfgEmergence⟩

/-- C2 (amended): for every token sequence in which no token has the
form `R<k>` of a rule name (`k ≥ 1`), every rule remaining in the
grammar after `RePair.compress` has external usage at least 2
(occurrences of its LHS name in the compressed sequence plus across the
other rules' right-hand sides).  Without that side condition the
property fails (`c2_counterexample`). -/
theorem c2_rule_utility (tokens : List String) (h : NoClash tokens) :
    ∀ k ∈ ruleKeys (compressM tokens).2,
      2 ≤ externalUsage (compressM tokens).1 (compressM tokens).2 k := by
  obtain ⟨hG, hpost⟩ := compressM_post tokens h
  intro k hk
  rw [externalUsage_eq_usageAll _ _ hG.1.1 hG.1.2.1 k]
  exact hpost k hk

theorem c2_rule_utility_witness :
    NoClash ["c", "d", "c", "d"] ∧
    (∀ k ∈ ruleKeys (compressM ["c", "d", "c", "d"]).2,
      2 ≤ externalUsage (compressM ["c", "d", "c", "d"]).1
        (compressM ["c", "d", "c", "d"]).2 k) :=
  have hnc : NoClash ["c", "d", "c", "d"] := by
    intro s hs k hk
    apply ne_ruleName_of_head ?_ k
    fin_cases hs <;> decide
  ⟨hnc, c2_rule_utility ["c", "d", "c", "d"] hnc⟩

end EmergenceEngine
